import Mathlib

/-!
# Normaliz: sublattice representations and the per-simplex Hilbert basis engine

A shallow embedding of `source/libnormaliz/sublattice_representation.cpp` and
`libnormaliz/simplex.cpp`.  The template parameter `Integer` is instantiated with the
arbitrary precision integers (`Int`), indices (`size_t`, `int`) are natural numbers.
The dense matrix class and the vector helpers live in files that are not part of the
sources at hand; they are modelled here from their description in the specification.
-/

set_option autoImplicit false

/-- Mathlib matrices with integer entries over `Fin r × Fin c`, the target of the algebraic transport. -/
abbrev ZMat (r c : Nat) : Type := Matrix (Fin r) (Fin c) Int

namespace libnormaliz

/-! ## Part 1: definitions -/

/-! ### Vector helpers (`vector_operations.h`) -/

/-- Modelled from the spec: bounded sum `f 0 + ... + f (n-1)`, the accumulation loop
`for (j = 0; j < n; j++) w += f j` of the absent matrix/vector primitives. -/
def rsum (n : Nat) (f : Nat → Int) : Int :=
  ((List.range n).map f).sum

/-- Modelled from the spec: `Iabs` of the absent `integer.h`, the absolute value. -/
def Iabs (a : Int) : Int :=
  if a < 0 then -a else a

/-- Modelled from the spec: `libnormaliz::gcd` of the absent `integer.h`, the non-negative
greatest common divisor. -/
def gcd (a b : Int) : Int :=
  (Int.gcd a b : Int)

/-- Modelled from the spec: `v_abs` of the absent `vector_operations.h`, entrywise absolute value. -/
def v_abs (v : List Int) : List Int :=
  v.map Iabs

/-- Modelled from the spec: `v_scalar_product` of the absent `vector_operations.h`. -/
def v_scalar_product (a b : List Int) : Int :=
  rsum a.length fun i => a.getD i 0 * b.getD i 0

/-- Modelled from the spec: `v_scalar_multiplication` of the absent `vector_operations.h`. -/
def v_scalar_multiplication (v : List Int) (s : Int) : List Int :=
  v.map fun x => x * s

/-- Modelled from the spec: `v_scalar_division` of the absent `vector_operations.h`:
every entry is divided by the scalar with the integer division of C++ (rounding
towards zero); the spec calls the division exact by construction and unchecked. -/
def v_scalar_division (v : List Int) (s : Int) : List Int :=
  v.map fun x => x.tdiv s

/-- Modelled from the spec: `v_reduction_modulo` of the absent `vector_operations.h`:
every coordinate is reduced modulo `m` into `[0, m)`. -/
def v_reduction_modulo (v : List Int) (m : Int) : List Int :=
  v.map fun x => x % m

/-- Modelled from the spec: `v_merge` of the absent `vector_operations.h`, concatenation. -/
def v_merge (a b : List Int) : List Int :=
  a ++ b

/-- Modelled from the spec: `v_gcd` of the absent `vector_operations.h`, the gcd of all entries. -/
def v_gcd (v : List Int) : Int :=
  v.foldl gcd 0

/-- Modelled from the spec: `v_make_prime` of the absent `vector_operations.h`: divide a
vector by the gcd of its entries (nothing happens for the zero vector); the gcd is returned. -/
def v_make_prime (v : List Int) : List Int × Int :=
  let g := v_gcd v
  if g = 0 then (v, g) else (v_scalar_division v g, g)

/-- Modelled from the spec: `v_cut_front` of the absent `vector_operations.h`: the last
`size` entries of a vector. -/
def v_cut_front (v : List Int) (size : Nat) : List Int :=
  v.drop (v.length - size)

/-- Modelled from the spec: `l_cut_front` of the absent `list_operations.h`: strip the
leading entries of every vector of the list, keeping the last `size` ones. -/
def l_cut_front (l : List (List Int)) (size : Nat) : List (List Int) :=
  l.map fun v => v_cut_front v size

/-! ### The dense integer matrix (`matrix.h`) -/

/-- Modelled from the spec: the dense integer matrix class `Matrix<Integer>` of the absent
`matrix.h`: `nr` rows, `nc` columns and the rows `elem`. -/
structure Matrix where
  nr : Nat
  nc : Nat
  elem : List (List Int)
deriving DecidableEq

namespace Matrix

/-- Modelled from the spec: the entry `elem[i][j]` (zero outside the stored rows). -/
def get (M : Matrix) (i j : Nat) : Int :=
  (M.elem.getD i []).getD j 0

/-- Modelled from the spec: the row `elem[i]`. -/
def row (M : Matrix) (i : Nat) : List Int :=
  M.elem.getD i []

/-- The shape invariant of the matrix class: `nr` rows of `nc` entries each. -/
def wf (M : Matrix) : Bool :=
  decide (M.elem.length = M.nr) && M.elem.all fun r => decide (r.length = M.nc)

/-- Modelled from the spec: the matrix with `r` rows and `c` columns and entries `f i j`. -/
def ofFn (r c : Nat) (f : Nat → Nat → Int) : Matrix :=
  ⟨r, c, (List.range r).map fun i => (List.range c).map fun j => f i j⟩

/-- Modelled from the spec: constructor `Matrix<Integer>(r, c)`, the zero matrix. -/
def zero (r c : Nat) : Matrix :=
  ofFn r c fun _ _ => 0

/-- Modelled from the spec: constructor `Matrix<Integer>(n)`, the identity matrix. -/
def identity (n : Nat) : Matrix :=
  ofFn n n fun i j => if i = j then 1 else 0

/-- Modelled from the spec: `multiply`, the matrix product `this * B`. -/
def multiplication (A B : Matrix) : Matrix :=
  ofFn A.nr B.nc fun i j => rsum A.nc fun k => A.get i k * B.get k j

/-- Modelled from the spec: `transpose`. -/
def transpose (M : Matrix) : Matrix :=
  ofFn M.nc M.nr fun i j => M.get j i

/-- Modelled from the spec: `VxM`, the product `v * this` of a row vector with the matrix. -/
def VxM (M : Matrix) (v : List Int) : List Int :=
  (List.range M.nc).map fun i => rsum M.nr fun j => v.getD j 0 * M.get j i

/-- Modelled from the spec: `MxV`, the product `this * v` of the matrix with a column vector. -/
def MxV (M : Matrix) (v : List Int) : List Int :=
  (List.range M.nr).map fun i => rsum M.nc fun j => M.get i j * v.getD j 0

/-- Modelled from the spec: `scalar_multiplication`, every entry multiplied by `s`. -/
def scalar_multiplication (M : Matrix) (s : Int) : Matrix :=
  ⟨M.nr, M.nc, M.elem.map fun r => v_scalar_multiplication r s⟩

/-- Modelled from the spec: `scalar_division`, every entry divided by `s`. -/
def scalar_division (M : Matrix) (s : Int) : Matrix :=
  ⟨M.nr, M.nc, M.elem.map fun r => v_scalar_division r s⟩

/-- Modelled from the spec: `matrixGcd`, the gcd of all entries. -/
def matrix_gcd (M : Matrix) : Int :=
  M.elem.foldl (fun g r => gcd g (v_gcd r)) 0

/-- Modelled from the spec: assignment `elem[k] = r` of a whole row. -/
def set_row (M : Matrix) (k : Nat) (r : List Int) : Matrix :=
  ⟨M.nr, M.nc, M.elem.set k r⟩

/-- Modelled from the spec: assignment `elem[i][j] = x` of one entry. -/
def set_entry (M : Matrix) (i j : Nat) (x : Int) : Matrix :=
  ⟨M.nr, M.nc, M.elem.set i ((M.elem.getD i []).set j x)⟩

/-- Modelled from the spec: `submatrix(key)`, the rows selected by the 1-based indices `key`. -/
def submatrix (M : Matrix) (key : List Int) : Matrix :=
  ⟨key.length, M.nc, key.map fun k => M.row (k - 1).toNat⟩

/-- Modelled from the spec: `makePrime`: every row is divided by the gcd of its entries;
the vector of these gcds is returned along with the matrix. -/
def make_prime (M : Matrix) : Matrix × List Int :=
  (⟨M.nr, M.nc, M.elem.map fun r => (v_make_prime r).1⟩, M.elem.map fun r => (v_make_prime r).2)

/-- The Mathlib matrix of the entries `get i j` with `i < r`, `j < c`. -/
def toZ (M : Matrix) (r c : Nat) : ZMat r c :=
  fun i j => M.get i j

end Matrix

/-- The scalar matrix `c * I_n`. -/
def scalarMatrix (n : Nat) (c : Int) : Matrix :=
  (Matrix.identity n).scalar_multiplication c

/-- The Mathlib vector of the first `n` entries of a list. -/
def vecZ (v : List Int) (n : Nat) : Fin n → Int :=
  fun i => v.getD i 0

/-- Every entry of `v` is a multiple of `c`: the condition under which `v_scalar_division`
by `c` is an exact division. -/
def divides (c : Int) (v : List Int) : Prop :=
  ∀ x ∈ v, c ∣ x

instance (c : Int) (v : List Int) : Decidable (divides c v) := by
  unfold divides; infer_instance

/-! ### `Sublattice_Representation` -/

/-- The class `Sublattice_Representation<Integer>` with the data members used by
`sublattice_representation.cpp`. -/
structure Sublattice_Representation where
  dim : Nat
  rank : Nat
  is_identity : Bool
  A : Matrix
  B : Matrix
  c : Int
  external_index : Int
  Equations : Matrix
  Congruences : Matrix
  Equations_computed : Bool
  Congruences_computed : Bool
deriving DecidableEq

namespace Sublattice_Representation

/-- Constructor `Sublattice_Representation(size_t n)`: `Z^n` as a sublattice of itself; the two
cached matrices are default constructed (empty). -/
def identityRep (n : Nat) : Sublattice_Representation :=
  { dim := n, rank := n, external_index := 1, A := Matrix.identity n, B := Matrix.identity n,
    c := 1, Equations_computed := false, Congruences_computed := false, is_identity := true,
    Equations := ⟨0, 0, []⟩, Congruences := ⟨0, 0, []⟩ }

/-- Method `to_sublattice(const vector<Integer>&)`: `u |-> (uB)/c`. -/
def to_sublattice (S : Sublattice_Representation) (V : List Int) : List Int :=
  if S.is_identity then V
  else
    let N := S.B.VxM V
    if S.c ≠ 1 then v_scalar_division N S.c else N

/-- Method `from_sublattice(const vector<Integer>&)`: `v |-> vA`. -/
def from_sublattice (S : Sublattice_Representation) (V : List Int) : List Int :=
  if S.is_identity then V
  else S.A.VxM V

/-- Method `compose`: first `this`, then `SR`; `none` is the failed assertion. -/
def compose (S SR : Sublattice_Representation) : Option Sublattice_Representation :=
  if S.rank ≠ SR.dim then none
  else if SR.is_identity then some S
  else if S.is_identity then some SR
  else
    let A := SR.A.multiplication S.A
    let B := S.B.multiplication SR.B
    let c := S.c * SR.c
    let g := gcd B.matrix_gcd c
    some { S with
      Equations_computed := false
      Congruences_computed := false
      rank := SR.rank
      A := A
      B := if g > 1 then B.scalar_division g else B
      c := if g > 1 then c.tdiv g else c
      is_identity := S.is_identity && SR.is_identity }

/-- Method `compose_dual`: compose with the dual of `SR`; `none` is a failed assertion. -/
def compose_dual (S SR : Sublattice_Representation) : Option Sublattice_Representation :=
  if S.rank ≠ SR.dim then none
  else if SR.c ≠ 1 then none
  else if SR.is_identity then some S
  else if S.is_identity then
    some { S with
      Equations_computed := false
      Congruences_computed := false
      rank := SR.rank
      A := SR.B.transpose
      B := SR.A.transpose
      is_identity := false }
  else
    let A := SR.B.transpose.multiplication S.A
    let B := S.B.multiplication SR.A.transpose
    let g := gcd B.matrix_gcd S.c
    some { S with
      Equations_computed := false
      Congruences_computed := false
      rank := SR.rank
      A := A
      B := if g > 1 then B.scalar_division g else B
      c := if g > 1 then S.c.tdiv g else S.c
      is_identity := S.is_identity && SR.is_identity }

/-- The representation invariant of the class: `A` is `rank x dim`, `B` is `dim x rank`
and `A * B = c * I_rank`. -/
def Inv (S : Sublattice_Representation) : Prop :=
  S.A.wf = true ∧ S.B.wf = true ∧ S.A.nr = S.rank ∧ S.A.nc = S.dim ∧
    S.B.nr = S.dim ∧ S.B.nc = S.rank ∧ S.A.multiplication S.B = scalarMatrix S.rank S.c

instance (S : Sublattice_Representation) : Decidable S.Inv := by
  unfold Inv; infer_instance

/-- The class invariant together with the meaning of the flag: a representation flagged as
identity has `rank = dim`, `c = 1` and `A = B = I_dim`. -/
def Valid (S : Sublattice_Representation) : Prop :=
  S.Inv ∧ (S.is_identity = true →
    S.rank = S.dim ∧ S.c = 1 ∧ S.A = Matrix.identity S.dim ∧ S.B = Matrix.identity S.dim)

instance (S : Sublattice_Representation) : Decidable S.Valid := by
  unfold Valid; infer_instance

end Sublattice_Representation

/-- Modelled from the spec: the overflow-reporting routines of the absent matrix class that
`initialize` calls.  `row_echelon_reduce` returns the reduced matrix, its rank and the success
flag; `invert_unprotected` returns the scaled inverse, the denominator and the success flag;
`column_trigonalize N rank R` returns the transformed second argument `R` (the matrix `N`
itself is dead after the call) and the success flag. -/
structure MatrixOps where
  row_echelon_reduce : Matrix → Matrix × Nat × Bool
  invert_unprotected : Matrix → Matrix × Int × Bool
  column_trigonalize : Matrix → Nat → Matrix → Matrix × Bool

namespace Sublattice_Representation

/-- Loop `for(;j<dim;++j) if(N[k][j]!=0) break;` started at column `j` with `n` columns left. -/
def first_nonzero_from (N : Matrix) (k : Nat) : Nat → Nat → Nat
  | 0, j => j
  | n + 1, j => if N.get k j ≠ 0 then j else first_nonzero_from N k n (j + 1)

/-- The first column with a non-zero entry in row `k`, or `dim` when there is none. -/
def first_nonzero (N : Matrix) (dim k : Nat) : Nat :=
  first_nonzero_from N k dim 0

/-- The local variables of the corner loop of `initialize`. -/
structure CornerState where
  N : Matrix
  col : List Nat
  col_is_corner : List Bool
  row_index : Int

/-- One pass of the corner loop of `initialize` for the row `k`. -/
def corner_step (dim : Nat) (s : CornerState) (k : Nat) : CornerState :=
  let j := first_nonzero s.N dim k
  let N1 := if s.N.get k j < 0 then s.N.set_row k (v_scalar_multiplication (s.N.row k) (-1)) else s.N
  { N := N1
    col := s.col.set k j
    col_is_corner := s.col_is_corner.set j true
    row_index := s.row_index * N1.get k j }

/-- The corner loop `for(size_t k=0;k<rank;++k)` of `initialize` after its first `m` passes. -/
def corner_loop (N : Matrix) (dim rank m : Nat) : CornerState :=
  (List.range m).foldl (corner_step dim) ⟨N, List.replicate rank 0, List.replicate dim false, 1⟩

/-- Loop `for(size_t k=0;k<rank;++k) A[k]=N[k];`. -/
def copy_rows (A N : Matrix) (rank : Nat) : Matrix :=
  (List.range rank).foldl (fun A k => A.set_row k (N.row k)) A

/-- Loop `for(size_t k=0;k<dim;++k) if(col_is_corner[k]) { B[k][j]=1; j++; }` with `j = 0`
at the start, after its first `m` passes; the state is the matrix and `j`. -/
def projection_loop (B : Matrix) (col_is_corner : List Bool) (m : Nat) : Matrix × Nat :=
  (List.range m).foldl (fun (s : Matrix × Nat) k =>
    if col_is_corner.getD k false then (s.1.set_entry k s.2 1, s.2 + 1) else s) (B, 0)

/-- Loop `for(size_t j=0;j<dim;++j) { if(col_is_corner[j]) continue; P[k][j]=1; k++; }` with
`k = rank` at the start, after its first `m` passes; the state is the matrix and `k`. -/
def augment_loop (P : Matrix) (col_is_corner : List Bool) (rank m : Nat) : Matrix × Nat :=
  (List.range m).foldl (fun (s : Matrix × Nat) j =>
    if col_is_corner.getD j false then s else (s.1.set_entry s.2 j 1, s.2 + 1)) (P, rank)

/-- Method `initialize(M, take_saturation, success)`; the result is the object after the call
together with `success`.  The nested loops that overwrite every entry of `B` (and of `A` in
the saturation case) are written as the matrix of the assigned entries. -/
def initialise (ops : MatrixOps) (S : Sublattice_Representation) (M : Matrix)
    (take_saturation : Bool) : Sublattice_Representation × Bool :=
  let dim := M.nc
  let re := ops.row_echelon_reduce M
  let rank := re.2.1
  let S1 : Sublattice_Representation :=
    { S with Equations_computed := false, Congruences_computed := false, is_identity := false,
             dim := dim, rank := rank }
  if re.2.2 = false then (S1, false)
  else if rank = dim ∧ take_saturation = true then
    ({ S1 with A := Matrix.identity dim, B := Matrix.identity dim, c := 1, is_identity := true }, true)
  else
    let cs := corner_loop re.1 dim rank rank
    let N := cs.N
    if cs.row_index = 1 ∧ rank = dim then
      ({ S1 with A := Matrix.identity dim, B := Matrix.identity dim, c := 1, is_identity := true }, true)
    else if cs.row_index = 1 then
      ({ S1 with A := copy_rows (Matrix.zero rank dim) N rank
                 B := (projection_loop (Matrix.zero dim rank) cs.col_is_corner dim).1
                 c := 1 }, true)
    else if take_saturation = false then
      let A := copy_rows (Matrix.zero rank dim) N rank
      let P := (augment_loop (copy_rows (Matrix.zero dim dim) N rank) cs.col_is_corner rank dim).1
      let inv := ops.invert_unprotected P
      if inv.2.2 = false then
        ({ S1 with A := A, B := Matrix.zero dim rank, c := inv.2.1 }, false)
      else
        ({ S1 with A := A, B := Matrix.ofFn dim rank fun k j => inv.1.get k j, c := inv.2.1 }, true)
    else
      let ct := ops.column_trigonalize N rank (Matrix.identity dim)
      let R_inv := ct.1
      let inv := ops.invert_unprotected R_inv
      if inv.2.2 = false then
        ({ S1 with A := Matrix.zero rank dim, B := Matrix.zero dim rank, c := inv.2.1 }, false)
      else
        ({ S1 with A := Matrix.ofFn rank dim fun i j => inv.1.get i j
                   B := Matrix.ofFn dim rank fun j i => R_inv.get j i
                   c := inv.2.1 }, true)

/-- Modelled from the spec: the shape of a reduced row echelon form `N` of rank `rank` with
`dim` columns: every one of the first `rank` rows has a corner, the corners move strictly
to the right, and the entries above a corner are reduced modulo the corner. -/
def ReducedEchelon (N : Matrix) (rank dim : Nat) : Prop :=
  ∀ k < rank, first_nonzero N dim k < dim ∧
    ∀ l < rank, k < l → first_nonzero N dim k < first_nonzero N dim l ∧
      (N.get k (first_nonzero N dim l)).natAbs < (N.get l (first_nonzero N dim l)).natAbs

instance (N : Matrix) (rank dim : Nat) : Decidable (ReducedEchelon N rank dim) := by
  unfold ReducedEchelon; infer_instance

/-- Modelled from the spec: what a successful `row_echelon_reduce` of `M` returns: a well
formed matrix with the columns of `M` in reduced row echelon form of the returned rank. -/
def RowEchelonContract (M : Matrix) (r : Matrix × Nat × Bool) : Prop :=
  r.2.2 = true → r.1.wf = true ∧ r.1.nc = M.nc ∧ r.2.1 ≤ r.1.nr ∧ ReducedEchelon r.1 r.2.1 M.nc

instance (M : Matrix) (r : Matrix × Nat × Bool) : Decidable (RowEchelonContract M r) := by
  unfold RowEchelonContract; infer_instance

/-- Modelled from the spec: what a successful `invert_unprotected` of `P` returns: a matrix
`Q` and a denominator `c`, not zero, with `P * Q = c * I`. -/
def InvertContract (P : Matrix) (r : Matrix × Int × Bool) : Prop :=
  r.2.2 = true → r.2.1 ≠ 0 ∧ P.multiplication r.1 = scalarMatrix P.nr r.2.1

instance (P : Matrix) (r : Matrix × Int × Bool) : Decidable (InvertContract P r) := by
  unfold InvertContract; infer_instance

/-- Modelled from the spec: `column_trigonalize` transforms its second argument `R` by column
operations, which keep its shape. -/
def ColumnTrigContract (R : Matrix) (r : Matrix × Bool) : Prop :=
  r.1.nr = R.nr ∧ r.1.nc = R.nc

instance (R : Matrix) (r : Matrix × Bool) : Decidable (ColumnTrigContract R r) := by
  unfold ColumnTrigContract; infer_instance

end Sublattice_Representation

/-! ### `Simplex` -/

/-- The class `Simplex<Integer>` with its data members; `status` is the string tag of the
source. -/
structure Simplex where
  dim : Nat
  status : String
  volume : Int
  key : List Int
  Generators : Matrix
  diagonal : List Int
  multiplicators : List Int
  New_Face : List Int
  Support_Hyperplanes : Matrix
  Hilbert_Basis : List (List Int)
  Homogeneous_Elements : List (List Int)
  H_Vector : List Int
deriving DecidableEq

namespace Simplex

/-- Inner loop `for (i = 1; i < d; i++) if ((*j)[i]>new_element[i]) break;` of
`reduce_and_insert_interior`, started at `i` with `n` indices left: the value of `i` after
the loop. -/
def first_exceeding (e x : List Int) : Nat → Nat → Nat
  | 0, i => i
  | n + 1, i => if e.getD i 0 > x.getD i 0 then i else first_exceeding e x n (i + 1)

/-- The scan loop of `reduce_and_insert_interior` over the list `Hilbert_Basis`, with the
remembered coordinate `c`, the elements `scanned` already passed and the elements `rest`
still ahead of the iterator `j`; the result is the list after the call. -/
def reduce_scan (d : Nat) (x : List Int) : Nat → List (List Int) → List (List Int) →
    List (List Int)
  | _, scanned, [] => scanned ++ [x]
  | c, scanned, e :: rest =>
    if x.getD 0 0 < 2 * e.getD 0 0 then (scanned ++ e :: rest) ++ [x]
    else if e.getD c 0 ≤ x.getD c 0 then
      if first_exceeding e x (d - 1) 1 = d then e :: (scanned ++ rest)
      else reduce_scan d x (first_exceeding e x (d - 1) 1) (scanned ++ [e]) rest
    else reduce_scan d x c (scanned ++ [e]) rest

/-- Method `reduce_and_insert_interior(new_element)` as a function of the list
`Hilbert_Basis`. -/
def reduce_and_insert_interior (dim : Nat) (Hilbert_Basis : List (List Int))
    (new_element : List Int) : List (List Int) :=
  if new_element.getD 0 0 = 0 then Hilbert_Basis
  else reduce_scan (dim + 1) new_element 1 [] Hilbert_Basis

/-- Loop `last=-1; for (i = 0; i < dim; i++) if (point[i]<diagonal[i]-1) last=i;`
(`none` is `-1`). -/
def find_last (dim : Nat) (point diagonal : List Int) : Option Nat :=
  (List.range dim).foldl
    (fun last i => if point.getD i 0 < diagonal.getD i 0 - 1 then some i else last) none

/-- Statements `point[last]++; for (i = last+1; i <dim; i++) point[i]=0;`. -/
def advance (dim : Nat) (point : List Int) (last : Nat) : List Int :=
  (List.range' (last + 1) (dim - (last + 1))).foldl (fun p i => p.set i 0)
    (point.set last (point.getD last 0 + 1))

/-- The head of the enumeration loop `while (1)`: the next box point, `none` at `break`. -/
def next_point (dim : Nat) (point diagonal : List Int) : Option (List Int) :=
  match find_last dim point diagonal with
  | none => none
  | some last => some (advance dim point last)

/-- The enumeration loop `while (1) { ... }` shared by the four traversals: `body` is what
the loop does with a point after it was advanced,  `fuel` bounds the number of passes and
`none` means that the bound was hit. -/
def box_loop {σ : Type} (dim : Nat) (diagonal : List Int) (body : List Int → σ → σ) :
    Nat → List Int → σ → Option σ
  | 0, _, _ => none
  | fuel + 1, point, s =>
    match next_point dim point diagonal with
    | none => some s
    | some p => box_loop dim diagonal body fuel p (body p s)

/-- A number of passes that suffices for the enumeration loop: the number of points of
the box. -/
def box_fuel (dim : Nat) (diagonal : List Int) : Nat :=
  ((List.range dim).map fun i => max 1 (diagonal.getD i 0).toNat).prod

/-- The points that the enumeration loop processes, in the order of the loop. -/
def box_points (dim : Nat) (diagonal : List Int) : Option (List (List Int)) :=
  box_loop dim diagonal (fun p l => l ++ [p]) (box_fuel dim diagonal) (List.replicate dim 0) []

/-- Loop `for (k = 0; k < dim; k++) new_element[k]= new_element[k]*multiplicators[k];`. -/
def scale (dim : Nat) (new_element multiplicators : List Int) : List Int :=
  (List.range dim).foldl
    (fun v k => v.set k (v.getD k 0 * multiplicators.getD k 0)) new_element

/-- The transformation of a box point: `Support_Hyperplanes.MxV(point)`, scaled by the
multiplicators and reduced modulo the volume. -/
def transform (S : Simplex) (point : List Int) : List Int :=
  v_reduction_modulo (scale S.dim (S.Support_Hyperplanes.MxV point) S.multiplicators) S.volume

/-- The candidate of a box point: the transformed point with its norm in front
(`norm[0]` is the sum of the `dim` entries, `v_merge(norm,new_element)`). -/
def candidate (S : Simplex) (point : List Int) : List Int :=
  v_merge [rsum S.dim fun k => (transform S point).getD k 0] (transform S point)

/-- The order of `std::set< vector<Integer> >`: lexicographic comparison. -/
def vec_lt : List Int → List Int → Bool
  | [], [] => false
  | [], _ :: _ => true
  | _ :: _, [] => false
  | a :: as, b :: bs => if a < b then true else if b < a then false else vec_lt as bs

/-- Method `insert` of `std::set< vector<Integer> >`, the set being the increasing list of
its elements. -/
def set_insert (x : List Int) : List (List Int) → List (List Int)
  | [] => [x]
  | y :: ys =>
    if vec_lt x y then x :: y :: ys
    else if vec_lt y x then y :: set_insert x ys
    else y :: ys

/-- The set `Candidates` after the enumeration loop of `hilbert_basis_interior`. -/
def candidates (S : Simplex) : Option (List (List Int)) :=
  box_loop S.dim S.diagonal (fun p cs => set_insert (candidate S p) cs)
    (box_fuel S.dim S.diagonal) (List.replicate S.dim 0) []

/-- Loop `c=Candidates.begin(); while(c != Candidates.end()) { reduce_and_insert_interior((*c));
Candidates.erase(c); c=Candidates.begin(); }`: the candidates are consumed in increasing
order. -/
def reduce_all (dim : Nat) (Candidates Hilbert_Basis : List (List Int)) : List (List Int) :=
  Candidates.foldl (reduce_and_insert_interior dim) Hilbert_Basis

/-- The list `Hilbert_Basis` of `hilbert_basis_interior` after the reduction, before the
norm is cut off and the vectors are transformed back. -/
def reduction_phase (S : Simplex) : Option (List (List Int)) :=
  (candidates S).map fun cs => reduce_all S.dim cs S.Hilbert_Basis

/-- The inverse transformation at the end of `hilbert_basis_interior`: `l_cut_front`, then
`*j=Generators.VxM(*j); v_scalar_division(*j,volume);` for every element. -/
def back_transform (S : Simplex) (l : List (List Int)) : List (List Int) :=
  (l_cut_front l S.dim).map fun v => v_scalar_division (S.Generators.VxM v) S.volume

/-- Method `hilbert_basis_interior()`; `none` is the failed assertion. -/
def hilbert_basis_interior (S : Simplex) : Option Simplex :=
  if S.status ≠ "initialized" then none
  else
    match reduction_phase S with
    | none => none
    | some l =>
      some { S with
        Hilbert_Basis := back_transform S l
        status := "Hilbert Basis interior calculated." }

/-- Statement `Face[New_Face[k]-1]=1;` for the entry `nf` of `New_Face`; `none` is an index
outside of `Face`. -/
def seed_step (dim : Nat) (face : Option (List Int)) (nf : Int) : Option (List Int) :=
  face.bind fun f => if 1 ≤ nf ∧ nf ≤ (dim : Int) then some (f.set (nf - 1).toNat 1) else none

/-- Loop `for (k = 0; k <New_Face.size(); k++) Face[New_Face[k]-1]=1;` on `Face(dim,0)`. -/
def seed_face (dim : Nat) (New_Face : List Int) : Option (List Int) :=
  New_Face.foldl (seed_step dim) (some (List.replicate dim 0))

/-- Loop `for (k = 0; k <dim; k++) if (new_element[k]!=0) Face[k]=1;`. -/
def mark_face (dim : Nat) (Face new_element : List Int) : List Int :=
  (List.range dim).foldl (fun f k => if new_element.getD k 0 ≠ 0 then f.set k 1 else f) Face

/-- Loop `counter=0; for (k = 0; k <dim; k++) if (Face[k]) counter++;`. -/
def count_face (dim : Nat) (Face : List Int) : Nat :=
  (List.range dim).foldl (fun counter k => if Face.getD k 0 ≠ 0 then counter + 1 else counter) 0

/-- The value of `counter` for a transformed point in the h-vector traversals; `none` is
an index of `New_Face` outside of `Face`. -/
def facet_count (dim : Nat) (New_Face new_element : List Int) : Option Nat :=
  (seed_face dim New_Face).map fun face => count_face dim (mark_face dim face new_element)

/-- The back transformed point `Help=Generators.VxM(new_element); v_scalar_division(Help,volume);`. -/
def ambient (S : Simplex) (new_element : List Int) : List Int :=
  v_scalar_division (S.Generators.VxM new_element) S.volume

/-- Statement `H_Vector[h]++`; `none` is an index outside of `H_Vector`. -/
def increment (H_Vector : List Int) (h : Int) : Option (List Int) :=
  if 0 ≤ h ∧ h < H_Vector.length then some (H_Vector.set h.toNat (H_Vector.getD h.toNat 0 + 1))
  else none

/-- The part of the loop body of `hilbert_basis_interior_h_vector(Form)` and of
`h_vector(Form)` that counts the h-vector, for one transformed point, as a function of
`(Homogeneous_Elements, H_Vector)`; `none` is an index out of range. -/
def h_step (S : Simplex) (Form new_element : List Int)
    (st : List (List Int) × List Int) : Option (List (List Int) × List Int) :=
  match facet_count S.dim S.New_Face new_element with
  | none => none
  | some counter =>
    let Help := ambient S new_element
    let hom := v_scalar_product Help Form
    let HE := if hom = 1 then st.1 ++ [Help] else st.1
    (increment st.2 ((counter : Int) - hom)).map fun hv => (HE, hv)

/-- Method `h_vector(Form)`; `none` is the failed assertion or an index out of range. -/
def h_vector (S : Simplex) (Form : List Int) : Option Simplex :=
  if S.status ≠ "initialized" then none
  else
    match box_loop S.dim S.diagonal
        (fun p (st : Option (List (List Int) × List Int)) =>
          st.bind fun st => h_step S Form (transform S p) st)
        (box_fuel S.dim S.diagonal) (List.replicate S.dim 0)
        (some (S.Homogeneous_Elements, S.H_Vector)) with
    | some (some st) =>
      some { S with Homogeneous_Elements := st.1, H_Vector := st.2, status := "h vector calculated." }
    | _ => none

/-- Method `hilbert_basis_interior_h_vector(Form)`; `none` is the failed assertion or an
index out of range. -/
def hilbert_basis_interior_h_vector (S : Simplex) (Form : List Int) : Option Simplex :=
  if S.status ≠ "initialized" then none
  else
    match box_loop S.dim S.diagonal
        (fun p (st : Option ((List (List Int) × List Int) × List (List Int))) =>
          st.bind fun st =>
            (h_step S Form (transform S p) st.1).map fun hs =>
              (hs, set_insert (candidate S p) st.2))
        (box_fuel S.dim S.diagonal) (List.replicate S.dim 0)
        (some ((S.Homogeneous_Elements, S.H_Vector), [])) with
    | some (some st) =>
      some { S with
        Homogeneous_Elements := st.1.1
        H_Vector := st.1.2
        Hilbert_Basis := back_transform S (reduce_all S.dim st.2 S.Hilbert_Basis)
        status := "Hilbert Basis interior and h vector calculated." }
    | _ => none

/-- Constructor `Simplex(const vector<int>& k, const Matrix<Integer>& Map)`.  The absent
routine `Invert(Generators, help, volume)` is a parameter: it returns the scaled inverse,
the pivots `help` and the determinant `volume`.  The members that the constructor does not
assign are default constructed (empty). -/
def ofKey (Invert : Matrix → Matrix × List Int × Int) (k : List Int) (Map : Matrix) : Simplex :=
  let Generators := Map.submatrix k
  let inv := Invert Generators
  let sh := inv.1.transpose.make_prime
  { key := k
    Generators := Generators
    dim := k.length
    volume := Iabs inv.2.2
    diagonal := v_abs inv.2.1
    Support_Hyperplanes := sh.1
    multiplicators := sh.2
    Hilbert_Basis := []
    status := "initialized"
    New_Face := []
    Homogeneous_Elements := []
    H_Vector := [] }

end Simplex

namespace Simplex

/-- The head of the enumeration loop by recursion over the coordinates: the last
coordinate below its bound is incremented and the coordinates to its right are zeroed. -/
def next_rec : List Int → List Int → Option (List Int)
  | d :: ds, p :: ps =>
    match next_rec ds ps with
    | some q => some (p :: q)
    | none => if p < d - 1 then some ((p + 1) :: List.replicate ps.length 0) else none
  | _, _ => none

/-- The points of the box: `0 <= point[i] <= diagonal[i]-1` for every coordinate. -/
def in_box : List Int → List Int → Prop
  | [], [] => True
  | d :: ds, p :: ps => 0 ≤ p ∧ p < d ∧ in_box ds ps
  | _, _ => False

instance in_box_decidable : (diagonal point : List Int) → Decidable (in_box diagonal point)
  | [], [] => isTrue trivial
  | [], _ :: _ => isFalse fun h => h
  | _ :: _, [] => isFalse fun h => h
  | d :: ds, p :: ps =>
    have : Decidable (in_box ds ps) := in_box_decidable ds ps
    decidable_of_iff (0 ≤ p ∧ p < d ∧ in_box ds ps) Iff.rfl

/-- The position of a box point in the odometer order (mixed radix value). -/
def mixed_value : List Int → List Int → Int
  | _ :: ds, p :: ps => p * ds.prod + mixed_value ds ps
  | _, _ => 0

/-- The points that follow `point` in the enumeration, at most `fuel` of them. -/
def successors (diagonal : List Int) : Nat → List Int → List (List Int)
  | 0, _ => []
  | fuel + 1, point =>
    match next_rec diagonal point with
    | none => []
    | some q => q :: successors diagonal fuel q

end Simplex

namespace Simplex

/-- Constructor `Simplex(const vector<int>& k)`; the members that the constructor does not
assign are default constructed (empty). -/
def ofKeyOnly (k : List Int) : Simplex :=
  { dim := k.length
    key := k
    volume := 0
    status := "key initialized"
    Generators := ⟨0, 0, []⟩
    diagonal := []
    multiplicators := []
    New_Face := []
    Support_Hyperplanes := ⟨0, 0, []⟩
    Hilbert_Basis := []
    Homogeneous_Elements := []
    H_Vector := [] }

/-- Method `initialize(Map)` with the absent routine `Invert` as a parameter; `none` is the
failed assertion. -/
def initialise (Invert : Matrix → Matrix × List Int × Int) (S : Simplex) (Map : Matrix) :
    Option Simplex :=
  if S.status = "non initialized" then none
  else if S.status = "key initialized" then
    let Generators := Map.submatrix S.key
    let inv := Invert Generators
    let sh := inv.1.transpose.make_prime
    some { S with
      Generators := Generators
      volume := Iabs inv.2.2
      diagonal := v_abs inv.2.1
      Support_Hyperplanes := sh.1
      multiplicators := sh.2
      Hilbert_Basis := []
      Homogeneous_Elements := []
      H_Vector := List.replicate S.dim 0
      status := "initialized" }
  else some S

/-- The value `counter - hom` that the h-vector traversals compute for a box point, the
index of the entry of `H_Vector` that is incremented; `none` is an index of `New_Face`
outside of `Face`. -/
def h_index (S : Simplex) (Form point : List Int) : Option Int :=
  (facet_count S.dim S.New_Face (transform S point)).map fun counter =>
    (counter : Int) - v_scalar_product (ambient S (transform S point)) Form

end Simplex

namespace Simplex

/-- Method `write_new_face(Face)`. -/
def write_new_face (S : Simplex) (Face : List Int) : Simplex :=
  { S with New_Face := Face }

end Simplex

namespace Simplex

/-- The dominance test of `reduce_and_insert_interior`: `e[i] <= x[i]` on the `dim` support
coordinates `i = 1..dim`. -/
def dominates (dim : Nat) (e x : List Int) : Prop :=
  ∀ i, 1 ≤ i → i ≤ dim → e.getD i 0 ≤ x.getD i 0

instance (dim : Nat) (e x : List Int) : Decidable (dominates dim e x) :=
  decidable_of_iff (∀ i, i < dim → e.getD (i + 1) 0 ≤ x.getD (i + 1) 0)
    ⟨fun h i h1 h2 => by
      have := h (i - 1) (by omega)
      rwa [Nat.sub_add_cancel h1] at this,
     fun h i hi => h (i + 1) (by omega) (by omega)⟩

/-- No two distinct vectors `a`, `b` of the list satisfy `a <= b` in each of the `dim+1`
coordinates. -/
def Antichain (dim : Nat) (l : List (List Int)) : Prop :=
  ∀ a ∈ l, ∀ b ∈ l, a ≠ b → ¬ ∀ i, i < dim + 1 → a.getD i 0 ≤ b.getD i 0

instance (dim : Nat) (l : List (List Int)) : Decidable (Antichain dim l) := by
  unfold Antichain; infer_instance

/-- The difference of two vectors, coordinate by coordinate. -/
def v_sub (p q : List Int) : List Int :=
  List.zipWith (fun a b => a - b) p q

/-- Modelled from the spec: the state that the constructors and `initialize` leave, as far
as the absent inversion routine `Invert` determines it.  The status is "initialized" and
`Hilbert_Basis` is empty; `volume` is positive; `diagonal` has `dim` positive entries;
`Generators` and `Support_Hyperplanes` are `dim x dim`; `Generators * X` is `volume * I`
up to sign, where `X` is the scaled inverse that `Invert` returned (the transpose of
`Support_Hyperplanes` with the multiplicators put back); and the box points are one per
residue class: every integer vector differs from a box point by an integer combination of
the generators. -/
structure Initialized (S : Simplex) : Prop where
  status : S.status = "initialized"
  basis_empty : S.Hilbert_Basis = []
  volume_pos : 0 < S.volume
  diagonal_length : S.diagonal.length = S.dim
  diagonal_pos : ∀ d ∈ S.diagonal, 0 < d
  generators_nr : S.Generators.nr = S.dim
  generators_nc : S.Generators.nc = S.dim
  support_nr : S.Support_Hyperplanes.nr = S.dim
  support_nc : S.Support_Hyperplanes.nc = S.dim
  inverse :
    S.Generators.multiplication
        (Matrix.ofFn S.dim S.dim fun j k =>
          S.Support_Hyperplanes.get k j * S.multiplicators.getD k 0)
      = scalarMatrix S.dim S.volume ∨
    S.Generators.multiplication
        (Matrix.ofFn S.dim S.dim fun j k =>
          S.Support_Hyperplanes.get k j * S.multiplicators.getD k 0)
      = scalarMatrix S.dim (-S.volume)
  residues : ∀ p : List Int, p.length = S.dim →
    ∃ r z : List Int, in_box S.diagonal r ∧ z.length = S.dim ∧
      v_sub p r = S.Generators.VxM z

end Simplex

namespace Simplex

/-- The properties of the set `Candidates` behind the reduction: it is strictly increasing
in the order of `std::set`, its vectors have `dim+1` entries, non-negative support
coordinates and the sum of these as their first entry, and with two vectors `e <= x` it
contains the difference `x - e`. -/
structure CandidateSet (dim : Nat) (cs : List (List Int)) : Prop where
  sorted : cs.Pairwise (fun a b => vec_lt a b = true)
  length : ∀ x ∈ cs, x.length = dim + 1
  nonneg : ∀ x ∈ cs, ∀ i, 1 ≤ i → i ≤ dim → 0 ≤ x.getD i 0
  norm : ∀ x ∈ cs, x.getD 0 0 = rsum dim fun k => x.getD (k + 1) 0
  closed : ∀ x ∈ cs, ∀ e ∈ cs, e ≠ x → dominates dim e x → v_sub x e ∈ cs

end Simplex

namespace Simplex

/-- Method `ht1_elements(Form)`: the enumeration loop with the degree-one test alone;
`none` is the failed assertion. -/
def ht1_elements (S : Simplex) (Form : List Int) : Option Simplex :=
  if S.status ≠ "initialized" then none
  else
    match box_loop S.dim S.diagonal
        (fun p (HE : List (List Int)) =>
          let Help := ambient S (transform S p)
          if v_scalar_product Help Form = 1 then HE ++ [Help] else HE)
        (box_fuel S.dim S.diagonal) (List.replicate S.dim 0) S.Homogeneous_Elements with
    | some HE => some { S with Homogeneous_Elements := HE, status := "ht1 elements calculated." }
    | none => none

end Simplex

namespace Matrix

/-- Modelled from the spec: `append(M)` of the absent matrix class, the rows of `N` are put
below the rows of the matrix. -/
def append (M N : Matrix) : Matrix :=
  ⟨M.nr + N.nr, M.nc, M.elem ++ N.elem⟩

/-- Modelled from the spec: `append(v)` of the absent matrix class, the vector `v` becomes
the new last row. -/
def append_row (M : Matrix) (v : List Int) : Matrix :=
  ⟨M.nr + 1, M.nc, M.elem ++ [v]⟩

end Matrix

namespace Sublattice_Representation

/-- Method `to_sublattice_dual(const vector<Integer>&)`: `A * v`, made prime. -/
def to_sublattice_dual (S : Sublattice_Representation) (V : List Int) : List Int :=
  let N := if S.is_identity then V else S.A.MxV V
  (v_make_prime N).1

/-- Method `from_sublattice_dual(const vector<Integer>&)`: `B * v`, made prime. -/
def from_sublattice_dual (S : Sublattice_Representation) (V : List Int) : List Int :=
  let N := if S.is_identity then V else S.B.MxV V
  (v_make_prime N).1

/-- Constructor `Sublattice_Representation(const Matrix<Integer>& M, bool take_saturation)`.
The members are `S0` before the first statement and those of the local `mpz_SLR` are
`mpz_S0`; `ops` are the matrix routines of the type `Integer` and `mpz_ops` those of
`mpz_class`.  The conversions `mat_to_mpz`, `mat_to_Int` and `convert` keep the values. -/
def ofMatrix (ops mpz_ops : MatrixOps) (S0 mpz_S0 : Sublattice_Representation) (M : Matrix)
    (take_saturation : Bool) : Sublattice_Representation :=
  let r := initialise ops S0 M take_saturation
  if r.2 = false then
    let mpz_SLR := (initialise mpz_ops mpz_S0 M take_saturation).1
    { r.1 with A := mpz_SLR.A, B := mpz_SLR.B, c := mpz_SLR.c, rank := mpz_SLR.rank }
  else r.1

/-- Method `compose` with the object kept at a failed assertion: `Except.error` holds
`*this` at the moment `assert(rank == SR.dim)` fails, `Except.ok` holds it after the
return. -/
def compose_run (S SR : Sublattice_Representation) :
    Except Sublattice_Representation Sublattice_Representation :=
  if S.rank ≠ SR.dim then Except.error S
  else if SR.is_identity then Except.ok S
  else if S.is_identity then Except.ok SR
  else
    let S1 := { S with Equations_computed := false, Congruences_computed := false }
    let S2 := { S1 with rank := SR.rank }
    let S3 := { S2 with A := SR.A.multiplication S2.A }
    let S4 := { S3 with B := S3.B.multiplication SR.B }
    let S5 := { S4 with c := S4.c * SR.c }
    let g := gcd S5.B.matrix_gcd S5.c
    let S6 := if g > 1 then { S5 with c := S5.c.tdiv g, B := S5.B.scalar_division g } else S5
    Except.ok { S6 with is_identity := S6.is_identity && SR.is_identity }

/-- Method `compose_dual` with the object kept at a failed assertion: `Except.error` holds
`*this` at the moment `assert(rank == SR.dim)` or `assert(SR.c==1)` fails, `Except.ok` holds
it after the return. -/
def compose_dual_run (S SR : Sublattice_Representation) :
    Except Sublattice_Representation Sublattice_Representation :=
  if S.rank ≠ SR.dim then Except.error S
  else if SR.c ≠ 1 then Except.error S
  else if SR.is_identity then Except.ok S
  else
    let S1 := { S with Equations_computed := false, Congruences_computed := false }
    let S2 := { S1 with rank := SR.rank }
    if S2.is_identity then
      Except.ok { S2 with A := SR.B.transpose, B := SR.A.transpose, is_identity := false }
    else
      let S3 := { S2 with A := SR.B.transpose.multiplication S2.A }
      let S4 := { S3 with B := S3.B.multiplication SR.A.transpose }
      let g := gcd S4.B.matrix_gcd S4.c
      let S5 := if g > 1 then { S4 with c := S4.c.tdiv g, B := S4.B.scalar_division g } else S4
      Except.ok { S5 with is_identity := S5.is_identity && SR.is_identity }

/-- The statements of the loop of `make_congruences` for one `k`: if `A_Copy[k][k]!=1` the
row `Transf[k]` is appended to `Transf2`, its entry `dim` becomes `A_Copy[k][k]` and each of
its first `dim` entries is reduced with `%=` (the remainder of C++, which has the sign of the
dividend) and lifted by the modulus when it is negative. -/
def congruence_step (dim : Nat) (A_Copy Transf : Matrix) (Transf2 : Matrix) (k : Nat) : Matrix :=
  if A_Copy.get k k ≠ 1 then
    let T0 := Transf2.append_row (Transf.row k)
    let T1 := T0.set_entry (T0.nr - 1) dim (A_Copy.get k k)
    (List.range dim).foldl (fun (T : Matrix) j =>
      let T2 := T.set_entry (T.nr - 1) j ((T.get (T.nr - 1) j).tmod (A_Copy.get k k))
      if T2.get (T2.nr - 1) j < 0 then
        T2.set_entry (T2.nr - 1) j (T2.get (T2.nr - 1) j + A_Copy.get k k)
      else T2) T1
  else Transf2

/-- Method `make_congruences`.  The absent routine `SmithNormalForm` is a parameter: from
the matrix it returns the diagonal form (the matrix `A_Copy` after the call), the
transformation `Transf` and the rank (`dummy`). -/
def make_congruences (SmithNormalForm : Matrix → Matrix × Matrix × Nat)
    (S : Sublattice_Representation) : Sublattice_Representation :=
  if S.c = 1 then
    { S with Congruences := Matrix.zero 0 (S.dim + 1), Congruences_computed := true,
             external_index := 1 }
  else
    let snf := SmithNormalForm S.A
    let A_Copy := snf.1
    let Transf := (snf.2.1.append (Matrix.zero 1 S.dim)).transpose
    let Transf2 := (List.range S.rank).foldl (congruence_step S.dim A_Copy Transf)
      (Matrix.zero 0 (S.dim + 1))
    { S with Congruences := Transf2, Congruences_computed := true,
             external_index :=
               (List.range Transf2.nr).foldl (fun e i => e * Transf2.get i S.dim) 1 }

/-- Method `getCongruencesMatrix()`: the returned matrix and the object after the call. -/
def getCongruencesMatrix (SmithNormalForm : Matrix → Matrix × Matrix × Nat)
    (S : Sublattice_Representation) : Matrix × Sublattice_Representation :=
  let S1 := if S.Congruences_computed = false then make_congruences SmithNormalForm S else S
  (S1.Congruences, S1)

/-- Method `getExternalIndex()`: the returned index and the object after the call. -/
def getExternalIndex (SmithNormalForm : Matrix → Matrix × Matrix × Nat)
    (S : Sublattice_Representation) : Int × Sublattice_Representation :=
  let S1 := if S.Congruences_computed = false then make_congruences SmithNormalForm S else S
  (S1.external_index, S1)

/-- The invariant of the cache of the congruences: when the flag `Congruences_computed` is
set, the members `Congruences` and `external_index` hold what `make_congruences` computes
for the object, so that computing them again changes nothing. -/
def CongruencesCached (SmithNormalForm : Matrix → Matrix × Matrix × Nat)
    (S : Sublattice_Representation) : Prop :=
  S.Congruences_computed = true → make_congruences SmithNormalForm S = S

instance (SmithNormalForm : Matrix → Matrix × Matrix × Nat) (S : Sublattice_Representation) :
    Decidable (CongruencesCached SmithNormalForm S) := by
  unfold CongruencesCached; infer_instance

end Sublattice_Representation

namespace Sublattice_Representation

/-- The value of the local `row_index` of `initialize` after the corner loop: the product
of the corner elements of the row echelon form that `row_echelon_reduce` returned, each
made positive. -/
def row_index (ops : MatrixOps) (M : Matrix) : Int :=
  (corner_loop (ops.row_echelon_reduce M).1 M.nc (ops.row_echelon_reduce M).2.1
    (ops.row_echelon_reduce M).2.1).row_index

/-- The two tests of `initialize` that lead to the identity representation:
`rank==dim && take_saturation` after the successful row echelon reduction, and
`row_index==1 && rank==dim` after the corner loop. -/
def identity_case (ops : MatrixOps) (M : Matrix) (take_saturation : Bool) : Prop :=
  (ops.row_echelon_reduce M).2.2 = true ∧ (ops.row_echelon_reduce M).2.1 = M.nc ∧
    (take_saturation = true ∨ row_index ops M = 1)

instance (ops : MatrixOps) (M : Matrix) (take_saturation : Bool) :
    Decidable (identity_case ops M take_saturation) := by
  unfold identity_case; infer_instance

end Sublattice_Representation

/-! ### Concrete data used by the examples -/

/-- The representation of the sublattice `2Z x 3Z` of `Z^2` with annihilator `6`. -/
def exRep : Sublattice_Representation :=
  { dim := 2, rank := 2, is_identity := false, A := ⟨2, 2, [[2, 0], [0, 3]]⟩,
    B := ⟨2, 2, [[3, 0], [0, 2]]⟩, c := 6, external_index := 1,
    Equations := ⟨0, 0, []⟩, Congruences := ⟨0, 0, []⟩,
    Equations_computed := false, Congruences_computed := false }

/-- The representation of `2Z^2` with `A = B = 2I` and `c = 4`, the one that `initialize`
builds from the rows `(2,0)`, `(0,2)` without saturation when the inversion returns the
determinant as denominator. -/
def exRepTwice : Sublattice_Representation :=
  { dim := 2, rank := 2, is_identity := false, A := ⟨2, 2, [[2, 0], [0, 2]]⟩,
    B := ⟨2, 2, [[2, 0], [0, 2]]⟩, c := 4, external_index := 1,
    Equations := ⟨0, 0, []⟩, Congruences := ⟨0, 0, []⟩,
    Equations_computed := false, Congruences_computed := false }

/-- A representation of the lattice generated by `(1,2)`, `(0,3)`: `B` is three times the
inverse of `A` and `c = 3`. -/
def exRepSkew : Sublattice_Representation :=
  { dim := 2, rank := 2, is_identity := false, A := ⟨2, 2, [[1, 2], [0, 3]]⟩,
    B := ⟨2, 2, [[3, -2], [0, 1]]⟩, c := 3, external_index := 1,
    Equations := ⟨0, 0, []⟩, Congruences := ⟨0, 0, []⟩,
    Equations_computed := false, Congruences_computed := false }

/-- Matrix routines that answer on the matrix with the rows `(2,0)`, `(0,2)` and report
failure on every other input. -/
def exOps : MatrixOps :=
  { row_echelon_reduce := fun M =>
      if M = ⟨2, 2, [[2, 0], [0, 2]]⟩ then (M, 2, true) else (M, 0, false)
    invert_unprotected := fun P =>
      if P = ⟨2, 2, [[2, 0], [0, 2]]⟩ then (⟨2, 2, [[2, 0], [0, 2]]⟩, 4, true)
      else (P, 0, false)
    column_trigonalize := fun _ _ R => (R, true) }

/-- The inversion routine on the generators `(2,0)`, `(0,3)`: the scaled inverse, the pivots
`2`, `3` and the determinant `6` (any other matrix is returned unchanged). -/
def exInvert (G : Matrix) : Matrix × List Int × Int :=
  if G = ⟨2, 2, [[2, 0], [0, 3]]⟩ then (⟨2, 2, [[3, 0], [0, 2]]⟩, [2, 3], 6) else (G, [], 0)

/-- The simplex of the generators `(2,0)`, `(0,3)`. -/
def exSimplex : Simplex :=
  Simplex.ofKey exInvert [1, 2] ⟨2, 2, [[2, 0], [0, 3]]⟩

/-- The simplex of the key `(1,2)` after `initialize` with the generators `(2,0)`, `(0,3)`:
`H_Vector` has `dim` zero entries. -/
def exSimplexH : Simplex :=
  ((Simplex.ofKeyOnly [1, 2]).initialise exInvert ⟨2, 2, [[2, 0], [0, 3]]⟩).getD
    (Simplex.ofKeyOnly [1, 2])

/-- The initialized simplex of the examples with the new face `(1)`. -/
def exSimplexFace : Simplex :=
  exSimplexH.write_new_face [1]

/-- A Smith normal form routine that answers on the matrix with the rows `(2,0)`, `(0,3)`:
the diagonal form `diag(1,6)` and the transformation with the rows `(-1,3)`, `(1,-2)`; any
other matrix is returned unchanged, with the transformation of no columns. -/
def exSmith (A : Matrix) : Matrix × Matrix × Nat :=
  if A = ⟨2, 2, [[2, 0], [0, 3]]⟩ then (⟨2, 2, [[1, 0], [0, 6]]⟩, ⟨2, 2, [[-1, 3], [1, -2]]⟩, 2)
  else (A, ⟨0, 0, []⟩, 0)

/-- Matrix routines of a narrow integer type on which every operation reports overflow. -/
def exOverflowOps : MatrixOps :=
  { row_echelon_reduce := fun M => (M, 0, false)
    invert_unprotected := fun P => (P, 0, false)
    column_trigonalize := fun _ _ R => (R, false) }

/-- Matrix routines for inputs that are in reduced row echelon form already:
`row_echelon_reduce` returns its input with the number of rows as rank,
`invert_unprotected` answers on the identity matrices, and `column_trigonalize` reports
overflow and leaves its argument as it was. -/
def exEchelonOps : MatrixOps :=
  { row_echelon_reduce := fun M => (M, M.nr, true)
    invert_unprotected := fun P =>
      if P = Matrix.identity P.nr then (P, 1, true) else (P, 0, false)
    column_trigonalize := fun _ _ R => (R, false) }

/-- The identity representation of `Z^2` as the constructor `Sublattice_Representation(2)`
builds it. -/
def exIdentity : Sublattice_Representation :=
  Sublattice_Representation.identityRep 2

/-- The matrix with the rows `(2^62, 1)`, `(1, 2^62)`: its entries fit a 64 bit integer, the
corner `2^124 - 1` of its row echelon form does not. -/
def exBigMatrix : Matrix :=
  ⟨2, 2, [[4611686018427387904, 1], [1, 4611686018427387904]]⟩

/-- The arbitrary precision routines on `exBigMatrix`: the reduced row echelon form with the
rows `(1, 2^62)`, `(0, 2^124 - 1)` and the rank `2`; the other routines are not reached. -/
def exMpzOps : MatrixOps :=
  { row_echelon_reduce := fun M =>
      if M = exBigMatrix then
        (⟨2, 2, [[1, 4611686018427387904], [0, 21267647932558653966460912964485513215]]⟩, 2, true)
      else (M, 0, false)
    invert_unprotected := fun P => (P, 0, false)
    column_trigonalize := fun _ _ R => (R, true) }

namespace Simplex

/-- Following the claim: the scan of the basis list without the remembered coordinate.
The elements `scanned` were passed already, `rest` are still ahead: at the first element
`e` with `x[0] < 2*e[0]` the scan stops and `x` is appended at the end; at an earlier element
`e` with `e[i] <= x[i]` for all `i` in `1..dim` the element is moved to the front and `x` is
discarded; when the list is exhausted `x` is appended at the end. -/
def naive_scan (dim : Nat) (x : List Int) : List (List Int) → List (List Int) → List (List Int)
  | scanned, [] => scanned ++ [x]
  | scanned, e :: rest =>
    if x.getD 0 0 < 2 * e.getD 0 0 then (scanned ++ e :: rest) ++ [x]
    else if dominates dim e x then e :: (scanned ++ rest)
    else naive_scan dim x (scanned ++ [e]) rest

/-- Following the claim: the naive specification of `reduce_and_insert_interior`: nothing
happens for `x[0] = 0`, otherwise the list is scanned from its first element. -/
def naive_reduce_and_insert (dim : Nat) (L : List (List Int)) (x : List Int) : List (List Int) :=
  if x.getD 0 0 = 0 then L else naive_scan dim x [] L

end Simplex

namespace Simplex

/-- The list is sorted by non-decreasing norm, the first coordinate of its vectors. -/
def norm_sorted (l : List (List Int)) : Prop :=
  l.Pairwise fun a b => a.getD 0 0 ≤ b.getD 0 0

instance (l : List (List Int)) : Decidable (norm_sorted l) := by
  unfold norm_sorted; infer_instance

end Simplex

/-- The inversion routine on the generators `(3,2)`, `(0,3)`: the scaled inverse with the
rows `(3,-2)`, `(0,3)`, the pivots `3`, `3` and the determinant `9` (any other matrix is
returned unchanged). -/
def exInvertSkew (G : Matrix) : Matrix × List Int × Int :=
  if G = ⟨2, 2, [[3, 2], [0, 3]]⟩ then (⟨2, 2, [[3, -2], [0, 3]]⟩, [3, 3], 9) else (G, [], 0)

/-- The simplex of the generators `(3,2)`, `(0,3)`. -/
def exSimplexSkew : Simplex :=
  Simplex.ofKey exInvertSkew [1, 2] ⟨2, 2, [[3, 2], [0, 3]]⟩

/-- The inversion routine on the generators `(1,0)`, `(1,2)`: the scaled inverse with the
rows `(2,0)`, `(-1,1)`, the pivots `1`, `2` and the determinant `2` (any other matrix is
returned unchanged). -/
def exInvertUnit (G : Matrix) : Matrix × List Int × Int :=
  if G = ⟨2, 2, [[1, 0], [1, 2]]⟩ then (⟨2, 2, [[2, 0], [-1, 1]]⟩, [1, 2], 2) else (G, [], 0)

/-- The simplex of the key `(1,2)` after `initialize` with the generators `(1,0)`, `(1,2)`,
on both of which the form `(1,0)` is `1`. -/
def exSimplexUnit : Simplex :=
  ((Simplex.ofKeyOnly [1, 2]).initialise exInvertUnit ⟨2, 2, [[1, 0], [1, 2]]⟩).getD
    (Simplex.ofKeyOnly [1, 2])

namespace Simplex

/-- One step of the odometer from the point `p` to the point `q`: `last` is the last
coordinate of `p` below its bound `diagonal[last]-1`; it is incremented, the coordinates to
its left are kept and the coordinates to its right are zero. -/
def odometer_step (dim : Nat) (diagonal p q : List Int) : Prop :=
  ∃ last, last < dim ∧ (p.getD last 0 < diagonal.getD last 0 - 1 ∧
    (∀ i, i < dim → last < i → ¬ p.getD i 0 < diagonal.getD i 0 - 1) ∧
    q = p.take last ++ (p.getD last 0 + 1) :: List.replicate (dim - (last + 1)) 0)

instance (dim : Nat) (diagonal p q : List Int) : Decidable (odometer_step dim diagonal p q) := by
  unfold odometer_step; infer_instance

end Simplex

namespace Simplex

/-- The end of a call of a method of `Simplex` that begins with an assertion: the failed
assertion with the object at that moment, the return with the object after the call, or an
access outside of a vector. -/
inductive Run where
  | asserted (S : Simplex)
  | returned (S : Simplex)
  | undefined
deriving DecidableEq

/-- A method whose first statement is `assert(status == "initialized")`, with the object
kept at the failed assertion: `hilbert_basis_interior()`,
`hilbert_basis_interior_h_vector(Form)`, `h_vector(Form)` and `ht1_elements(Form)` begin in
this way; `method` is what the method does. -/
def run_initialized (method : Simplex → Option Simplex) (S : Simplex) : Run :=
  if S.status ≠ "initialized" then Run.asserted S
  else
    match method S with
    | some T => Run.returned T
    | none => Run.undefined

end Simplex

namespace Sublattice_Representation

/-- The representations that the class can build: from the constructor
`Sublattice_Representation(n)` or a successful `initialize`, by calls of `compose` and
`compose_dual` with any argument. -/
inductive Reachable : Sublattice_Representation → Prop where
  | ofDim (n : Nat) : Reachable (identityRep n)
  | ofInitialise (ops : MatrixOps) (S0 : Sublattice_Representation) (M : Matrix)
      (take_saturation : Bool) :
      (initialise ops S0 M take_saturation).2 = true →
      Reachable (initialise ops S0 M take_saturation).1
  | compose (S SR T : Sublattice_Representation) :
      Reachable S → S.compose SR = some T → Reachable T
  | compose_dual (S SR T : Sublattice_Representation) :
      Reachable S → S.compose_dual SR = some T → Reachable T

end Sublattice_Representation

namespace Simplex

/-- The re-indexing loop of `hilbert_basis_interior_h_vector(Map, Form)` and of
`h_vector(Map, Form)`:
`for (i = 0; i <New_Face.size(); i++) for ( j = 0; j <dim; j++)
if (New_Face[i]==key[j]) New_Face[i]=j+1;`. -/
def remap_new_face (dim : Nat) (key New_Face : List Int) : List Int :=
  (List.range New_Face.length).foldl (fun (NF : List Int) i =>
    (List.range dim).foldl (fun (NF : List Int) j =>
      if NF.getD i 0 = key.getD j 0 then NF.set i ((j : Int) + 1) else NF) NF) New_Face

/-- Method `h_vector(Map, Form)` with the absent routine `Invert` as a parameter; `none` is
the failed assertion or an index out of range. -/
def h_vector_Map (Invert : Matrix → Matrix × List Int × Int) (S : Simplex) (Map : Matrix)
    (Form : List Int) : Option Simplex :=
  if S.status ≠ "key initialized" then none
  else
    let Generators := Map.submatrix S.key
    let inv := Invert Generators
    let sh := inv.1.transpose.make_prime
    h_vector { S with
      Generators := Generators
      volume := Iabs inv.2.2
      diagonal := v_abs inv.2.1
      Support_Hyperplanes := sh.1
      multiplicators := sh.2
      Homogeneous_Elements := []
      H_Vector := List.replicate S.dim 0
      status := "initialized"
      New_Face := remap_new_face S.dim S.key S.New_Face } Form

/-- Method `hilbert_basis_interior_h_vector(Map, Form)` with the absent routine `Invert` as
a parameter; `none` is the failed assertion or an index out of range. -/
def hilbert_basis_interior_h_vector_Map (Invert : Matrix → Matrix × List Int × Int)
    (S : Simplex) (Map : Matrix) (Form : List Int) : Option Simplex :=
  if S.status ≠ "key initialized" then none
  else
    let Generators := Map.submatrix S.key
    let inv := Invert Generators
    let sh := inv.1.transpose.make_prime
    hilbert_basis_interior_h_vector { S with
      Generators := Generators
      volume := Iabs inv.2.2
      diagonal := v_abs inv.2.1
      Support_Hyperplanes := sh.1
      multiplicators := sh.2
      Hilbert_Basis := []
      Homogeneous_Elements := []
      H_Vector := List.replicate S.dim 0
      status := "initialized"
      New_Face := remap_new_face S.dim S.key S.New_Face } Form

/-- The 1-based position of the value `v` in `key`: `j+1` for the first `j` with
`key[j] = v` (`0` when `v` does not occur). -/
def key_position (key : List Int) (v : Int) : Int :=
  if v ∈ key then (key.indexOf v : Int) + 1 else 0

end Simplex

namespace Simplex

/-- The value of one entry of `New_Face` after the inner loop
`for ( j = 0; j <dim; j++) if (New_Face[i]==key[j]) New_Face[i]=j+1;` that started with the
value `v`: the comparison reads the entry again after every assignment. -/
def remap_entry (m : Nat) (key : List Int) (v : Int) : Int :=
  (List.range m).foldl (fun (v : Int) j => if v = key.getD j 0 then (j : Int) + 1 else v) v

end Simplex

namespace Simplex

/-- Modelled from the spec: the box points are one per residue class of the lattice of the
generators: two box points that differ by an integer combination of the generators are
equal.  This is a property of the pivots that the absent inversion routine returns. -/
def OnePerClass (S : Simplex) : Prop :=
  ∀ p q : List Int, in_box S.diagonal p → in_box S.diagonal q →
    (∃ z : List Int, z.length = S.dim ∧ v_sub p q = S.Generators.VxM z) → p = q

end Simplex

namespace Simplex

/-- Method `hilbert_basis_interior(Map)` with the absent routine `Invert` as a parameter;
`none` is the failed assertion `assert(status != "non initialized")` or what
`hilbert_basis_interior()` returns.  A status that is none of the strings the method
compares with reaches the end of the body with no statement executed. -/
def hilbert_basis_interior_Map (Invert : Matrix → Matrix × List Int × Int) (S : Simplex)
    (Map : Matrix) : Option Simplex :=
  if S.status ≠ "hilbert basis calculated" then
    if S.status = "non initialized" then none
    else if S.status = "initialized" then hilbert_basis_interior S
    else if S.status = "key initialized" then
      let Generators := Map.submatrix S.key
      let inv := Invert Generators
      let sh := inv.1.transpose.make_prime
      hilbert_basis_interior { S with
        Generators := Generators
        volume := Iabs inv.2.2
        diagonal := v_abs inv.2.1
        Support_Hyperplanes := sh.1
        multiplicators := sh.2
        Hilbert_Basis := []
        status := "initialized" }
    else some S
  else some S

end Simplex

namespace Sublattice_Representation

end Sublattice_Representation

theorem rsum_eq_sum (n : Nat) (f : Nat → Int) : rsum n f = ∑ i : Fin n, f i := by
  unfold rsum
  rw [← Finset.sum_range]
  induction n with
  | zero => simp
  | succ k ih => rw [List.sum_range_succ, Finset.sum_range_succ, ih]

namespace Matrix

theorem get_ofFn (r c : Nat) (f : Nat → Nat → Int) (i j : Nat) (hi : i < r) (hj : j < c) :
    (ofFn r c f).get i j = f i j := by
  simp [get, ofFn, List.getD_eq_getElem, hi, hj]

theorem wf_ofFn (r c : Nat) (f : Nat → Nat → Int) : (ofFn r c f).wf = true := by
  simp [wf, ofFn]

theorem wf_iff (M : Matrix) :
    M.wf = true ↔ M.elem.length = M.nr ∧ ∀ r ∈ M.elem, r.length = M.nc := by
  simp [wf]

theorem ext_toZ (A B : Matrix) (r c : Nat) (hA : A.wf = true) (hB : B.wf = true)
    (hAr : A.nr = r) (hAc : A.nc = c) (hBr : B.nr = r) (hBc : B.nc = c)
    (h : A.toZ r c = B.toZ r c) : A = B := by
  obtain ⟨ar, ac, ae⟩ := A
  obtain ⟨br, bc, be⟩ := B
  simp only at hAr hAc hBr hBc
  subst hAr hAc hBr hBc
  rw [wf_iff] at hA hB
  simp only at hA hB
  obtain ⟨hA1, hA2⟩ := hA
  obtain ⟨hB1, hB2⟩ := hB
  have : ae = be := by
    apply List.ext_getElem (by omega)
    intro i h1 h2
    have l1 := hA2 _ (List.getElem_mem h1)
    have l2 := hB2 _ (List.getElem_mem h2)
    apply List.ext_getElem (by omega)
    intro j h3 h4
    have := congrFun (congrFun h ⟨i, by omega⟩) ⟨j, by omega⟩
    simpa [toZ, get, List.getD_eq_getElem, h1, h2, h3, h4] using this
  subst this
  rfl


theorem toZ_ofFn (r c : Nat) (f : Nat → Nat → Int) :
    (ofFn r c f).toZ r c = fun (i : Fin r) (j : Fin c) => f i j := by
  funext i j
  simp [toZ, get_ofFn, i.isLt, j.isLt]

theorem toZ_multiplication (A B : Matrix) (r k c : Nat) (hr : A.nr = r) (hk : A.nc = k)
    (hc : B.nc = c) : (A.multiplication B).toZ r c = A.toZ r k * B.toZ k c := by
  subst hr hk hc
  unfold multiplication
  rw [toZ_ofFn]
  funext i j
  simp [Matrix.mul_apply, rsum_eq_sum, toZ]

theorem toZ_transpose (M : Matrix) (r c : Nat) (hr : M.nr = r) (hc : M.nc = c) :
    M.transpose.toZ c r = (M.toZ r c).transpose := by
  subst hr hc
  unfold transpose
  rw [toZ_ofFn]
  funext i j
  simp [toZ, Matrix.transpose_apply]

theorem toZ_identity (n : Nat) : (identity n).toZ n n = 1 := by
  unfold identity
  rw [toZ_ofFn]
  funext i j
  simp [Matrix.one_apply, Fin.ext_iff]

theorem get_map (M : Matrix) (f : Int → Int) (hf : f 0 = 0) (i j : Nat) :
    (Matrix.mk M.nr M.nc (M.elem.map fun r => r.map f)).get i j = f (M.get i j) := by
  have h1 : (List.map (fun r => List.map f r) M.elem).getD i [] = List.map f (M.elem.getD i []) := by
    have := List.getD_map M.elem ([] : List Int) (n := i) (fun r => List.map f r)
    simpa using this
  have h2 : ∀ l : List Int, (l.map f).getD j 0 = f (l.getD j 0) := by
    intro l
    have := List.getD_map l (0 : Int) (n := j) f
    rw [hf] at this
    exact this
  simp only [get, h1, h2]

theorem get_scalar_multiplication (M : Matrix) (s : Int) (i j : Nat) :
    (M.scalar_multiplication s).get i j = M.get i j * s := by
  unfold scalar_multiplication v_scalar_multiplication
  exact get_map M (fun x => x * s) (by simp) i j

theorem get_scalar_division (M : Matrix) (s : Int) (i j : Nat) :
    (M.scalar_division s).get i j = (M.get i j).tdiv s := by
  unfold scalar_division v_scalar_division
  exact get_map M (fun x => x.tdiv s) (by simp) i j

theorem wf_map (M : Matrix) (f : List Int → List Int) (hf : ∀ l, (f l).length = l.length)
    (h : M.wf = true) : (Matrix.mk M.nr M.nc (M.elem.map f)).wf = true := by
  rw [wf_iff] at h ⊢
  obtain ⟨h1, h2⟩ := h
  refine ⟨by simpa using h1, ?_⟩
  intro r hr
  simp only [List.mem_map] at hr
  obtain ⟨a, ha, rfl⟩ := hr
  rw [hf]
  exact h2 a ha

theorem wf_scalar_multiplication (M : Matrix) (s : Int) (h : M.wf = true) :
    (M.scalar_multiplication s).wf = true :=
  wf_map M _ (by intro l; simp [v_scalar_multiplication]) h

theorem wf_scalar_division (M : Matrix) (s : Int) (h : M.wf = true) :
    (M.scalar_division s).wf = true :=
  wf_map M _ (by intro l; simp [v_scalar_division]) h

end Matrix

theorem toZ_scalarMatrix (n : Nat) (c : Int) : (scalarMatrix n c).toZ n n = c • (1 : ZMat n n) := by
  funext i j
  have := Matrix.get_scalar_multiplication (Matrix.identity n) c i j
  have h2 := congrFun (congrFun (Matrix.toZ_identity n) i) j
  simp only [Matrix.toZ] at h2
  simp only [scalarMatrix, Matrix.toZ, this, h2, Matrix.smul_apply, smul_eq_mul]
  ring

theorem wf_scalarMatrix (n : Nat) (c : Int) : (scalarMatrix n c).wf = true :=
  Matrix.wf_scalar_multiplication _ _ (Matrix.wf_ofFn _ _ _)


theorem ext_vecZ (v w : List Int) (n : Nat) (hv : v.length = n) (hw : w.length = n)
    (h : vecZ v n = vecZ w n) : v = w := by
  apply List.ext_getElem (by omega)
  intro i h1 h2
  have := congrFun h ⟨i, by omega⟩
  simpa [vecZ, List.getD_eq_getElem, h1, h2] using this

theorem length_VxM (M : Matrix) (v : List Int) : (M.VxM v).length = M.nc := by
  simp [Matrix.VxM]

theorem length_MxV (M : Matrix) (v : List Int) : (M.MxV v).length = M.nr := by
  simp [Matrix.MxV]

theorem vecZ_VxM (M : Matrix) (v : List Int) (r c : Nat) (hr : M.nr = r) (hc : M.nc = c) :
    vecZ (M.VxM v) c = Matrix.vecMul (vecZ v r) (M.toZ r c) := by
  subst hr hc
  funext i
  simp [vecZ, Matrix.VxM, List.getD_eq_getElem, i.isLt, rsum_eq_sum, Matrix.vecMul, Matrix.dotProduct,
    Matrix.toZ]

theorem vecZ_MxV (M : Matrix) (v : List Int) (r c : Nat) (hr : M.nr = r) (hc : M.nc = c) :
    vecZ (M.MxV v) r = Matrix.mulVec (M.toZ r c) (vecZ v c) := by
  subst hr hc
  funext i
  simp [vecZ, Matrix.MxV, List.getD_eq_getElem, i.isLt, rsum_eq_sum, Matrix.mulVec, Matrix.dotProduct,
    Matrix.toZ]

theorem vecZ_scalar_division (v : List Int) (s : Int) (n : Nat) :
    vecZ (v_scalar_division v s) n = fun i => (vecZ v n i).tdiv s := by
  funext i
  have := List.getD_map v (0 : Int) (n := i) (fun x => x.tdiv s)
  simp only [Int.zero_tdiv] at this
  simp only [vecZ, v_scalar_division]
  exact this

namespace Sublattice_Representation

theorem round_trip_general (S : Sublattice_Representation) (hinv : S.Inv) (hc : S.c ≠ 0)
    (v : List Int) (hv : v.length = S.rank) (hid : S.is_identity = false) :
    S.to_sublattice (S.from_sublattice v) = v := by
  obtain ⟨_, _, hAr, hAc, hBr, hBc, hAB⟩ := hinv
  have key : vecZ (S.B.VxM (S.A.VxM v)) S.rank = fun i => S.c * vecZ v S.rank i := by
    rw [vecZ_VxM S.B _ S.dim S.rank hBr hBc, vecZ_VxM S.A _ S.rank S.dim hAr hAc,
      Matrix.vecMul_vecMul, ← Matrix.toZ_multiplication S.A S.B S.rank S.dim S.rank hAr hAc hBc,
      hAB, toZ_scalarMatrix]
    funext i
    simp [Matrix.vecMul_smul, mul_comm]
  unfold to_sublattice from_sublattice
  simp only [hid, Bool.false_eq_true, if_false]
  by_cases h1 : S.c = 1
  · simp only [h1, ne_eq, not_true_eq_false, if_false]
    apply ext_vecZ _ _ S.rank (by rw [length_VxM, hBc]) hv
    rw [key, h1]
    funext i
    simp
  · simp only [ne_eq, h1, not_false_eq_true, if_true]
    apply ext_vecZ _ _ S.rank (by simp [v_scalar_division, length_VxM, hBc]) hv
    rw [vecZ_scalar_division, key]
    funext i
    exact Int.mul_tdiv_cancel_left _ hc

end Sublattice_Representation

theorem gcd_dvd_left (a b : Int) : gcd a b ∣ a := by
  unfold gcd; exact Int.gcd_dvd_left
theorem gcd_dvd_right (a b : Int) : gcd a b ∣ b := by
  unfold gcd; exact Int.gcd_dvd_right

theorem foldl_gcd_dvd (v : List Int) : ∀ g0 : Int,
    v.foldl gcd g0 ∣ g0 ∧ ∀ x ∈ v, v.foldl gcd g0 ∣ x := by
  induction v with
  | nil => intro g0; simp
  | cons a t ih =>
    intro g0
    obtain ⟨h1, h2⟩ := ih (gcd g0 a)
    simp only [List.foldl_cons, List.mem_cons]
    refine ⟨h1.trans (gcd_dvd_left _ _), ?_⟩
    rintro x (rfl | hx)
    · exact h1.trans (gcd_dvd_right _ _)
    · exact h2 x hx

theorem v_gcd_dvd (v : List Int) (x : Int) (hx : x ∈ v) : v_gcd v ∣ x :=
  (foldl_gcd_dvd v 0).2 x hx

theorem foldl_matrix_gcd_dvd (e : List (List Int)) : ∀ g0 : Int,
    e.foldl (fun g r => gcd g (v_gcd r)) g0 ∣ g0 ∧
      ∀ r ∈ e, ∀ x ∈ r, e.foldl (fun g r => gcd g (v_gcd r)) g0 ∣ x := by
  induction e with
  | nil => intro g0; simp
  | cons a t ih =>
    intro g0
    obtain ⟨h1, h2⟩ := ih (gcd g0 (v_gcd a))
    simp only [List.foldl_cons, List.mem_cons]
    refine ⟨h1.trans (gcd_dvd_left _ _), ?_⟩
    rintro r (rfl | hr) x hx
    · exact (h1.trans (gcd_dvd_right _ _)).trans (v_gcd_dvd _ x hx)
    · exact h2 r hr x hx

theorem getD_mem_or (l : List Int) (j : Nat) : l.getD j 0 ∈ l ∨ l.getD j 0 = 0 := by
  by_cases h : j < l.length
  · left; rw [List.getD_eq_getElem _ _ h]; exact List.getElem_mem h
  · right; exact List.getD_eq_default _ _ (by omega)

theorem matrix_gcd_dvd (M : Matrix) (i j : Nat) : M.matrix_gcd ∣ M.get i j := by
  unfold Matrix.matrix_gcd Matrix.get
  by_cases h : i < M.elem.length
  · rw [List.getD_eq_getElem _ _ h]
    rcases getD_mem_or (M.elem[i]) j with h1 | h1
    · exact (foldl_matrix_gcd_dvd M.elem 0).2 _ (List.getElem_mem h) _ h1
    · rw [h1]; exact dvd_zero _
  · rw [List.getD_eq_default M.elem [] (by omega)]
    simp


namespace Matrix
theorem wf_multiplication (A B : Matrix) : (A.multiplication B).wf = true := wf_ofFn _ _ _
theorem wf_transpose (A : Matrix) : A.transpose.wf = true := wf_ofFn _ _ _
theorem wf_identity (n : Nat) : (identity n).wf = true := wf_ofFn _ _ _
@[simp] theorem nr_multiplication (A B : Matrix) : (A.multiplication B).nr = A.nr := rfl
@[simp] theorem nc_multiplication (A B : Matrix) : (A.multiplication B).nc = B.nc := rfl
@[simp] theorem nr_transpose (A : Matrix) : A.transpose.nr = A.nc := rfl
@[simp] theorem nc_transpose (A : Matrix) : A.transpose.nc = A.nr := rfl
@[simp] theorem nr_scalar_division (A : Matrix) (g : Int) : (A.scalar_division g).nr = A.nr := rfl
@[simp] theorem nc_scalar_division (A : Matrix) (g : Int) : (A.scalar_division g).nc = A.nc := rfl
@[simp] theorem nr_identity (n : Nat) : (identity n).nr = n := rfl
@[simp] theorem nc_identity (n : Nat) : (identity n).nc = n := rfl
end Matrix
@[simp] theorem nr_scalarMatrix (n : Nat) (c : Int) : (scalarMatrix n c).nr = n := rfl
@[simp] theorem nc_scalarMatrix (n : Nat) (c : Int) : (scalarMatrix n c).nc = n := rfl

theorem toZ_scalar_division_smul (M : Matrix) (g : Int) (r c : Nat)
    (hdiv : ∀ i j, g ∣ M.get i j) :
    g • (M.scalar_division g).toZ r c = M.toZ r c := by
  funext i j
  simp only [Matrix.toZ, Matrix.smul_apply, smul_eq_mul, Matrix.get_scalar_division]
  exact Int.mul_tdiv_cancel' (hdiv i j)

theorem mult_scalar_division (A B : Matrix) (r d : Nat) (c g : Int)
    (hAr : A.nr = r) (hAc : A.nc = d) (hBc : B.nc = r)
    (hAB : A.multiplication B = scalarMatrix r c) (hg : g ≠ 0) (hgc : g ∣ c)
    (hdiv : ∀ i j, g ∣ B.get i j) :
    A.multiplication (B.scalar_division g) = scalarMatrix r (c.tdiv g) := by
  apply Matrix.ext_toZ _ _ r r (Matrix.wf_multiplication _ _) (wf_scalarMatrix _ _) hAr
    (by simp [hBc]) (by simp) (by simp)
  have h1 := congrArg (fun M => M.toZ r r) hAB
  simp only at h1
  rw [Matrix.toZ_multiplication A B r d r hAr hAc hBc, toZ_scalarMatrix] at h1
  rw [Matrix.toZ_multiplication A (B.scalar_division g) r d r hAr hAc
    (by simp [hBc]), toZ_scalarMatrix]
  have h2 : g • (A.toZ r d * (B.scalar_division g).toZ d r) = g • (c.tdiv g • (1 : ZMat r r)) := by
    rw [← Matrix.mul_smul, toZ_scalar_division_smul B g d r hdiv, h1, smul_smul,
      Int.mul_tdiv_cancel' hgc]
  funext i j
  have h3 := congrFun (congrFun h2 i) j
  simp only [Matrix.smul_apply, smul_eq_mul] at h3
  simp only [Matrix.smul_apply, smul_eq_mul]
  exact mul_left_cancel₀ hg h3

namespace Sublattice_Representation


theorem reduce_inv (A B : Matrix) (r d : Nat) (c : Int)
    (hAw : A.wf = true) (hBw : B.wf = true)
    (hAr : A.nr = r) (hAc : A.nc = d) (hBr : B.nr = d) (hBc : B.nc = r)
    (hAB : A.multiplication B = scalarMatrix r c) (S : Sublattice_Representation)
    (hd : S.dim = d) (b1 b2 b3 : Bool) :
    Inv { S with
      Equations_computed := b1
      Congruences_computed := b2
      rank := r
      A := A
      B := if gcd B.matrix_gcd c > 1 then B.scalar_division (gcd B.matrix_gcd c) else B
      c := if gcd B.matrix_gcd c > 1 then c.tdiv (gcd B.matrix_gcd c) else c
      is_identity := b3 } := by
  by_cases hg : gcd B.matrix_gcd c > 1
  · simp only [hg, if_true]
    refine ⟨hAw, Matrix.wf_scalar_division _ _ hBw, hAr, by rw [hAc, hd], by simp [hBr, hd],
      by simp [hBc], ?_⟩
    exact mult_scalar_division A B r d c _ hAr hAc hBc hAB (by omega) (gcd_dvd_right _ _)
      (fun i j => (gcd_dvd_left _ _).trans (matrix_gcd_dvd B i j))
  · simp only [hg, if_false]
    exact ⟨hAw, hBw, hAr, by rw [hAc, hd], by rw [hBr, hd], hBc, hAB⟩

theorem compose_fields (S SR : Sublattice_Representation) (hS : S.Inv) (hSR : SR.Inv)
    (hr : S.rank = SR.dim) :
    (SR.A.multiplication S.A).multiplication (S.B.multiplication SR.B)
      = scalarMatrix SR.rank (S.c * SR.c) := by
  obtain ⟨_, _, hAr, hAc, hBr, hBc, hAB⟩ := hS
  obtain ⟨_, _, hAr2, hAc2, hBr2, hBc2, hAB2⟩ := hSR
  rw [hr] at hAr hBc hAB
  apply Matrix.ext_toZ _ _ SR.rank SR.rank (Matrix.wf_multiplication _ _) (wf_scalarMatrix _ _)
    (by simp [hAr2]) (by simp [hBc2]) (by simp) (by simp)
  have h1 := congrArg (fun M => M.toZ SR.dim SR.dim) hAB
  have h2 := congrArg (fun M => M.toZ SR.rank SR.rank) hAB2
  simp only at h1 h2
  rw [Matrix.toZ_multiplication _ _ SR.dim S.dim SR.dim hAr hAc hBc, toZ_scalarMatrix] at h1
  rw [Matrix.toZ_multiplication _ _ SR.rank SR.dim SR.rank hAr2 hAc2 hBc2, toZ_scalarMatrix] at h2
  rw [Matrix.toZ_multiplication _ _ SR.rank S.dim SR.rank
      (by simp [hAr2])
      (by simp [hAc])
      (by simp [hBc2]),
    Matrix.toZ_multiplication SR.A S.A SR.rank SR.dim S.dim hAr2 hAc2 hAc,
    Matrix.toZ_multiplication S.B SR.B S.dim SR.dim SR.rank hBr hBc hBc2, toZ_scalarMatrix]
  calc SR.A.toZ SR.rank SR.dim * S.A.toZ SR.dim S.dim * (S.B.toZ S.dim SR.dim * SR.B.toZ SR.dim SR.rank)
      = SR.A.toZ SR.rank SR.dim * (S.A.toZ SR.dim S.dim * S.B.toZ S.dim SR.dim) * SR.B.toZ SR.dim SR.rank := by
        simp only [Matrix.mul_assoc]
    _ = S.c • (SR.A.toZ SR.rank SR.dim * SR.B.toZ SR.dim SR.rank) := by
        rw [h1, Matrix.mul_smul, Matrix.mul_one, Matrix.smul_mul]
    _ = (S.c * SR.c) • (1 : ZMat SR.rank SR.rank) := by
        rw [h2, smul_smul]

theorem compose_dual_fields (S SR : Sublattice_Representation) (hS : S.Inv) (hSR : SR.Inv)
    (hr : S.rank = SR.dim) (hc : SR.c = 1) :
    (SR.B.transpose.multiplication S.A).multiplication (S.B.multiplication SR.A.transpose)
      = scalarMatrix SR.rank S.c := by
  obtain ⟨_, _, hAr, hAc, hBr, hBc, hAB⟩ := hS
  obtain ⟨_, _, hAr2, hAc2, hBr2, hBc2, hAB2⟩ := hSR
  rw [hr] at hAr hBc hAB
  apply Matrix.ext_toZ _ _ SR.rank SR.rank (Matrix.wf_multiplication _ _) (wf_scalarMatrix _ _)
    (by simp [hBc2]) (by simp [hAr2]) (by simp) (by simp)
  have h1 := congrArg (fun M => M.toZ SR.dim SR.dim) hAB
  have h2 := congrArg (fun M => M.toZ SR.rank SR.rank) hAB2
  simp only at h1 h2
  rw [Matrix.toZ_multiplication _ _ SR.dim S.dim SR.dim hAr hAc hBc, toZ_scalarMatrix] at h1
  rw [Matrix.toZ_multiplication _ _ SR.rank SR.dim SR.rank hAr2 hAc2 hBc2, toZ_scalarMatrix, hc] at h2
  rw [Matrix.toZ_multiplication _ _ SR.rank S.dim SR.rank
      (by simp [hBc2])
      (by simp [hAc])
      (by simp [hAr2]),
    Matrix.toZ_multiplication SR.B.transpose S.A SR.rank SR.dim S.dim
      (by simp [hBc2]) (by simp [hBr2]) hAc,
    Matrix.toZ_multiplication S.B SR.A.transpose S.dim SR.dim SR.rank hBr hBc
      (by simp [hAr2]),
    Matrix.toZ_transpose SR.B SR.dim SR.rank hBr2 hBc2,
    Matrix.toZ_transpose SR.A SR.rank SR.dim hAr2 hAc2, toZ_scalarMatrix]
  calc (SR.B.toZ SR.dim SR.rank).transpose * S.A.toZ SR.dim S.dim *
        (S.B.toZ S.dim SR.dim * (SR.A.toZ SR.rank SR.dim).transpose)
      = (SR.B.toZ SR.dim SR.rank).transpose * (S.A.toZ SR.dim S.dim * S.B.toZ S.dim SR.dim) *
          (SR.A.toZ SR.rank SR.dim).transpose := by
        simp only [Matrix.mul_assoc]
    _ = S.c • ((SR.B.toZ SR.dim SR.rank).transpose * (SR.A.toZ SR.rank SR.dim).transpose) := by
        rw [h1, Matrix.mul_smul, Matrix.mul_one, Matrix.smul_mul]
    _ = S.c • (1 : ZMat SR.rank SR.rank) := by
        rw [← Matrix.transpose_mul, h2]; simp

end Sublattice_Representation

namespace Sublattice_Representation

theorem transpose_fields (SR : Sublattice_Representation) (hSR : SR.Inv) (hc : SR.c = 1) :
    SR.B.transpose.multiplication SR.A.transpose = scalarMatrix SR.rank 1 := by
  obtain ⟨_, _, hAr2, hAc2, hBr2, hBc2, hAB2⟩ := hSR
  apply Matrix.ext_toZ _ _ SR.rank SR.rank (Matrix.wf_multiplication _ _) (wf_scalarMatrix _ _)
    (by simp [hBc2]) (by simp [hAr2]) (by simp) (by simp)
  have h2 := congrArg (fun M => M.toZ SR.rank SR.rank) hAB2
  simp only at h2
  rw [Matrix.toZ_multiplication _ _ SR.rank SR.dim SR.rank hAr2 hAc2 hBc2, toZ_scalarMatrix, hc] at h2
  rw [Matrix.toZ_multiplication _ _ SR.rank SR.dim SR.rank (by simp [hBc2]) (by simp [hBr2])
      (by simp [hAr2]), Matrix.toZ_transpose SR.B SR.dim SR.rank hBr2 hBc2,
    Matrix.toZ_transpose SR.A SR.rank SR.dim hAr2 hAc2, toZ_scalarMatrix, ← Matrix.transpose_mul, h2]
  simp

/-- C4: `compose` and `compose_dual` preserve the representation invariant.  If `this` and
`SR` satisfy `A * B = c * I` (flagged identities having identity fields) and
`this.rank = SR.dim`, then `compose` succeeds and the new fields satisfy the invariant
with rank `SR.rank` and the old `dim`; the same holds for `compose_dual` when `SR.c = 1`. -/
theorem C4_compose_preserves_invariant (S SR : Sublattice_Representation) (hS : S.Valid)
    (hSR : SR.Valid) (hr : S.rank = SR.dim) :
    (∃ T, S.compose SR = some T ∧ T.Inv ∧ T.rank = SR.rank ∧ T.dim = S.dim) ∧
    (SR.c = 1 → ∃ T, S.compose_dual SR = some T ∧ T.Inv ∧ T.rank = SR.rank ∧ T.dim = S.dim) := by
  obtain ⟨hSi, hSid⟩ := hS
  obtain ⟨hSRi, hSRid⟩ := hSR
  have hSi0 := hSi
  have hSRi0 := hSRi
  obtain ⟨hAw, hBw, hAr, hAc, hBr, hBc, hAB⟩ := hSi
  obtain ⟨hAw2, hBw2, hAr2, hAc2, hBr2, hBc2, hAB2⟩ := hSRi
  constructor
  · unfold compose
    simp only [hr, ne_eq, not_true_eq_false, if_false]
    by_cases h1 : SR.is_identity = true
    · simp only [h1, if_true]
      exact ⟨S, rfl, hSi0, by rw [hr, (hSRid h1).1], rfl⟩
    · simp only [h1, if_false]
      by_cases h2 : S.is_identity = true
      · simp only [h2, if_true]
        exact ⟨SR, rfl, hSRi0, rfl, by rw [← hr, (hSid h2).1]⟩
      · simp only [h2, if_false]
        refine ⟨_, rfl, ?_, rfl, rfl⟩
        exact reduce_inv (SR.A.multiplication S.A) (S.B.multiplication SR.B) SR.rank S.dim
          (S.c * SR.c) (Matrix.wf_multiplication _ _) (Matrix.wf_multiplication _ _)
          (by simp [hAr2]) (by simp [hAc]) (by simp [hBr]) (by simp [hBc2])
          (compose_fields S SR hSi0 hSRi0 hr) S rfl _ _ _
  · intro hc
    unfold compose_dual
    simp only [hr, hc, ne_eq, not_true_eq_false, if_false]
    by_cases h1 : SR.is_identity = true
    · simp only [h1, if_true]
      exact ⟨S, rfl, hSi0, by rw [hr, (hSRid h1).1], rfl⟩
    · simp only [h1, if_false]
      by_cases h2 : S.is_identity = true
      · simp only [h2, if_true]
        refine ⟨_, rfl, ?_, rfl, rfl⟩
        obtain ⟨e1, e2, e3, e4⟩ := hSid h2
        refine ⟨Matrix.wf_transpose _, Matrix.wf_transpose _, by simp [hBc2],
          by simp [hBr2, ← hr, e1], by simp [hAc2, ← hr, e1], by simp [hAr2], ?_⟩
        simp only [e2]
        exact transpose_fields SR hSRi0 hc
      · simp only [h2, if_false]
        refine ⟨_, rfl, ?_, rfl, rfl⟩
        exact reduce_inv (SR.B.transpose.multiplication S.A) (S.B.multiplication SR.A.transpose)
          SR.rank S.dim S.c (Matrix.wf_multiplication _ _) (Matrix.wf_multiplication _ _)
          (by simp [hBc2]) (by simp [hAc]) (by simp [hBr]) (by simp [hAr2])
          (compose_dual_fields S SR hSi0 hSRi0 hr hc) S rfl _ _ _

end Sublattice_Representation

namespace Sublattice_Representation



theorem vecZ_dvd (c : Int) (v : List Int) (n : Nat) (h : divides c v) (i : Fin n) :
    c ∣ vecZ v n i := by
  unfold vecZ
  rcases getD_mem_or v i with h1 | h1
  · exact h _ h1
  · rw [h1]; exact dvd_zero _

theorem vecMul_smul_right (n r : Nat) (v : Fin n → Int) (g : Int) (M : ZMat n r) :
    Matrix.vecMul v (g • M) = g • Matrix.vecMul v M := by
  funext i
  simp only [Matrix.vecMul, Matrix.dotProduct, Matrix.smul_apply, smul_eq_mul, Pi.smul_apply,
    Finset.mul_sum]
  apply Finset.sum_congr rfl
  intro x _
  ring

theorem vecZ_to_sublattice (S : Sublattice_Representation) (v : List Int) (n r : Nat)
    (hBr : S.B.nr = n) (hBc : S.B.nc = r) (hid : S.is_identity = false)
    (hex : divides S.c (S.B.VxM v)) :
    S.c • vecZ (S.to_sublattice v) r = Matrix.vecMul (vecZ v n) (S.B.toZ n r) := by
  unfold to_sublattice
  simp only [hid, Bool.false_eq_true, if_false]
  rw [← vecZ_VxM S.B v n r hBr hBc]
  by_cases h1 : S.c = 1
  · simp [h1]
  · simp only [ne_eq, h1, not_false_eq_true, if_true]
    rw [vecZ_scalar_division]
    funext i
    simp only [Pi.smul_apply, smul_eq_mul]
    exact Int.mul_tdiv_cancel' (vecZ_dvd _ _ _ hex i)

theorem to_sublattice_of_vecMul (S : Sublattice_Representation) (v w : List Int) (n r : Nat)
    (hBr : S.B.nr = n) (hBc : S.B.nc = r) (hid : S.is_identity = false) (hc : S.c ≠ 0)
    (hw : w.length = r)
    (h : Matrix.vecMul (vecZ v n) (S.B.toZ n r) = S.c • vecZ w r) :
    S.to_sublattice v = w := by
  unfold to_sublattice
  simp only [hid, Bool.false_eq_true, if_false]
  rw [← vecZ_VxM S.B v n r hBr hBc] at h
  by_cases h1 : S.c = 1
  · simp only [h1, ne_eq, not_true_eq_false, if_false]
    apply ext_vecZ _ _ r (by rw [length_VxM, hBc]) hw
    rw [h, h1]; simp
  · simp only [ne_eq, h1, not_false_eq_true, if_true]
    apply ext_vecZ _ _ r (by simp [v_scalar_division, length_VxM, hBc]) hw
    rw [vecZ_scalar_division, h]
    funext i
    simp only [Pi.smul_apply, smul_eq_mul]
    exact Int.mul_tdiv_cancel_left _ hc

theorem length_to_sublattice (S : Sublattice_Representation) (v : List Int)
    (hid : S.is_identity = false) : (S.to_sublattice v).length = S.B.nc := by
  unfold to_sublattice
  simp only [hid, Bool.false_eq_true, if_false]
  split <;> simp [v_scalar_division, length_VxM]

/-- C3 (composition law, amended): if both divisions are exact at `v` (`c` of `this`
divides `v * B`, and `c` of `SR` divides the next product) and neither annihilator is
zero, then after `compose` the map `to_sublattice` sends `v` to what `SR.to_sublattice`
makes of the old `to_sublattice v`. -/
theorem C3_compose_law (S SR T : Sublattice_Representation) (v : List Int)
    (hBr : S.B.nr = S.dim) (hBc : S.B.nc = S.rank) (hBr2 : SR.B.nr = SR.dim)
    (hBc2 : SR.B.nc = SR.rank) (hc : S.c ≠ 0) (hc2 : SR.c ≠ 0)
    (hT : S.compose SR = some T)
    (hex1 : divides S.c (S.B.VxM v))
    (hex2 : divides SR.c (SR.B.VxM (S.to_sublattice v))) :
    T.to_sublattice v = SR.to_sublattice (S.to_sublattice v) := by
  unfold compose at hT
  by_cases hr : S.rank = SR.dim
  swap
  · simp [hr] at hT
  simp only [hr, ne_eq, not_true_eq_false, if_false] at hT
  by_cases h1 : SR.is_identity = true
  · simp only [h1, if_true, Option.some.injEq] at hT
    subst hT
    simp [to_sublattice, h1]
  simp only [h1, if_false, Bool.false_eq_true] at hT
  by_cases h2 : S.is_identity = true
  · simp only [h2, if_true, Option.some.injEq] at hT
    subst hT
    simp [to_sublattice, h2]
  simp only [h2, if_false, Bool.false_eq_true, Option.some.injEq] at hT
  have h1' : SR.is_identity = false := by simpa using h1
  have h2' : S.is_identity = false := by simpa using h2
  rw [hr] at hBc
  have e1 := vecZ_to_sublattice S v S.dim SR.dim hBr hBc h2' hex1
  have e2 := vecZ_to_sublattice SR (S.to_sublattice v) SR.dim SR.rank hBr2 hBc2 h1' hex2
  have e3 : Matrix.vecMul (vecZ v S.dim) ((S.B.multiplication SR.B).toZ S.dim SR.rank)
      = (S.c * SR.c) • vecZ (SR.to_sublattice (S.to_sublattice v)) SR.rank := by
    rw [Matrix.toZ_multiplication S.B SR.B S.dim SR.dim SR.rank hBr hBc hBc2,
      ← Matrix.vecMul_vecMul, ← e1, Matrix.vecMul_smul, ← e2, smul_smul]
  have hlen : (SR.to_sublattice (S.to_sublattice v)).length = SR.rank := by
    rw [length_to_sublattice SR _ h1', hBc2]
  subst hT
  by_cases hg : gcd (S.B.multiplication SR.B).matrix_gcd (S.c * SR.c) > 1
  · apply to_sublattice_of_vecMul _ v _ S.dim SR.rank (by simp [hg, hBr]) (by simp [hg, hBc2])
      (by simp [h1', h2']) _ hlen
    · simp only [hg, if_true]
      have hdiv : ∀ i j, gcd (S.B.multiplication SR.B).matrix_gcd (S.c * SR.c) ∣
          (S.B.multiplication SR.B).get i j :=
        fun i j => (gcd_dvd_left _ _).trans (matrix_gcd_dvd _ i j)
      have e4 := toZ_scalar_division_smul (S.B.multiplication SR.B) _ S.dim SR.rank hdiv
      rw [← e4, vecMul_smul_right] at e3
      have e5 : (S.c * SR.c) = gcd (S.B.multiplication SR.B).matrix_gcd (S.c * SR.c) *
          (S.c * SR.c).tdiv (gcd (S.B.multiplication SR.B).matrix_gcd (S.c * SR.c)) :=
        (Int.mul_tdiv_cancel' (gcd_dvd_right _ _)).symm
      rw [e5, ← smul_smul] at e3
      funext i
      have e6 := congrFun e3 i
      simp only [Pi.smul_apply, smul_eq_mul] at e6 ⊢
      rw [← e5] at e6
      exact mul_left_cancel₀ (by omega) e6
    · simp only [hg, if_true]
      intro h0
      have := Int.mul_tdiv_cancel' (gcd_dvd_right (S.B.multiplication SR.B).matrix_gcd (S.c * SR.c))
      rw [h0, mul_zero] at this
      exact mul_ne_zero hc hc2 this.symm
  · apply to_sublattice_of_vecMul _ v _ S.dim SR.rank (by simp [hg, hBr]) (by simp [hg, hBc2])
      (by simp [h1', h2']) _ hlen
    · simpa only [hg, if_false] using e3
    · simpa only [hg, if_false] using mul_ne_zero hc hc2

end Sublattice_Representation

namespace Sublattice_Representation

theorem first_nonzero_from_spec (N : Matrix) (k : Nat) : ∀ (n j : Nat),
    j ≤ first_nonzero_from N k n j ∧ first_nonzero_from N k n j ≤ j + n ∧
      (∀ i, j ≤ i → i < first_nonzero_from N k n j → N.get k i = 0) ∧
      (first_nonzero_from N k n j < j + n → N.get k (first_nonzero_from N k n j) ≠ 0) := by
  intro n
  induction n with
  | zero => intro j; simp [first_nonzero_from]; intro i h1 h2; omega
  | succ n ih =>
    intro j
    rw [first_nonzero_from]
    by_cases h : N.get k j ≠ 0
    · rw [if_pos h]
      refine ⟨le_refl _, by omega, fun i h1 h2 => by omega, fun _ => by simpa using h⟩
    · rw [if_neg h]
      obtain ⟨h1, h2, h3, h4⟩ := ih (j + 1)
      refine ⟨by omega, by omega, ?_, fun h5 => h4 (by omega)⟩
      intro i hi1 hi2
      by_cases e : i = j
      · subst e; simpa using h
      · exact h3 i (by omega) hi2

theorem first_nonzero_spec (N : Matrix) (dim k : Nat) :
    first_nonzero N dim k ≤ dim ∧ (∀ i < first_nonzero N dim k, N.get k i = 0) ∧
      (first_nonzero N dim k < dim → N.get k (first_nonzero N dim k) ≠ 0) := by
  obtain ⟨_, h2, h3, h4⟩ := first_nonzero_from_spec N k dim 0
  exact ⟨by simpa using h2, fun i hi => h3 i (Nat.zero_le _) hi, fun h => h4 (by simpa using h)⟩

theorem first_nonzero_from_congr (N N2 : Matrix) (k : Nat) (h : N.row k = N2.row k) :
    ∀ n j, first_nonzero_from N k n j = first_nonzero_from N2 k n j := by
  intro n
  induction n with
  | zero => intro j; rfl
  | succ n ih =>
    intro j
    rw [first_nonzero_from, first_nonzero_from]
    have : N.get k j = N2.get k j := by
      simp only [Matrix.get]
      have h' := h
      simp only [Matrix.row] at h'
      rw [h']
    rw [this, ih]

theorem first_nonzero_congr (N N2 : Matrix) (dim k : Nat) (h : N.row k = N2.row k) :
    first_nonzero N dim k = first_nonzero N2 dim k :=
  first_nonzero_from_congr N N2 k h dim 0

end Sublattice_Representation

namespace Matrix

theorem get_eq_row (M : Matrix) (i j : Nat) : M.get i j = (M.row i).getD j 0 := rfl

theorem row_set_row (M : Matrix) (k : Nat) (r : List Int) (i : Nat) :
    (M.set_row k r).row i = if i = k ∧ k < M.elem.length then r else M.row i := by
  simp only [row, set_row]
  by_cases h : i = k
  · subst h
    by_cases h2 : i < M.elem.length
    · simp [h2, List.getD_eq_getElem?_getD, List.getElem?_set]
    · simp [h2, List.set_eq_of_length_le (Nat.le_of_not_lt h2)]
  · have : ¬ (i = k ∧ k < M.elem.length) := fun hh => h hh.1
    simp only [this, if_false]
    simp [List.getD_eq_getElem?_getD, List.getElem?_set, Ne.symm h]

theorem length_set_row (M : Matrix) (k : Nat) (r : List Int) :
    (M.set_row k r).elem.length = M.elem.length := by
  simp [set_row]

theorem row_length_of_wf (M : Matrix) (h : M.wf = true) (i : Nat) (hi : i < M.nr) :
    (M.row i).length = M.nc := by
  rw [wf_iff] at h
  unfold row
  rw [List.getD_eq_getElem _ _ (by omega)]
  exact h.2 _ (List.getElem_mem _)

theorem wf_of_rows (M : Matrix) (h1 : M.elem.length = M.nr)
    (h2 : ∀ i < M.nr, (M.row i).length = M.nc) : M.wf = true := by
  rw [wf_iff]
  refine ⟨h1, ?_⟩
  intro r hr
  obtain ⟨i, hi, rfl⟩ := List.getElem_of_mem hr
  have := h2 i (by omega)
  unfold row at this
  rwa [List.getD_eq_getElem _ _ hi] at this

theorem get_neg_row (r : List Int) (σ : Int) (j : Nat) :
    (v_scalar_multiplication r σ).getD j 0 = r.getD j 0 * σ := by
  have := List.getD_map r (0 : Int) (n := j) (fun x => x * σ)
  simp only [zero_mul] at this
  exact this

end Matrix

namespace Sublattice_Representation

theorem v_scalar_multiplication_one (r : List Int) : v_scalar_multiplication r 1 = r := by
  simp [v_scalar_multiplication]

theorem length_v_scalar_multiplication (r : List Int) (s : Int) :
    (v_scalar_multiplication r s).length = r.length := by
  simp [v_scalar_multiplication]

theorem getD_set_true (l : List Bool) (j i : Nat) (hj : j < l.length) :
    ((l.set j true).getD i false = true) ↔ (i = j ∨ l.getD i false = true) := by
  simp only [List.getD_eq_getElem?_getD, List.getElem?_set]
  by_cases h : j = i
  · subst h; simp [hj]
  · simp [h]; intro h2; omega

theorem pos_mul_eq_one (a b : Int) (ha : 0 < a) (hb : 0 < b) (h : a * b = 1) : a = 1 ∧ b = 1 := by
  have ha1 : a = 1 := by
    by_contra hne
    have : 2 ≤ a := by omega
    nlinarith
  subst ha1
  exact ⟨rfl, by simpa using h⟩


theorem corner_loop_succ (N : Matrix) (dim rank m : Nat) :
    corner_loop N dim rank (m + 1) = corner_step dim (corner_loop N dim rank m) m := by
  simp [corner_loop, List.range_succ, List.foldl_append]

theorem corner_loop_inv (N0 : Matrix) (dim rank : Nat) (hlen : N0.elem.length = N0.nr)
    (hrk : rank ≤ N0.nr) (hre : ReducedEchelon N0 rank dim) : ∀ m, m ≤ rank →
    (corner_loop N0 dim rank m).N.nr = N0.nr ∧ (corner_loop N0 dim rank m).N.nc = N0.nc ∧
    (corner_loop N0 dim rank m).N.elem.length = N0.elem.length ∧
    (∀ k, m ≤ k → (corner_loop N0 dim rank m).N.row k = N0.row k) ∧
    (∀ k, k < m → (∃ σ : Int, (σ = 1 ∨ σ = -1) ∧
        (corner_loop N0 dim rank m).N.row k = v_scalar_multiplication (N0.row k) σ) ∧
      0 < (corner_loop N0 dim rank m).N.get k (first_nonzero N0 dim k)) ∧
    (corner_loop N0 dim rank m).col_is_corner.length = dim ∧
    (∀ j, (corner_loop N0 dim rank m).col_is_corner.getD j false = true ↔
      ∃ k, k < m ∧ first_nonzero N0 dim k = j) ∧
    0 < (corner_loop N0 dim rank m).row_index ∧
    ((corner_loop N0 dim rank m).row_index = 1 →
      ∀ k, k < m → (corner_loop N0 dim rank m).N.get k (first_nonzero N0 dim k) = 1) := by
  intro m
  induction m with
  | zero =>
    intro _
    simp [corner_loop]
  | succ m ih =>
    intro hm
    obtain ⟨i1, i2, i3, i4, i5, i6, i7, i8, i9⟩ := ih (by omega)
    rw [corner_loop_succ]
    generalize corner_loop N0 dim rank m = s at *
    have hf : first_nonzero s.N dim m = first_nonzero N0 dim m :=
      first_nonzero_congr _ _ _ _ (i4 m (le_refl _))
    have hfd : first_nonzero N0 dim m < dim := (hre m (by omega)).1
    have hx : N0.get m (first_nonzero N0 dim m) ≠ 0 := (first_nonzero_spec N0 dim m).2.2 hfd
    have hsx : s.N.get m (first_nonzero N0 dim m) = N0.get m (first_nonzero N0 dim m) := by
      rw [Matrix.get_eq_row, Matrix.get_eq_row, i4 m (le_refl _)]
    have hmlen : m < s.N.elem.length := by omega
    simp only [corner_step, hf, hsx]
    by_cases hneg : N0.get m (first_nonzero N0 dim m) < 0
    · simp only [hneg, if_true]
      have hrow : ∀ k, (s.N.set_row m (v_scalar_multiplication (s.N.row m) (-1))).row k =
          if k = m then v_scalar_multiplication (N0.row m) (-1) else s.N.row k := by
        intro k
        rw [Matrix.row_set_row]
        by_cases e : k = m
        · simp [e, hmlen, i4 m (le_refl _)]
        · simp [e]
      have hget : (s.N.set_row m (v_scalar_multiplication (s.N.row m) (-1))).get m
          (first_nonzero N0 dim m) = - N0.get m (first_nonzero N0 dim m) := by
        rw [Matrix.get_eq_row, hrow, if_pos rfl, Matrix.get_neg_row, ← Matrix.get_eq_row]; ring
      refine ⟨i1, i2, by rw [Matrix.length_set_row, i3], ?_, ?_, ?_, ?_, ?_, ?_⟩
      · intro k hk
        rw [hrow, if_neg (by omega)]
        exact i4 k (by omega)
      · intro k hk
        by_cases e : k = m
        · subst e
          refine ⟨⟨-1, Or.inr rfl, by rw [hrow, if_pos rfl]⟩, by rw [hget]; omega⟩
        · have := i5 k (by omega)
          rw [Matrix.get_eq_row, hrow, if_neg e, ← Matrix.get_eq_row]
          exact this
      · simp [i6]
      · intro j
        rw [getD_set_true _ _ _ (by omega), i7]
        constructor
        · rintro (rfl | ⟨k, hk, rfl⟩)
          · exact ⟨m, by omega, rfl⟩
          · exact ⟨k, by omega, rfl⟩
        · rintro ⟨k, hk, rfl⟩
          by_cases e : k = m
          · left; rw [e]
          · right; exact ⟨k, by omega, rfl⟩
      · rw [hget]; exact Int.mul_pos i8 (by omega)
      · rw [hget]
        intro h1 k hk
        obtain ⟨e1, e2⟩ := pos_mul_eq_one _ _ i8 (by omega) h1
        by_cases e : k = m
        · subst e; rw [hget]; exact e2
        · rw [Matrix.get_eq_row, hrow, if_neg e, ← Matrix.get_eq_row]
          exact i9 e1 k (by omega)
    · simp only [hneg, if_false]
      have hpos : 0 < N0.get m (first_nonzero N0 dim m) := by omega
      refine ⟨i1, i2, i3, ?_, ?_, ?_, ?_, ?_, ?_⟩
      · intro k hk
        exact i4 k (by omega)
      · intro k hk
        by_cases e : k = m
        · subst e
          refine ⟨⟨1, Or.inl rfl, by rw [v_scalar_multiplication_one]; exact i4 k (le_refl _)⟩, by rw [hsx]; exact hpos⟩
        · exact i5 k (by omega)
      · simp [i6]
      · intro j
        rw [getD_set_true _ _ _ (by omega), i7]
        constructor
        · rintro (rfl | ⟨k, hk, rfl⟩)
          · exact ⟨m, by omega, rfl⟩
          · exact ⟨k, by omega, rfl⟩
        · rintro ⟨k, hk, rfl⟩
          by_cases e : k = m
          · left; rw [e]
          · right; exact ⟨k, by omega, rfl⟩
      · rw [hsx]; exact Int.mul_pos i8 hpos
      · rw [hsx]
        intro h1 k hk
        obtain ⟨e1, e2⟩ := pos_mul_eq_one _ _ i8 hpos h1
        by_cases e : k = m
        · subst e; rw [hsx]; exact e2
        · exact i9 e1 k (by omega)

end Sublattice_Representation

namespace Matrix

theorem row_set_entry (M : Matrix) (i j : Nat) (x : Int) (k : Nat) :
    (M.set_entry i j x).row k =
      if k = i ∧ i < M.elem.length then (M.row i).set j x else M.row k := by
  have := row_set_row M i ((M.elem.getD i []).set j x) k
  simpa [set_entry, set_row, row] using this

theorem length_set_entry (M : Matrix) (i j : Nat) (x : Int) :
    (M.set_entry i j x).elem.length = M.elem.length := by
  simp [set_entry]

theorem get_set_entry (M : Matrix) (i j : Nat) (x : Int) (k l : Nat) :
    (M.set_entry i j x).get k l =
      if k = i ∧ l = j ∧ i < M.elem.length ∧ j < (M.row i).length then x else M.get k l := by
  rw [get_eq_row, row_set_entry]
  by_cases h : k = i ∧ i < M.elem.length
  · rw [if_pos h]
    obtain ⟨h1, h2⟩ := h
    subst h1
    simp only [List.getD_eq_getElem?_getD, List.getElem?_set, true_and, h2, get_eq_row]
    by_cases e : j = l
    · subst e
      by_cases e2 : j < (M.row k).length
      · simp [e2]
      · simp [e2]
        rw [List.getElem?_eq_none (by omega)]; rfl
    · have e' : ¬ l = j := fun hh => e hh.symm
      simp [e, e']
  · rw [if_neg h]
    have : ¬ (k = i ∧ l = j ∧ i < M.elem.length ∧ j < (M.row i).length) :=
      fun hh => h ⟨hh.1, hh.2.2.1⟩
    rw [if_neg this, get_eq_row]

theorem wf_set_entry (M : Matrix) (i j : Nat) (x : Int) (h : M.wf = true) :
    (M.set_entry i j x).wf = true := by
  have h0 := (wf_iff M).1 h
  apply wf_of_rows
  · rw [length_set_entry]; exact h0.1
  · intro k hk
    rw [row_set_entry]
    have hk' : k < M.nr := hk
    split
    · rename_i hh
      rw [List.length_set, ← hh.1]
      exact row_length_of_wf M h k hk'
    · exact row_length_of_wf M h k hk'

end Matrix

namespace Sublattice_Representation

theorem copy_rows_spec (A N : Matrix) : ∀ m,
    (copy_rows A N m).nr = A.nr ∧ (copy_rows A N m).nc = A.nc ∧
    (copy_rows A N m).elem.length = A.elem.length ∧
    ∀ k, (copy_rows A N m).row k = if k < m ∧ k < A.elem.length then N.row k else A.row k := by
  intro m
  induction m with
  | zero => simp [copy_rows]
  | succ m ih =>
    obtain ⟨h1, h2, h3, h4⟩ := ih
    have e : copy_rows A N (m + 1) = (copy_rows A N m).set_row m (N.row m) := by
      simp [copy_rows, List.range_succ, List.foldl_append]
    rw [e]
    refine ⟨h1, h2, by rw [Matrix.length_set_row, h3], ?_⟩
    intro k
    rw [Matrix.row_set_row, h3, h4]
    by_cases e1 : k = m
    · subst e1
      by_cases e2 : k < A.elem.length
      · simp [e2]
      · simp [e2]
    · have : (k < m + 1 ∧ k < A.elem.length) ↔ (k < m ∧ k < A.elem.length) := by
        constructor
        · rintro ⟨a, b⟩; exact ⟨by omega, b⟩
        · rintro ⟨a, b⟩; exact ⟨by omega, b⟩
      simp only [e1, false_and, if_false, this]



theorem projection_loop_spec (B : Matrix) (l : List Bool) (hB : B.wf = true) : ∀ m,
    (projection_loop B l m).2 = ((Finset.range m).filter fun k => l.getD k false = true).card ∧
    (projection_loop B l m).1.nr = B.nr ∧ (projection_loop B l m).1.nc = B.nc ∧
    (projection_loop B l m).1.wf = true ∧
    ∀ k j, (projection_loop B l m).1.get k j =
      if k < m ∧ l.getD k false = true ∧ k < B.nr ∧ j < B.nc ∧
          j = ((Finset.range k).filter fun k => l.getD k false = true).card then 1
      else B.get k j := by
  intro m
  induction m with
  | zero => simp [projection_loop, hB]
  | succ m ih =>
    obtain ⟨h1, h2, h3, h4, h5⟩ := ih
    have e : projection_loop B l (m + 1) =
        if l.getD m false then
          ((projection_loop B l m).1.set_entry m (projection_loop B l m).2 1,
            (projection_loop B l m).2 + 1)
        else projection_loop B l m := by
      simp [projection_loop, List.range_succ, List.foldl_append]
    rw [e]
    by_cases hc : l.getD m false = true
    · rw [if_pos hc]
      refine ⟨?_, h2, h3, Matrix.wf_set_entry _ _ _ _ h4, ?_⟩
      · show (projection_loop B l m).2 + 1 = _
        rw [h1, Finset.range_succ, Finset.filter_insert, if_pos hc,
          Finset.card_insert_of_not_mem (by simp)]
      · intro k j
        show ((projection_loop B l m).1.set_entry m (projection_loop B l m).2 1).get k j = _
        rw [Matrix.get_set_entry, h5, h1]
        have hlen : (projection_loop B l m).1.elem.length = B.nr := by
          rw [← h2]; exact ((Matrix.wf_iff _).1 h4).1
        by_cases ek : k = m
        · subst ek
          by_cases hC : k < B.nr ∧ j < B.nc ∧
              j = ((Finset.range k).filter fun k => l.getD k false = true).card
          · obtain ⟨c1, c2, c3⟩ := hC
            have hrl := Matrix.row_length_of_wf _ h4 k (by rw [h2]; exact c1)
            rw [if_pos ⟨rfl, c3, by rw [hlen]; exact c1, by rw [hrl, h3, ← c3]; exact c2⟩,
              if_pos ⟨by omega, hc, c1, c2, c3⟩]
          · have n1 : ¬ (k = k ∧ j = ((Finset.range k).filter fun k => l.getD k false = true).card ∧
                k < (projection_loop B l k).1.elem.length ∧
                ((Finset.range k).filter fun k => l.getD k false = true).card <
                  ((projection_loop B l k).1.row k).length) := by
              rintro ⟨_, c3, c1, c2⟩
              rw [hlen] at c1
              have hrl := Matrix.row_length_of_wf _ h4 k (by rw [h2]; exact c1)
              rw [hrl, h3, ← c3] at c2
              exact hC ⟨c1, c2, c3⟩
            rw [if_neg n1, if_neg (by omega), if_neg (fun hh => hC ⟨hh.2.2.1, hh.2.2.2.1, hh.2.2.2.2⟩)]
        · rw [if_neg (fun hh => ek hh.1)]
          by_cases hD : k < m ∧ l.getD k false = true ∧ k < B.nr ∧ j < B.nc ∧
              j = ((Finset.range k).filter fun k => l.getD k false = true).card
          · rw [if_pos hD, if_pos ⟨by omega, hD.2⟩]
          · rw [if_neg hD, if_neg (fun hh => hD ⟨by omega, hh.2⟩)]
    · rw [if_neg hc]
      refine ⟨?_, h2, h3, h4, ?_⟩
      · rw [h1, Finset.range_succ, Finset.filter_insert, if_neg hc]
      · intro k j
        rw [h5]
        by_cases hD : k < m ∧ l.getD k false = true ∧ k < B.nr ∧ j < B.nc ∧
            j = ((Finset.range k).filter fun k => l.getD k false = true).card
        · rw [if_pos hD, if_pos ⟨by omega, hD.2⟩]
        · have : ¬ (k < m + 1 ∧ l.getD k false = true ∧ k < B.nr ∧ j < B.nc ∧
              j = ((Finset.range k).filter fun k => l.getD k false = true).card) := by
            rintro ⟨c0, c1, c2⟩
            by_cases ek : k = m
            · subst ek; exact hc c1
            · exact hD ⟨by omega, c1, c2⟩
          rw [if_neg hD, if_neg this]

theorem augment_loop_spec (P : Matrix) (l : List Bool) (rank : Nat) : ∀ m,
    rank ≤ (augment_loop P l rank m).2 ∧
    (augment_loop P l rank m).1.nr = P.nr ∧ (augment_loop P l rank m).1.nc = P.nc ∧
    ∀ k, k < rank → (augment_loop P l rank m).1.row k = P.row k := by
  intro m
  induction m with
  | zero => simp [augment_loop]
  | succ m ih =>
    obtain ⟨h1, h2, h3, h4⟩ := ih
    have e : augment_loop P l rank (m + 1) =
        if l.getD m false then augment_loop P l rank m
        else ((augment_loop P l rank m).1.set_entry (augment_loop P l rank m).2 m 1,
            (augment_loop P l rank m).2 + 1) := by
      simp [augment_loop, List.range_succ, List.foldl_append]
    rw [e]
    by_cases hc : l.getD m false = true
    · rw [if_pos hc]
      exact ⟨h1, h2, h3, h4⟩
    · rw [if_neg hc]
      refine ⟨Nat.le_succ_of_le h1, h2, h3, ?_⟩
      intro k hk
      show ((augment_loop P l rank m).1.set_entry (augment_loop P l rank m).2 m 1).row k = _
      rw [Matrix.row_set_entry, if_neg (by omega)]
      exact h4 k hk

end Sublattice_Representation

theorem mul_comm_of_scaled_inverse (n : Nat) (X Y : ZMat n n) (c : Int) (hc : c ≠ 0)
    (h : X * Y = c • (1 : ZMat n n)) : Y * X = c • (1 : ZMat n n) := by
  have hdet : X.det ≠ 0 := by
    intro h0
    have h1 := congrArg Matrix.det h
    rw [Matrix.det_mul, h0, zero_mul, Matrix.det_smul, Matrix.det_one, mul_one] at h1
    exact pow_ne_zero _ hc h1.symm
  have h2 : X.det • (Y * X) = X.det • (c • (1 : ZMat n n)) := by
    calc X.det • (Y * X) = (X.adjugate * X) * (Y * X) := by
          rw [Matrix.adjugate_mul, Matrix.smul_mul, Matrix.one_mul]
      _ = X.adjugate * ((X * Y) * X) := by simp only [Matrix.mul_assoc]
      _ = X.adjugate * (c • X) := by rw [h, Matrix.smul_mul, Matrix.one_mul]
      _ = c • (X.adjugate * X) := by rw [Matrix.mul_smul]
      _ = X.det • (c • (1 : ZMat n n)) := by rw [Matrix.adjugate_mul, smul_comm]
  funext i j
  have h3 := congrFun (congrFun h2 i) j
  simp only [Matrix.smul_apply, smul_eq_mul] at h3
  simp only [Matrix.smul_apply, smul_eq_mul]
  exact mul_left_cancel₀ hdet h3

theorem card_corners (f : Nat → Nat) (rank : Nat)
    (hmono : ∀ i l, i < l → l < rank → f i < f l) (p : Nat → Prop) [DecidablePred p]
    (hp : ∀ k, p k ↔ ∃ i, i < rank ∧ f i = k) (j : Nat) (hj : j < rank) :
    ((Finset.range (f j)).filter p).card = j := by
  have hinj : ∀ a b, a < rank → b < rank → f a = f b → a = b := by
    intro a b ha hb hab
    by_contra hne
    rcases Nat.lt_or_gt_of_ne hne with h | h
    · have := hmono a b h hb; omega
    · have := hmono b a h ha; omega
  have e : (Finset.range (f j)).filter p = (Finset.range j).image f := by
    ext k
    simp only [Finset.mem_filter, Finset.mem_range, Finset.mem_image, hp]
    constructor
    · rintro ⟨h1, i, hi, rfl⟩
      refine ⟨i, ?_, rfl⟩
      by_contra hge
      rcases Nat.eq_or_lt_of_le (Nat.le_of_not_lt hge) with h | h
      · rw [h] at h1; omega
      · have := hmono j i h hi; omega
    · rintro ⟨i, hi, rfl⟩
      exact ⟨hmono i j hi hj, i, by omega, rfl⟩
  rw [e, Finset.card_image_of_injOn, Finset.card_range]
  intro a ha b hb hab
  simp only [Finset.coe_range, Set.mem_Iio] at ha hb
  exact hinj a b (by omega) (by omega) hab

namespace Sublattice_Representation

theorem length_zero_elem (r c : Nat) : (Matrix.zero r c).elem.length = r := by
  simp [Matrix.zero, Matrix.ofFn]

theorem echelon_rank_le (N : Matrix) (rank dim : Nat) (hre : ReducedEchelon N rank dim) :
    rank ≤ dim := by
  have h : ∀ k, k < rank → k ≤ first_nonzero N dim k := by
    intro k
    induction k with
    | zero => intro _; exact Nat.zero_le _
    | succ k ih =>
      intro hk
      have := ((hre k (by omega)).2 (k + 1) hk (by omega)).1
      have := ih (by omega)
      omega
  by_contra hlt
  have h1 := h (rank - 1) (by omega)
  have h2 := (hre (rank - 1) (by omega)).1
  omega

theorem copy_rows_zero (N : Matrix) (rank dim m : Nat) (hm : rank ≤ m) :
    (copy_rows (Matrix.zero m dim) N rank).nr = m ∧
    (copy_rows (Matrix.zero m dim) N rank).nc = dim ∧
    (copy_rows (Matrix.zero m dim) N rank).elem.length = m ∧
    ∀ k, k < rank → (copy_rows (Matrix.zero m dim) N rank).row k = N.row k := by
  obtain ⟨h1, h2, h3, h4⟩ := copy_rows_spec (Matrix.zero m dim) N rank
  refine ⟨h1, h2, by rw [h3, length_zero_elem], ?_⟩
  intro k hk
  rw [h4, if_pos ⟨hk, by rw [length_zero_elem]; omega⟩]

theorem copy_rows_wf (N : Matrix) (rank dim : Nat)
    (hN : ∀ k, k < rank → (N.row k).length = dim) :
    (copy_rows (Matrix.zero rank dim) N rank).wf = true := by
  obtain ⟨h1, h2, h3, h4⟩ := copy_rows_zero N rank dim rank (le_refl _)
  apply Matrix.wf_of_rows _ (by rw [h3, h1])
  intro i hi
  rw [h1] at hi
  rw [h4 i hi, h2]
  exact hN i hi

theorem inv_augmented (N Q : Matrix) (rank dim : Nat) (c : Int) (l : List Bool)
    (hrk : rank ≤ dim)
    (hPQ : (augment_loop (copy_rows (Matrix.zero dim dim) N rank) l rank dim).1.multiplication Q
      = scalarMatrix (augment_loop (copy_rows (Matrix.zero dim dim) N rank) l rank dim).1.nr c) :
    (copy_rows (Matrix.zero rank dim) N rank).multiplication
      (Matrix.ofFn dim rank fun k j => Q.get k j) = scalarMatrix rank c := by
  obtain ⟨a1, a2, a3, a4⟩ := copy_rows_zero N rank dim rank (le_refl _)
  obtain ⟨p1, p2, p3, p4⟩ := copy_rows_zero N rank dim dim hrk
  obtain ⟨q1, q2, q3, q4⟩ := augment_loop_spec (copy_rows (Matrix.zero dim dim) N rank) l rank dim
  generalize (augment_loop (copy_rows (Matrix.zero dim dim) N rank) l rank dim).1 = P at *
  rw [p1] at q2
  rw [p2] at q3
  rw [q2] at hPQ
  apply Matrix.ext_toZ _ _ rank rank (Matrix.wf_multiplication _ _) (wf_scalarMatrix _ _)
    (by simp [a1]) (by simp [Matrix.ofFn]) (by simp) (by simp)
  rw [Matrix.toZ_multiplication _ _ rank dim rank a1 a2 (by simp [Matrix.ofFn]), toZ_scalarMatrix]
  have hQc : Q.nc = dim := by
    have := congrArg Matrix.nc hPQ
    simpa using this
  have h1 := congrArg (fun M => M.toZ dim dim) hPQ
  simp only at h1
  rw [Matrix.toZ_multiplication _ _ dim dim dim q2 q3 hQc, toZ_scalarMatrix] at h1
  funext i j
  have h2 := congrFun (congrFun h1 (Fin.castLE hrk i)) (Fin.castLE hrk j)
  simp only [Matrix.mul_apply, Matrix.toZ, Fin.coe_castLE] at h2
  simp only [Matrix.mul_apply, Matrix.toZ]
  have e1 : ∀ k : Fin dim, (copy_rows (Matrix.zero rank dim) N rank).get i k = P.get i k := by
    intro k
    rw [Matrix.get_eq_row, Matrix.get_eq_row, a4 i i.isLt, q4 i i.isLt, p4 i i.isLt]
  have e2 : ∀ k : Fin dim, (Matrix.ofFn dim rank fun k j => Q.get k j).get k j = Q.get k j :=
    fun k => Matrix.get_ofFn _ _ _ _ _ k.isLt j.isLt
  simp only [e1, e2]
  rw [h2]
  simp [Matrix.smul_apply, Matrix.one_apply, Fin.ext_iff]

theorem inv_saturation (R_inv R : Matrix) (rank dim : Nat) (c : Int) (hrk : rank ≤ dim)
    (hr : R_inv.nr = dim) (hcn : R_inv.nc = dim) (hc : c ≠ 0)
    (hPQ : R_inv.multiplication R = scalarMatrix R_inv.nr c) :
    (Matrix.ofFn rank dim fun i j => R.get i j).multiplication
      (Matrix.ofFn dim rank fun j i => R_inv.get j i) = scalarMatrix rank c := by
  rw [hr] at hPQ
  have hQc : R.nc = dim := by
    have := congrArg Matrix.nc hPQ
    simpa using this
  have h1 := congrArg (fun M => M.toZ dim dim) hPQ
  simp only at h1
  rw [Matrix.toZ_multiplication _ _ dim dim dim hr hcn hQc, toZ_scalarMatrix] at h1
  have h1' := mul_comm_of_scaled_inverse dim _ _ c hc h1
  apply Matrix.ext_toZ _ _ rank rank (Matrix.wf_multiplication _ _) (wf_scalarMatrix _ _)
    (by simp [Matrix.ofFn]) (by simp [Matrix.ofFn]) (by simp) (by simp)
  rw [Matrix.toZ_multiplication _ _ rank dim rank (by simp [Matrix.ofFn]) (by simp [Matrix.ofFn])
    (by simp [Matrix.ofFn]), toZ_scalarMatrix]
  funext i j
  have h2 := congrFun (congrFun h1' (Fin.castLE hrk i)) (Fin.castLE hrk j)
  simp only [Matrix.mul_apply, Matrix.toZ, Fin.coe_castLE] at h2
  simp only [Matrix.mul_apply, Matrix.toZ]
  have e1 : ∀ k : Fin dim, (Matrix.ofFn rank dim fun i j => R.get i j).get i k = R.get i k :=
    fun k => Matrix.get_ofFn _ _ _ _ _ i.isLt k.isLt
  have e2 : ∀ k : Fin dim, (Matrix.ofFn dim rank fun j i => R_inv.get j i).get k j = R_inv.get k j :=
    fun k => Matrix.get_ofFn _ _ _ _ _ k.isLt j.isLt
  simp only [e1, e2]
  rw [h2]
  simp [Matrix.smul_apply, Matrix.one_apply, Fin.ext_iff]


theorem inv_direct (N0 : Matrix) (rank dim : Nat) (hwf : N0.wf = true)
    (hrk : rank ≤ N0.nr) (hre : ReducedEchelon N0 rank dim)
    (h1 : (corner_loop N0 dim rank rank).row_index = 1) :
    (copy_rows (Matrix.zero rank dim) (corner_loop N0 dim rank rank).N rank).multiplication
      (projection_loop (Matrix.zero dim rank) (corner_loop N0 dim rank rank).col_is_corner dim).1
      = scalarMatrix rank 1 ∧
    (projection_loop (Matrix.zero dim rank) (corner_loop N0 dim rank rank).col_is_corner dim).1.wf
      = true ∧
    (projection_loop (Matrix.zero dim rank) (corner_loop N0 dim rank rank).col_is_corner dim).1.nr
      = dim ∧
    (projection_loop (Matrix.zero dim rank) (corner_loop N0 dim rank rank).col_is_corner dim).1.nc
      = rank := by
  obtain ⟨i1, i2, i3, i4, i5, i6, i7, i8, i9⟩ :=
    corner_loop_inv N0 dim rank ((Matrix.wf_iff _).1 hwf).1 hrk hre rank (le_refl _)
  obtain ⟨a1, a2, a3, a4⟩ :=
    copy_rows_zero (corner_loop N0 dim rank rank).N rank dim rank (le_refl _)
  obtain ⟨p1, p2, p3, p4, p5⟩ := projection_loop_spec (Matrix.zero dim rank)
    (corner_loop N0 dim rank rank).col_is_corner (Matrix.wf_ofFn _ _ _) dim
  have i9' := i9 h1
  generalize (corner_loop N0 dim rank rank) = cs at *
  generalize (projection_loop (Matrix.zero dim rank) cs.col_is_corner dim).1 = B at *
  generalize (copy_rows (Matrix.zero rank dim) cs.N rank) = A at *
  have hBr : B.nr = dim := p2
  have hBc : B.nc = rank := p3
  refine ⟨?_, p4, hBr, hBc⟩
  have hmono : ∀ a b, a < b → b < rank → first_nonzero N0 dim a < first_nonzero N0 dim b :=
    fun a b hab hb => ((hre a (by omega)).2 b hb hab).1
  have hcnt : ∀ j, j < rank →
      ((Finset.range (first_nonzero N0 dim j)).filter
        fun k => cs.col_is_corner.getD k false = true).card = j :=
    fun j hj => card_corners (first_nonzero N0 dim) rank hmono _ i7 j hj
  have hB : ∀ k j, k < dim → j < rank →
      B.get k j = if k = first_nonzero N0 dim j then 1 else 0 := by
    intro k j hk hj
    rw [p5]
    have hz : (Matrix.zero dim rank).get k j = 0 := Matrix.get_ofFn _ _ _ _ _ hk hj
    rw [hz]
    by_cases e : k = first_nonzero N0 dim j
    · rw [if_pos e, if_pos]
      refine ⟨hk, (i7 k).2 ⟨j, hj, e.symm⟩, hk, hj, ?_⟩
      rw [e, hcnt j hj]
    · rw [if_neg e, if_neg]
      rintro ⟨_, c1, _, _, c2⟩
      obtain ⟨i, hi, rfl⟩ := (i7 k).1 c1
      rw [hcnt i hi] at c2
      exact e (by rw [c2])
  apply Matrix.ext_toZ _ _ rank rank (Matrix.wf_multiplication _ _) (wf_scalarMatrix _ _)
    (by simp [a1]) (by simp [hBc]) (by simp) (by simp)
  rw [Matrix.toZ_multiplication _ _ rank dim rank a1 a2 hBc, toZ_scalarMatrix]
  funext i j
  simp only [Matrix.mul_apply, Matrix.toZ]
  have hfj : first_nonzero N0 dim j < dim := (hre j j.isLt).1
  rw [Finset.sum_eq_single (⟨first_nonzero N0 dim j, hfj⟩ : Fin dim)]
  · rw [hB _ _ hfj j.isLt, if_pos rfl, mul_one, Matrix.get_eq_row, a4 i i.isLt, ← Matrix.get_eq_row]
    simp only [Matrix.smul_apply, Matrix.one_apply, smul_eq_mul, one_mul]
    obtain ⟨⟨σ, hσ, hrow⟩, _⟩ := i5 i i.isLt
    have hval : cs.N.get i (first_nonzero N0 dim j) = N0.get i (first_nonzero N0 dim j) * σ := by
      rw [Matrix.get_eq_row, hrow, Matrix.get_neg_row, ← Matrix.get_eq_row]
    by_cases e : i = j
    · subst e
      rw [if_pos rfl]
      exact i9' i i.isLt
    · rw [if_neg e, hval]
      have e' : (i : Nat) ≠ (j : Nat) := fun hh => e (Fin.ext hh)
      rcases Nat.lt_or_gt_of_ne e' with hlt | hgt
      · -- entry above the corner of row j
        have hred := ((hre i i.isLt).2 j j.isLt hlt).2
        obtain ⟨⟨τ, hτ, hrowj⟩, _⟩ := i5 j j.isLt
        have hone := i9' j j.isLt
        rw [Matrix.get_eq_row, hrowj, Matrix.get_neg_row, ← Matrix.get_eq_row] at hone
        have habs : (N0.get j (first_nonzero N0 dim j)).natAbs = 1 := by
          rcases hτ with rfl | rfl
          · rw [mul_one] at hone; rw [hone]; rfl
          · have : N0.get j (first_nonzero N0 dim j) = -1 := by omega
            rw [this]; rfl
        rw [habs] at hred
        have : N0.get i (first_nonzero N0 dim j) = 0 := by omega
        rw [this, zero_mul]
      · -- entry to the left of the corner of row i
        have hz := (first_nonzero_spec N0 dim i).2.1 (first_nonzero N0 dim j)
          (hmono j i hgt i.isLt)
        rw [hz, zero_mul]
  · intro k _ hk
    have hk' : (k : Nat) ≠ first_nonzero N0 dim j := fun hh => hk (Fin.ext hh)
    rw [hB _ _ k.isLt j.isLt, if_neg hk', mul_zero]
  · intro h
    exact absurd (Finset.mem_univ _) h

theorem corner_rows_length (N0 : Matrix) (rank dim : Nat) (hwf : N0.wf = true)
    (hnc : N0.nc = dim) (hrk : rank ≤ N0.nr) (hre : ReducedEchelon N0 rank dim) :
    ∀ k, k < rank → ((corner_loop N0 dim rank rank).N.row k).length = dim := by
  obtain ⟨i1, i2, i3, i4, i5, i6, i7, i8, i9⟩ :=
    corner_loop_inv N0 dim rank ((Matrix.wf_iff _).1 hwf).1 hrk hre rank (le_refl _)
  intro k hk
  obtain ⟨⟨σ, _, hrow⟩, _⟩ := i5 k hk
  rw [hrow, length_v_scalar_multiplication, Matrix.row_length_of_wf N0 hwf k (by omega), hnc]

end Sublattice_Representation

namespace Sublattice_Representation

/-- C2: whenever `initialize` reports success without flagging the identity, the fields
satisfy `A * B = c * I_rank` with `A` of shape `rank x dim` and `B` of shape `dim x rank`,
in the direct summand branch, the augmented inverse branch and the saturation branch,
provided the row echelon reduction returns a reduced echelon form of the returned rank,
the inversion returns `Q` and `c ≠ 0` with `P * Q = c * I`, and the column
trigonalization keeps the shape of its argument. -/
theorem C2_initialise_invariant (ops : MatrixOps) (S0 : Sublattice_Representation) (M : Matrix)
    (sat : Bool)
    (hRE : RowEchelonContract M (ops.row_echelon_reduce M))
    (hINV : ∀ P, InvertContract P (ops.invert_unprotected P))
    (hCT : ∀ N r R, ColumnTrigContract R (ops.column_trigonalize N r R))
    (hs : (initialise ops S0 M sat).2 = true)
    (hid : (initialise ops S0 M sat).1.is_identity = false) :
    (initialise ops S0 M sat).1.Inv := by
  unfold initialise at hs hid ⊢
  simp only at hs hid ⊢
  by_cases h0 : (ops.row_echelon_reduce M).2.2 = false
  · rw [if_pos h0] at hs; simp at hs
  rw [if_neg h0] at hs hid ⊢
  have h0' : (ops.row_echelon_reduce M).2.2 = true := by simpa using h0
  obtain ⟨r1, r2, r3, r4⟩ := hRE h0'
  have hrd := echelon_rank_le _ _ _ r4
  by_cases h1 : (ops.row_echelon_reduce M).2.1 = M.nc ∧ sat = true
  · rw [if_pos h1] at hid; simp at hid
  rw [if_neg h1] at hs hid ⊢
  by_cases h2 : (corner_loop (ops.row_echelon_reduce M).1 M.nc (ops.row_echelon_reduce M).2.1
      (ops.row_echelon_reduce M).2.1).row_index = 1 ∧ (ops.row_echelon_reduce M).2.1 = M.nc
  · rw [if_pos h2] at hid; simp at hid
  rw [if_neg h2] at hs hid ⊢
  have hrows := corner_rows_length _ _ _ r1 r2 r3 r4
  obtain ⟨a1, a2, a3, a4⟩ := copy_rows_zero (corner_loop (ops.row_echelon_reduce M).1 M.nc
    (ops.row_echelon_reduce M).2.1 (ops.row_echelon_reduce M).2.1).N
    (ops.row_echelon_reduce M).2.1 M.nc (ops.row_echelon_reduce M).2.1 (le_refl _)
  have awf := copy_rows_wf _ _ _ hrows
  by_cases h3 : (corner_loop (ops.row_echelon_reduce M).1 M.nc (ops.row_echelon_reduce M).2.1
      (ops.row_echelon_reduce M).2.1).row_index = 1
  · rw [if_pos h3]
    obtain ⟨d1, d2, d3, d4⟩ := inv_direct _ _ _ r1 r3 r4 h3
    exact ⟨awf, d2, a1, a2, d3, d4, d1⟩
  rw [if_neg h3] at hs hid ⊢
  by_cases h4 : sat = false
  · rw [if_pos h4] at hs hid ⊢
    by_cases h5 : (ops.invert_unprotected (augment_loop (copy_rows (Matrix.zero M.nc M.nc)
        (corner_loop (ops.row_echelon_reduce M).1 M.nc (ops.row_echelon_reduce M).2.1
          (ops.row_echelon_reduce M).2.1).N (ops.row_echelon_reduce M).2.1)
        (corner_loop (ops.row_echelon_reduce M).1 M.nc (ops.row_echelon_reduce M).2.1
          (ops.row_echelon_reduce M).2.1).col_is_corner (ops.row_echelon_reduce M).2.1 M.nc).1).2.2
        = false
    · rw [if_pos h5] at hs; simp at hs
    rw [if_neg h5]
    obtain ⟨_, c2⟩ := hINV _ (by simpa using h5)
    exact ⟨awf, Matrix.wf_ofFn _ _ _, a1, a2, rfl, rfl,
      inv_augmented _ _ _ _ _ _ hrd c2⟩
  · rw [if_neg h4] at hs hid ⊢
    by_cases h5 : (ops.invert_unprotected (ops.column_trigonalize
        (corner_loop (ops.row_echelon_reduce M).1 M.nc (ops.row_echelon_reduce M).2.1
          (ops.row_echelon_reduce M).2.1).N (ops.row_echelon_reduce M).2.1
        (Matrix.identity M.nc)).1).2.2 = false
    · rw [if_pos h5] at hs; simp at hs
    rw [if_neg h5]
    obtain ⟨c1, c2⟩ := hINV _ (by simpa using h5)
    obtain ⟨t1, t2⟩ := hCT (corner_loop (ops.row_echelon_reduce M).1 M.nc
      (ops.row_echelon_reduce M).2.1 (ops.row_echelon_reduce M).2.1).N
      (ops.row_echelon_reduce M).2.1 (Matrix.identity M.nc)
    exact ⟨Matrix.wf_ofFn _ _ _, Matrix.wf_ofFn _ _ _, rfl, rfl, rfl, rfl,
      inv_saturation _ _ _ _ _ hrd t1 t2 c1 c2⟩

end Sublattice_Representation

namespace Simplex

theorem foldl_option_shift {α : Type} (P : Nat → Prop) [DecidablePred P] (g : Nat → α) (init : Option α)
    (L : List Nat) : ∀ x0 : Option Nat,
    L.foldl (fun l i => if P i then some (g i) else l)
        (match x0 with | some i => some (g i) | none => init)
      = match L.foldl (fun l i => if P i then some i else l) x0 with
        | some i => some (g i)
        | none => init := by
  induction L with
  | nil => intro x0; rfl
  | cons a t ih =>
    intro x0
    simp only [List.foldl_cons]
    by_cases h : P a
    · simp only [h, if_true]
      exact ih (some a)
    · simp only [h, if_false]
      exact ih x0

theorem find_last_cons (n : Nat) (p d : Int) (ps ds : List Int) :
    find_last (n + 1) (p :: ps) (d :: ds) =
      match find_last n ps ds with
      | some i => some (i + 1)
      | none => if p < d - 1 then some 0 else none := by
  unfold find_last
  rw [List.range_succ_eq_map, List.foldl_cons, List.foldl_map]
  have := foldl_option_shift (fun i => ps.getD i 0 < ds.getD i 0 - 1) (fun i => i + 1)
    (if p < d - 1 then some 0 else none) (List.range n) none
  simpa using this

theorem foldl_set_cons (p : Int) (L : List Nat) : ∀ l : List Int,
    (L.map Nat.succ).foldl (fun q i => q.set i 0) (p :: l) =
      p :: L.foldl (fun q i => q.set i 0) l := by
  induction L with
  | nil => intro l; rfl
  | cons a t ih =>
    intro l
    simp only [List.map_cons, List.foldl_cons, Nat.succ_eq_add_one, List.set_cons_succ]
    exact ih _

theorem foldl_set_zero (m : Nat) : ∀ (l : List Int) (s : Nat), s + m = l.length →
    (List.range' s m).foldl (fun q i => q.set i 0) l = l.take s ++ List.replicate m 0 := by
  induction m with
  | zero =>
    intro l s h
    have hl : l.length ≤ s := by omega
    simp [List.take_of_length_le hl]
  | succ m ih =>
    intro l s h
    rw [List.range'_succ, List.foldl_cons, ih _ (s + 1) (by simp; omega)]
    apply List.ext_getElem
    · simp; omega
    · intro i h1 h2
      simp only [List.getElem_append, List.length_take, List.length_set, List.getElem_take,
        List.getElem_set, List.getElem_replicate]
      by_cases c1 : i < s
      · have : i < min (s + 1) l.length := by omega
        have c2 : ¬ s = i := by omega
        have c3 : i < min s l.length := by omega
        simp [this, c2, c3]
      · by_cases c4 : i = s
        · subst c4
          have : i < min (i + 1) l.length := by omega
          have c3 : ¬ i < min i l.length := by omega
          simp [this, c3]
        · have : ¬ i < min (s + 1) l.length := by omega
          have c3 : ¬ i < min s l.length := by omega
          simp [this, c3]

theorem advance_zero (n : Nat) (p : Int) (ps : List Int) (h : ps.length = n) :
    advance (n + 1) (p :: ps) 0 = (p + 1) :: List.replicate ps.length 0 := by
  unfold advance
  simp only [zero_add, Nat.add_sub_cancel, List.set_cons_zero, List.getD_cons_zero]
  have e : List.range' 1 n = (List.range' 0 n).map Nat.succ := by
    rw [List.range'_eq_map_range]
    simp [List.range_eq_range', Nat.add_comm]
  rw [e, foldl_set_cons, foldl_set_zero n ps 0 (by omega)]
  simp [h]

theorem advance_succ (n : Nat) (p : Int) (ps : List Int) (i : Nat) :
    advance (n + 1) (p :: ps) (i + 1) = p :: advance n ps i := by
  unfold advance
  simp only [List.set_cons_succ, List.getD_cons_succ]
  have e : List.range' (i + 1 + 1) (n + 1 - (i + 1 + 1)) =
      (List.range' (i + 1) (n - (i + 1))).map Nat.succ := by
    have : n + 1 - (i + 1 + 1) = n - (i + 1) := by omega
    rw [this]
    apply List.ext_getElem
    · simp
    · intro k h1 h2
      simp
      omega
  rw [e, foldl_set_cons]

theorem advance_last (n : Nat) (ps : List Int) (i : Nat) (h : ps.length = n) (hi : i < n) :
    advance n ps i = ps.take i ++ (ps.getD i 0 + 1) :: List.replicate (n - (i + 1)) 0 := by
  unfold advance
  rw [foldl_set_zero _ _ (i + 1) (by simp; omega)]
  apply List.ext_getElem
  · simp; omega
  · intro k h1 h2
    simp only [List.getElem_append, List.length_take, List.length_set, List.getElem_take,
      List.getElem_set, List.getElem_cons, List.getElem_replicate]
    by_cases c1 : k < i
    · have a1 : k < min (i + 1) ps.length := by omega
      have a2 : ¬ i = k := by omega
      have a3 : k < min i ps.length := by omega
      simp [a1, a2, a3]
    · by_cases c2 : k = i
      · subst c2
        have a1 : k < min (k + 1) ps.length := by omega
        have a3 : ¬ k < min k ps.length := by omega
        have a4 : k - min k ps.length = 0 := by omega
        simp [a1, a3, a4]
      · have a1 : ¬ k < min (i + 1) ps.length := by omega
        have a3 : ¬ k < min i ps.length := by omega
        have a4 : ¬ k - min i ps.length = 0 := by omega
        simp [a1, a3, a4]

theorem next_point_eq_next_rec : ∀ (n : Nat) (diag point : List Int),
    diag.length = n → point.length = n → next_point n point diag = next_rec diag point := by
  intro n
  induction n with
  | zero =>
    intro diag point h1 h2
    have e1 : diag = [] := List.length_eq_zero.1 h1
    have e2 : point = [] := List.length_eq_zero.1 h2
    subst e1 e2
    simp [next_point, find_last, next_rec]
  | succ n ih =>
    intro diag point h1 h2
    obtain ⟨d, ds, rfl⟩ := List.exists_cons_of_length_eq_add_one h1
    obtain ⟨p, ps, rfl⟩ := List.exists_cons_of_length_eq_add_one h2
    simp only [List.length_cons, Nat.add_right_cancel_iff] at h1 h2
    have := ih ds ps h1 h2
    unfold next_point at this ⊢
    rw [find_last_cons]
    rw [next_rec]
    cases hfl : find_last n ps ds with
    | none =>
      rw [hfl] at this
      simp only at this
      rw [← this]
      by_cases hp : p < d - 1
      · simp only [hp, if_true]
        rw [advance_zero n p ps h2]
      · simp only [hp, if_false]
    | some i =>
      rw [hfl] at this
      simp only at this
      rw [← this]
      simp only
      rw [advance_succ]

end Simplex

namespace Simplex

theorem in_box_length : ∀ (diag point : List Int), in_box diag point → point.length = diag.length := by
  intro diag
  induction diag with
  | nil => intro point h; cases point with
    | nil => rfl
    | cons p ps => simp [in_box] at h
  | cons d ds ih =>
    intro point h
    cases point with
    | nil => simp [in_box] at h
    | cons p ps =>
      simp only [in_box] at h
      simp [ih ps h.2.2]

theorem in_box_prod_pos : ∀ (diag point : List Int), in_box diag point → 0 < diag.prod := by
  intro diag
  induction diag with
  | nil => intro _ _; simp
  | cons d ds ih =>
    intro point h
    cases point with
    | nil => simp [in_box] at h
    | cons p ps =>
      simp only [in_box] at h
      rw [List.prod_cons]
      exact Int.mul_pos (by omega) (ih ps h.2.2)

theorem in_box_zero : ∀ (diag : List Int), (∀ d ∈ diag, 0 < d) →
    in_box diag (List.replicate diag.length 0) := by
  intro diag
  induction diag with
  | nil => intro _; simp [in_box]
  | cons d ds ih =>
    intro h
    simp only [List.length_cons, List.replicate_succ, in_box]
    exact ⟨le_refl _, h d (by simp), ih (fun x hx => h x (by simp [hx]))⟩

theorem mixed_value_zero : ∀ (diag : List Int),
    mixed_value diag (List.replicate diag.length 0) = 0 := by
  intro diag
  induction diag with
  | nil => rfl
  | cons d ds ih => simp [mixed_value, List.replicate_succ, ih]

theorem in_box_pos : ∀ (diag point : List Int), in_box diag point → ∀ d ∈ diag, 0 < d := by
  intro diag
  induction diag with
  | nil => intro _ _ d hd; simp at hd
  | cons d ds ih =>
    intro point h
    cases point with
    | nil => simp [in_box] at h
    | cons p ps =>
      simp only [in_box] at h
      intro x hx
      rcases List.mem_cons.1 hx with rfl | hx
      · omega
      · exact ih ps h.2.2 x hx

theorem mixed_value_bounds : ∀ (diag point : List Int), in_box diag point →
    0 ≤ mixed_value diag point ∧ mixed_value diag point < diag.prod := by
  intro diag
  induction diag with
  | nil => intro point h; cases point <;> simp [mixed_value]
  | cons d ds ih =>
    intro point h
    cases point with
    | nil => simp [in_box] at h
    | cons p ps =>
      simp only [in_box] at h
      obtain ⟨h1, h2, h3⟩ := h
      obtain ⟨b1, b2⟩ := ih ps h3
      have hpos := in_box_prod_pos ds ps h3
      simp only [mixed_value, List.prod_cons]
      constructor
      · have := mul_nonneg h1 (le_of_lt hpos); omega
      · have : (p + 1) * ds.prod ≤ d * ds.prod :=
          mul_le_mul_of_nonneg_right (by omega) (le_of_lt hpos)
        nlinarith

theorem next_rec_none : ∀ (diag point : List Int), in_box diag point →
    next_rec diag point = none → mixed_value diag point = diag.prod - 1 := by
  intro diag
  induction diag with
  | nil => intro point h _; cases point <;> simp [mixed_value]
  | cons d ds ih =>
    intro point h hn
    cases point with
    | nil => simp [in_box] at h
    | cons p ps =>
      simp only [in_box] at h
      obtain ⟨h1, h2, h3⟩ := h
      rw [next_rec] at hn
      cases hr : next_rec ds ps with
      | some q => rw [hr] at hn; simp at hn
      | none =>
        rw [hr] at hn
        simp only at hn
        have hp : ¬ p < d - 1 := by
          intro hp; simp [hp] at hn
        have := ih ps h3 hr
        simp only [mixed_value, List.prod_cons, this]
        have e : p = d - 1 := by omega
        rw [e]; ring

theorem next_rec_some : ∀ (diag point q : List Int), in_box diag point →
    next_rec diag point = some q →
    in_box diag q ∧ mixed_value diag q = mixed_value diag point + 1 := by
  intro diag
  induction diag with
  | nil => intro point q h hn; cases point <;> simp [next_rec] at hn
  | cons d ds ih =>
    intro point q h hn
    cases point with
    | nil => simp [in_box] at h
    | cons p ps =>
      simp only [in_box] at h
      obtain ⟨h1, h2, h3⟩ := h
      rw [next_rec] at hn
      cases hr : next_rec ds ps with
      | some q' =>
        rw [hr] at hn
        simp only [Option.some.injEq] at hn
        subst hn
        obtain ⟨a1, a2⟩ := ih ps q' h3 hr
        simp only [in_box, mixed_value]
        exact ⟨⟨h1, h2, a1⟩, by rw [a2]; ring⟩
      | none =>
        rw [hr] at hn
        simp only at hn
        by_cases hp : p < d - 1
        · simp only [hp, if_true, Option.some.injEq] at hn
          subst hn
          have hlen := in_box_length ds ps h3
          have hv := next_rec_none ds ps h3 hr
          simp only [in_box, mixed_value]
          rw [hlen]
          refine ⟨⟨by omega, by omega, in_box_zero ds (in_box_pos ds ps h3)⟩, ?_⟩
          rw [mixed_value_zero, hv]; ring
        · simp [hp] at hn

theorem mixed_value_injective : ∀ (diag p q : List Int), in_box diag p → in_box diag q →
    mixed_value diag p = mixed_value diag q → p = q := by
  intro diag
  induction diag with
  | nil =>
    intro p q hp hq _
    cases p <;> cases q <;> simp_all [in_box]
  | cons d ds ih =>
    intro p q hp hq hv
    cases p with
    | nil => simp [in_box] at hp
    | cons a as =>
      cases q with
      | nil => simp [in_box] at hq
      | cons b bs =>
        simp only [in_box] at hp hq
        simp only [mixed_value] at hv
        obtain ⟨a1, a2⟩ := mixed_value_bounds ds as hp.2.2
        obtain ⟨b1, b2⟩ := mixed_value_bounds ds bs hq.2.2
        have hab : a = b := by
          by_contra hne
          rcases lt_or_gt_of_ne hne with hlt | hgt
          · have : (a + 1) * ds.prod ≤ b * ds.prod :=
              mul_le_mul_of_nonneg_right (by omega) (by omega)
            nlinarith
          · have : (b + 1) * ds.prod ≤ a * ds.prod :=
              mul_le_mul_of_nonneg_right (by omega) (by omega)
            nlinarith
        subst hab
        have : mixed_value ds as = mixed_value ds bs := by omega
        rw [ih as bs hp.2.2 hq.2.2 this]

end Simplex

namespace Simplex

theorem successors_spec (diag : List Int) : ∀ (fuel : Nat) (p : List Int), in_box diag p →
    diag.prod - 1 - mixed_value diag p ≤ (fuel : Int) →
    ((successors diag fuel p).length : Int) = diag.prod - 1 - mixed_value diag p ∧
    (∀ q ∈ successors diag fuel p, in_box diag q ∧ mixed_value diag p < mixed_value diag q) ∧
    (∀ q, in_box diag q → mixed_value diag p < mixed_value diag q →
      q ∈ successors diag fuel p) := by
  intro fuel
  induction fuel with
  | zero =>
    intro p hp hf
    obtain ⟨b1, b2⟩ := mixed_value_bounds diag p hp
    simp only [successors, List.length_nil, List.not_mem_nil, false_implies, implies_true,
      true_and]
    refine ⟨by push_cast at hf ⊢; omega, ?_⟩
    intro q hq hlt
    obtain ⟨c1, c2⟩ := mixed_value_bounds diag q hq
    push_cast at hf
    omega
  | succ fuel ih =>
    intro p hp hf
    obtain ⟨b1, b2⟩ := mixed_value_bounds diag p hp
    rw [successors]
    cases hn : next_rec diag p with
    | none =>
      have hv := next_rec_none diag p hp hn
      simp only [List.length_nil, List.not_mem_nil, false_implies, implies_true, true_and]
      refine ⟨by push_cast; omega, ?_⟩
      intro q hq hlt
      obtain ⟨c1, c2⟩ := mixed_value_bounds diag q hq
      omega
    | some p' =>
      obtain ⟨hp', hv'⟩ := next_rec_some diag p p' hp hn
      obtain ⟨i1, i2, i3⟩ := ih p' hp' (by push_cast at hf; omega)
      simp only [List.length_cons, List.mem_cons]
      refine ⟨by push_cast; omega, ?_, ?_⟩
      · rintro q (rfl | hq)
        · exact ⟨hp', by omega⟩
        · obtain ⟨a1, a2⟩ := i2 q hq
          exact ⟨a1, by omega⟩
      · intro q hq hlt
        by_cases e : mixed_value diag q = mixed_value diag p'
        · left
          exact mixed_value_injective diag q p' hq hp' e
        · right
          exact i3 q hq (by omega)

theorem box_loop_eq_foldl {σ : Type} (dim : Nat) (diag : List Int) (body : List Int → σ → σ)
    (hd : diag.length = dim) : ∀ (fuel : Nat) (p : List Int) (s : σ), in_box diag p →
    diag.prod - 1 - mixed_value diag p < (fuel : Int) →
    box_loop dim diag body fuel p s =
      some ((successors diag fuel p).foldl (fun s q => body q s) s) := by
  intro fuel
  induction fuel with
  | zero =>
    intro p s hp hf
    obtain ⟨b1, b2⟩ := mixed_value_bounds diag p hp
    push_cast at hf
    omega
  | succ fuel ih =>
    intro p s hp hf
    have hlen := in_box_length diag p hp
    rw [box_loop, next_point_eq_next_rec dim diag p hd (by rw [hlen, hd]), successors]
    cases hn : next_rec diag p with
    | none => rfl
    | some p' =>
      obtain ⟨hp', hv'⟩ := next_rec_some diag p p' hp hn
      simp only [List.foldl_cons]
      exact ih p' (body p' s) hp' (by push_cast at hf; omega)

theorem map_range_getD (diag : List Int) (f : Int → Nat) :
    (List.range diag.length).map (fun i => f (diag.getD i 0)) = diag.map f := by
  apply List.ext_getElem
  · simp
  · intro i h1 h2
    simp at h1
    simp [List.getElem?_eq_getElem h1]

theorem prod_max_toNat : ∀ (diag : List Int), (∀ d ∈ diag, 0 < d) →
    (((diag.map fun d => max 1 d.toNat).prod : Nat) : Int) = diag.prod := by
  intro diag
  induction diag with
  | nil => intro _; simp
  | cons d ds ih =>
    intro h
    have hd := h d (by simp)
    simp only [List.map_cons, List.prod_cons, Nat.cast_mul]
    rw [ih (fun x hx => h x (by simp [hx]))]
    congr 1
    have : d.toNat ≥ 1 := by omega
    rw [max_eq_right this]
    exact Int.toNat_of_nonneg (by omega)

theorem box_fuel_eq (dim : Nat) (diag : List Int) (hd : diag.length = dim)
    (hpos : ∀ d ∈ diag, 0 < d) : ((box_fuel dim diag : Nat) : Int) = diag.prod := by
  unfold box_fuel
  rw [← hd, map_range_getD diag (fun d => max 1 d.toNat)]
  exact prod_max_toNat diag hpos

theorem box_loop_from_zero {σ : Type} (dim : Nat) (diag : List Int) (body : List Int → σ → σ)
    (hd : diag.length = dim) (hpos : ∀ d ∈ diag, 0 < d) (s : σ) :
    box_loop dim diag body (box_fuel dim diag) (List.replicate dim 0) s =
      some ((successors diag (box_fuel dim diag) (List.replicate dim 0)).foldl
        (fun s q => body q s) s) := by
  have hz := in_box_zero diag hpos
  rw [hd] at hz
  apply box_loop_eq_foldl dim diag body hd _ _ _ hz
  rw [box_fuel_eq dim diag hd hpos]
  have := mixed_value_zero diag
  rw [hd] at this
  rw [this]
  omega

theorem foldl_append_singleton (l acc : List (List Int)) :
    l.foldl (fun s q => s ++ [q]) acc = acc ++ l := by
  induction l generalizing acc with
  | nil => simp
  | cons a t ih => simp [ih]

theorem box_points_eq (dim : Nat) (diag : List Int) (hd : diag.length = dim)
    (hpos : ∀ d ∈ diag, 0 < d) :
    box_points dim diag = some (successors diag (box_fuel dim diag) (List.replicate dim 0)) := by
  unfold box_points
  rw [box_loop_from_zero dim diag _ hd hpos, foldl_append_singleton]
  simp

theorem successors_from_zero (dim : Nat) (diag : List Int) (hd : diag.length = dim)
    (hpos : ∀ d ∈ diag, 0 < d) :
    ((successors diag (box_fuel dim diag) (List.replicate dim 0)).length : Int) = diag.prod - 1 ∧
    (∀ q ∈ successors diag (box_fuel dim diag) (List.replicate dim 0),
      in_box diag q ∧ q ≠ List.replicate dim 0) ∧
    (∀ q, in_box diag q → q ≠ List.replicate dim 0 →
      q ∈ successors diag (box_fuel dim diag) (List.replicate dim 0)) := by
  have hz := in_box_zero diag hpos
  have hv := mixed_value_zero diag
  rw [hd] at hz hv
  obtain ⟨a1, a2, a3⟩ := successors_spec diag (box_fuel dim diag) _ hz
    (by rw [box_fuel_eq dim diag hd hpos, hv]; omega)
  rw [hv] at a1 a2 a3
  refine ⟨by rw [a1]; ring, ?_, ?_⟩
  · intro q hq
    obtain ⟨b1, b2⟩ := a2 q hq
    refine ⟨b1, ?_⟩
    intro e
    rw [e, hv] at b2
    omega
  · intro q hq hne
    apply a3 q hq
    obtain ⟨c1, c2⟩ := mixed_value_bounds diag q hq
    by_contra hle
    have : mixed_value diag q = mixed_value diag (List.replicate dim 0) := by rw [hv]; omega
    exact hne (mixed_value_injective diag q _ hq hz this)

end Simplex

namespace Simplex

theorem getD_set_int (l : List Int) (j : Nat) (x : Int) (k : Nat) :
    (l.set j x).getD k 0 = if k = j ∧ j < l.length then x else l.getD k 0 := by
  simp only [List.getD_eq_getElem?_getD, List.getElem?_set]
  by_cases h : j = k
  · subst h
    by_cases h2 : j < l.length
    · simp [h2]
    · simp [h2, List.getElem?_eq_none (Nat.le_of_not_lt h2)]
  · have : ¬ (k = j ∧ j < l.length) := fun hh => h hh.1.symm
    simp [h, this]

theorem seed_face_spec (dim : Nat) (NF : List Int) (hNF : ∀ nf ∈ NF, 1 ≤ nf ∧ nf ≤ (dim : Int)) :
    ∀ f : List Int, f.length = dim →
    ∃ f', NF.foldl (seed_step dim) (some f) = some f' ∧ f'.length = dim ∧
      ∀ k, k < dim → (f'.getD k 0 ≠ 0 ↔ (f.getD k 0 ≠ 0 ∨ ((k : Int) + 1) ∈ NF)) := by
  induction NF with
  | nil => intro f hf; exact ⟨f, rfl, hf, fun k _ => by simp⟩
  | cons a t ih =>
    intro f hf
    have ha := hNF a (by simp)
    simp only [List.foldl_cons, seed_step, Option.some_bind, ha, and_self, if_true]
    obtain ⟨f', e1, e2, e3⟩ := ih (fun nf h => hNF nf (by simp [h])) (f.set (a - 1).toNat 1)
      (by simp [hf])
    refine ⟨f', e1, e2, ?_⟩
    intro k hk
    rw [e3 k hk, getD_set_int]
    simp only [List.mem_cons]
    have hidx : (a - 1).toNat < f.length := by omega
    by_cases c : k = (a - 1).toNat
    · have ck : (k : Int) + 1 = a := by omega
      rw [if_pos ⟨c, hidx⟩]
      constructor
      · intro _; right; left; exact ck
      · intro _; left; decide
    · have ck : ¬ ((k : Int) + 1 = a) := by omega
      have : ¬ (k = (a - 1).toNat ∧ (a - 1).toNat < f.length) := fun hh => c hh.1
      simp only [this, if_false, ck, false_or]

theorem mark_face_spec (ne : List Int) (f : List Int) : ∀ m, m ≤ f.length →
    (mark_face m f ne).length = f.length ∧
    ∀ k, ((mark_face m f ne).getD k 0 ≠ 0 ↔ (f.getD k 0 ≠ 0 ∨ (k < m ∧ ne.getD k 0 ≠ 0))) := by
  intro m
  induction m with
  | zero => intro _; simp [mark_face]
  | succ m ih =>
    intro hm
    obtain ⟨i1, i2⟩ := ih (by omega)
    have e : mark_face (m + 1) f ne =
        if ne.getD m 0 ≠ 0 then (mark_face m f ne).set m 1 else mark_face m f ne := by
      simp [mark_face, List.range_succ, List.foldl_append]
    rw [e]
    by_cases c : ne.getD m 0 ≠ 0
    · rw [if_pos c]
      refine ⟨by simp [i1], ?_⟩
      intro k
      rw [getD_set_int, i1]
      by_cases ck : k = m
      · subst ck
        have : k = k ∧ k < f.length := ⟨rfl, by omega⟩
        simp only [this, and_self, if_true]
        constructor
        · intro _; right; exact ⟨by omega, c⟩
        · intro _; omega
      · have : ¬ (k = m ∧ m < f.length) := fun hh => ck hh.1
        simp only [this, if_false, i2]
        constructor
        · rintro (h | ⟨h1, h2⟩)
          · left; exact h
          · right; exact ⟨by omega, h2⟩
        · rintro (h | ⟨h1, h2⟩)
          · left; exact h
          · right; exact ⟨by omega, h2⟩
    · rw [if_neg c]
      refine ⟨i1, ?_⟩
      intro k
      rw [i2]
      constructor
      · rintro (h | ⟨h1, h2⟩)
        · left; exact h
        · right; exact ⟨by omega, h2⟩
      · rintro (h | ⟨h1, h2⟩)
        · left; exact h
        · right
          refine ⟨?_, h2⟩
          by_contra hh
          have : k = m := by omega
          subst this
          exact c h2

theorem count_face_spec (f : List Int) : ∀ m,
    count_face m f = ((List.range m).filter fun k => decide (f.getD k 0 ≠ 0)).length := by
  intro m
  induction m with
  | zero => simp [count_face]
  | succ m ih =>
    have e : count_face (m + 1) f =
        if f.getD m 0 ≠ 0 then count_face m f + 1 else count_face m f := by
      simp [count_face, List.range_succ, List.foldl_append]
    rw [e, ih, List.range_succ, List.filter_append]
    by_cases c : f.getD m 0 ≠ 0
    · have e2 : List.filter (fun k => decide (f.getD k 0 ≠ 0)) [m] = [m] := by
        rw [List.filter_cons_of_pos (by simpa using c)]; rfl
      rw [if_pos c, e2]; simp
    · have e2 : List.filter (fun k => decide (f.getD k 0 ≠ 0)) [m] = [] := by
        rw [List.filter_cons_of_neg (by simpa using c)]; rfl
      rw [if_neg c, e2]; simp

theorem facet_count_spec (dim : Nat) (NF ne : List Int)
    (hNF : ∀ nf ∈ NF, 1 ≤ nf ∧ nf ≤ (dim : Int)) :
    facet_count dim NF ne = some ((List.range dim).filter fun (k : Nat) =>
      decide (((k : Int) + 1) ∈ NF ∨ ne.getD k 0 ≠ 0)).length := by
  unfold facet_count seed_face
  obtain ⟨f', e1, e2, e3⟩ := seed_face_spec dim NF hNF (List.replicate dim 0) (by simp)
  rw [e1]
  simp only [Option.map_some', Option.some.injEq]
  rw [count_face_spec]
  obtain ⟨m1, m2⟩ := mark_face_spec ne f' dim (by omega)
  congr 1
  apply List.filter_congr
  intro k hk
  have hk' : k < dim := List.mem_range.1 hk
  have hz : (List.replicate dim (0 : Int)).getD k 0 = 0 := by
    simp [List.getD_eq_getElem?_getD, List.getElem?_replicate, hk']
  have := (m2 k).trans (or_congr (e3 k hk') Iff.rfl)
  simp only [hz, ne_eq, not_true_eq_false, false_or] at this
  simp only [decide_eq_decide]
  refine Iff.trans this ?_
  constructor
  · rintro (h | ⟨_, h⟩)
    · left; exact h
    · right; exact h
  · rintro (h | h)
    · left; exact h
    · right; exact ⟨hk', h⟩

end Simplex

namespace Simplex

theorem foldl_bind_none {α : Type} (f : List Int → α → Option α)
    (pts : List (List Int)) :
    pts.foldl (fun (st : Option α) p => st.bind (f p)) none = none := by
  induction pts with
  | nil => rfl
  | cons a t ih => simpa using ih

theorem increment_spec (HV : List Int) (h : Int) (HV' : List Int) (e : increment HV h = some HV') :
    0 ≤ h ∧ h < HV.length ∧ HV'.length = HV.length ∧
      ∀ i : Nat, HV'.getD i 0 = HV.getD i 0 + if (i : Int) = h then 1 else 0 := by
  unfold increment at e
  by_cases c : 0 ≤ h ∧ h < HV.length
  · rw [if_pos c] at e
    simp only [Option.some.injEq] at e
    subst e
    refine ⟨c.1, c.2, by simp, ?_⟩
    intro i
    rw [getD_set_int]
    by_cases ci : (i : Int) = h
    · have : i = h.toNat := by omega
      rw [if_pos ⟨this, by omega⟩, if_pos ci, this]
    · have : ¬ (i = h.toNat ∧ h.toNat < HV.length) := fun hh => ci (by omega)
      rw [if_neg this, if_neg ci]; ring
  · rw [if_neg c] at e
    simp at e

theorem h_step_spec (S : Simplex) (Form ne : List Int) (HE : List (List Int)) (HV : List Int)
    (HE' : List (List Int)) (HV' : List Int) (e : h_step S Form ne (HE, HV) = some (HE', HV')) :
    ∃ counter, facet_count S.dim S.New_Face ne = some counter ∧
      HE' = (if v_scalar_product (ambient S ne) Form = 1 then HE ++ [ambient S ne] else HE) ∧
      increment HV ((counter : Int) - v_scalar_product (ambient S ne) Form) = some HV' := by
  unfold h_step at e
  cases hc : facet_count S.dim S.New_Face ne with
  | none => rw [hc] at e; simp at e
  | some counter =>
    rw [hc] at e
    simp only at e
    cases hi : increment HV ((counter : Int) - v_scalar_product (ambient S ne) Form) with
    | none => rw [hi] at e; simp at e
    | some hv =>
      rw [hi] at e
      simp only [Option.map_some', Option.some.injEq, Prod.mk.injEq] at e
      exact ⟨counter, rfl, e.1.symm, by rw [hi, e.2]⟩

theorem h_fold_spec (S : Simplex) (Form : List Int) : ∀ (pts : List (List Int))
    (HE : List (List Int)) (HV : List Int) (HE' : List (List Int)) (HV' : List Int),
    pts.foldl (fun (st : Option (List (List Int) × List Int)) p =>
        st.bind fun st => h_step S Form (transform S p) st) (some (HE, HV)) = some (HE', HV') →
    HE' = HE ++ (pts.map fun p => ambient S (transform S p)).filter
        (fun Help => decide (v_scalar_product Help Form = 1)) ∧
    HV'.length = HV.length ∧
    (∀ p ∈ pts, ∃ h : Int, h_index S Form p = some h ∧ 0 ≤ h ∧ h < HV.length) ∧
    ∀ i : Nat, HV'.getD i 0 = HV.getD i 0 +
      ((pts.filter fun p => decide (h_index S Form p = some (i : Int))).length : Int) := by
  intro pts
  induction pts with
  | nil =>
    intro HE HV HE' HV' e
    simp only [List.foldl_nil, Option.some.injEq, Prod.mk.injEq] at e
    obtain ⟨rfl, rfl⟩ := e
    simp
  | cons a t ih =>
    intro HE HV HE' HV' e
    simp only [List.foldl_cons, Option.some_bind] at e
    cases hs : h_step S Form (transform S a) (HE, HV) with
    | none =>
      rw [hs] at e
      rw [foldl_bind_none (fun p st => h_step S Form (transform S p) st)] at e
      simp at e
    | some st1 =>
      obtain ⟨HE1, HV1⟩ := st1
      rw [hs] at e
      obtain ⟨counter, c1, c2, c3⟩ := h_step_spec S Form _ HE HV HE1 HV1 hs
      obtain ⟨i0, i1, i2, i3⟩ := increment_spec _ _ _ c3
      obtain ⟨j1, j2, j3, j4⟩ := ih HE1 HV1 HE' HV' e
      have hidx : h_index S Form a =
          some ((counter : Int) - v_scalar_product (ambient S (transform S a)) Form) := by
        simp [h_index, c1]
      refine ⟨?_, by rw [j2, i2], ?_, ?_⟩
      · rw [j1, c2]
        simp only [List.map_cons]
        by_cases hh : v_scalar_product (ambient S (transform S a)) Form = 1
        · rw [if_pos hh, List.filter_cons_of_pos (by simpa using hh)]
          simp
        · rw [if_neg hh, List.filter_cons_of_neg (by simpa using hh)]
      · intro p hp
        rcases List.mem_cons.1 hp with rfl | hp
        · exact ⟨_, hidx, i0, i1⟩
        · obtain ⟨h, h1, h2, h3⟩ := j3 p hp
          exact ⟨h, h1, h2, by rw [← i2]; exact h3⟩
      · intro i
        rw [j4 i, i3 i]
        by_cases ci : (i : Int) = (counter : Int) - v_scalar_product (ambient S (transform S a)) Form
        · rw [if_pos ci, List.filter_cons_of_pos (by simp [hidx, ci])]
          simp only [List.length_cons]
          push_cast
          ring
        · rw [if_neg ci, List.filter_cons_of_neg (by
            simp only [hidx, Option.some.injEq, decide_eq_true_eq]
            exact fun hh => ci hh.symm)]
          ring

theorem h_fold_project (S : Simplex) (Form : List Int) : ∀ (pts : List (List Int))
    (st : Option ((List (List Int) × List Int) × List (List Int))),
    (pts.foldl (fun (st : Option ((List (List Int) × List Int) × List (List Int))) p =>
        st.bind fun st =>
          (h_step S Form (transform S p) st.1).map fun hs =>
            (hs, set_insert (candidate S p) st.2)) st).map Prod.fst =
    pts.foldl (fun (st : Option (List (List Int) × List Int)) p =>
        st.bind fun st => h_step S Form (transform S p) st) (st.map Prod.fst) := by
  intro pts
  induction pts with
  | nil => intro st; rfl
  | cons a t ih =>
    intro st
    simp only [List.foldl_cons]
    rw [ih]
    congr 1
    cases st with
    | none => rfl
    | some s =>
      simp only [Option.some_bind, Option.map_some', Option.map_map]
      cases h_step S Form (transform S a) s.1 <;> rfl

end Simplex

namespace Simplex

theorem first_exceeding_spec (e x : List Int) : ∀ (n i : Nat),
    i ≤ first_exceeding e x n i ∧ first_exceeding e x n i ≤ i + n ∧
    (∀ k, i ≤ k → k < first_exceeding e x n i → e.getD k 0 ≤ x.getD k 0) ∧
    (first_exceeding e x n i < i + n →
      x.getD (first_exceeding e x n i) 0 < e.getD (first_exceeding e x n i) 0) := by
  intro n
  induction n with
  | zero =>
    intro i
    simp only [first_exceeding]
    exact ⟨le_refl _, by omega, fun k h1 h2 => by omega, fun h => by omega⟩
  | succ n ih =>
    intro i
    rw [first_exceeding]
    by_cases h : e.getD i 0 > x.getD i 0
    · rw [if_pos h]
      exact ⟨le_refl _, by omega, fun k h1 h2 => by omega, fun _ => h⟩
    · rw [if_neg h]
      obtain ⟨h1, h2, h3, h4⟩ := ih (i + 1)
      refine ⟨by omega, by omega, ?_, fun h5 => h4 (by omega)⟩
      intro k hk1 hk2
      by_cases ek : k = i
      · subst ek; omega
      · exact h3 k (by omega) hk2

theorem first_exceeding_dominates (dim : Nat) (e x : List Int) :
    first_exceeding e x dim 1 = dim + 1 ↔ dominates dim e x := by
  obtain ⟨h1, h2, h3, h4⟩ := first_exceeding_spec e x dim 1
  constructor
  · intro h i hi1 hi2
    exact h3 i hi1 (by omega)
  · intro h
    by_contra hne
    have hlt : first_exceeding e x dim 1 < 1 + dim := by omega
    have := h4 hlt
    have := h (first_exceeding e x dim 1) h1 (by omega)
    omega

theorem first_exceeding_range (dim : Nat) (e x : List Int)
    (h : first_exceeding e x dim 1 ≠ dim + 1) :
    1 ≤ first_exceeding e x dim 1 ∧ first_exceeding e x dim 1 ≤ dim ∧
      x.getD (first_exceeding e x dim 1) 0 < e.getD (first_exceeding e x dim 1) 0 := by
  obtain ⟨h1, h2, h3, h4⟩ := first_exceeding_spec e x dim 1
  exact ⟨h1, by omega, h4 (by omega)⟩

/-- The two outcomes of the scan loop of `reduce_and_insert_interior`. -/
theorem reduce_scan_spec (dim : Nat) (x : List Int) : ∀ (rest scanned : List (List Int)) (c : Nat),
    1 ≤ c → c ≤ dim →
    (∀ f ∈ scanned, ¬ x.getD 0 0 < 2 * f.getD 0 0 ∧ ¬ dominates dim f x) →
    (reduce_scan (dim + 1) x c scanned rest = (scanned ++ rest) ++ [x] ∧
      ∃ pre post, scanned ++ rest = pre ++ post ∧
        (∀ f ∈ pre, ¬ x.getD 0 0 < 2 * f.getD 0 0 ∧ ¬ dominates dim f x) ∧
        (∀ f, post.head? = some f → x.getD 0 0 < 2 * f.getD 0 0)) ∨
    (∃ pre e post, scanned ++ rest = pre ++ e :: post ∧
      reduce_scan (dim + 1) x c scanned rest = e :: (pre ++ post) ∧
      dominates dim e x ∧ ¬ x.getD 0 0 < 2 * e.getD 0 0 ∧
      ∀ f ∈ pre, ¬ x.getD 0 0 < 2 * f.getD 0 0 ∧ ¬ dominates dim f x) := by
  intro rest
  induction rest with
  | nil =>
    intro scanned c _ _ hs
    left
    refine ⟨by simp [reduce_scan], scanned, [], by simp, hs, by simp⟩
  | cons e rest ih =>
    intro scanned c hc1 hc2 hs
    rw [reduce_scan]
    by_cases hb : x.getD 0 0 < 2 * e.getD 0 0
    · rw [if_pos hb]
      left
      refine ⟨rfl, scanned, e :: rest, rfl, hs, ?_⟩
      intro f hf
      simp only [List.head?_cons, Option.some.injEq] at hf
      subst hf
      exact hb
    · rw [if_neg hb]
      have hstep : ∀ c', 1 ≤ c' → c' ≤ dim → ¬ dominates dim e x →
          (reduce_scan (dim + 1) x c' (scanned ++ [e]) rest = (scanned ++ e :: rest) ++ [x] ∧
            ∃ pre post, scanned ++ e :: rest = pre ++ post ∧
              (∀ f ∈ pre, ¬ x.getD 0 0 < 2 * f.getD 0 0 ∧ ¬ dominates dim f x) ∧
              (∀ f, post.head? = some f → x.getD 0 0 < 2 * f.getD 0 0)) ∨
          (∃ pre e' post, scanned ++ e :: rest = pre ++ e' :: post ∧
            reduce_scan (dim + 1) x c' (scanned ++ [e]) rest = e' :: (pre ++ post) ∧
            dominates dim e' x ∧ ¬ x.getD 0 0 < 2 * e'.getD 0 0 ∧
            ∀ f ∈ pre, ¬ x.getD 0 0 < 2 * f.getD 0 0 ∧ ¬ dominates dim f x) := by
        intro c' h1 h2 hnd
        have := ih (scanned ++ [e]) c' h1 h2 (by
          intro f hf
          rcases List.mem_append.1 hf with hf | hf
          · exact hs f hf
          · simp only [List.mem_singleton] at hf
            subst hf
            exact ⟨hb, hnd⟩)
        simpa only [List.append_assoc, List.singleton_append] using this
      by_cases hq : e.getD c 0 ≤ x.getD c 0
      · rw [if_pos hq]
        simp only [Nat.add_sub_cancel]
        by_cases hd : first_exceeding e x dim 1 = dim + 1
        · rw [if_pos hd]
          right
          exact ⟨scanned, e, rest, rfl, rfl, (first_exceeding_dominates dim e x).1 hd, hb, hs⟩
        · rw [if_neg hd]
          obtain ⟨r1, r2, r3⟩ := first_exceeding_range dim e x hd
          exact hstep _ r1 r2 (fun hdom => hd ((first_exceeding_dominates dim e x).2 hdom))
      · rw [if_neg hq]
        exact hstep c hc1 hc2 (fun hdom => hq (hdom c hc1 hc2))

end Simplex

namespace Simplex


theorem vec_lt_irrefl : ∀ a : List Int, vec_lt a a = false := by
  intro a
  induction a with
  | nil => rfl
  | cons h t ih => simp [vec_lt, ih]

theorem vec_lt_head (a b : List Int) (ha : a ≠ []) (hb : b ≠ []) (h : vec_lt a b = true) :
    a.getD 0 0 ≤ b.getD 0 0 := by
  cases a with
  | nil => exact absurd rfl ha
  | cons x xs =>
    cases b with
    | nil => exact absurd rfl hb
    | cons y ys =>
      simp only [List.getD_cons_zero]
      rw [vec_lt] at h
      by_contra hlt
      have h1 : ¬ x < y := by omega
      have h2 : y < x := by omega
      simp [h1, h2] at h

theorem getD_v_sub (x e : List Int) (i : Nat) (h1 : i < x.length) (h2 : i < e.length) :
    (v_sub x e).getD i 0 = x.getD i 0 - e.getD i 0 := by
  unfold v_sub
  rw [List.getD_eq_getElem _ _ (by simp; omega), List.getD_eq_getElem _ _ h1,
    List.getD_eq_getElem _ _ h2]
  simp

theorem length_v_sub (x e : List Int) : (v_sub x e).length = min x.length e.length := by
  simp [v_sub]

theorem rsum_le (n : Nat) (f g : Nat → Int) (h : ∀ k, k < n → f k ≤ g k) : rsum n f ≤ rsum n g := by
  rw [rsum_eq_sum, rsum_eq_sum]
  exact Finset.sum_le_sum fun i _ => h i i.isLt

theorem rsum_eq_of_le (n : Nat) (f g : Nat → Int) (h : ∀ k, k < n → f k ≤ g k)
    (hs : rsum n f = rsum n g) : ∀ k, k < n → f k = g k := by
  rw [rsum_eq_sum, rsum_eq_sum] at hs
  have := (Finset.sum_eq_sum_iff_of_le (s := Finset.univ) (f := fun i : Fin n => f i)
    (g := fun i : Fin n => g i) (fun i _ => h i i.isLt)).1 hs
  intro k hk
  exact this ⟨k, hk⟩ (Finset.mem_univ _)

theorem rsum_sub (n : Nat) (f g : Nat → Int) :
    rsum n (fun k => f k - g k) = rsum n f - rsum n g := by
  simp only [rsum_eq_sum, Finset.sum_sub_distrib]

theorem rsum_nonneg (n : Nat) (f : Nat → Int) (h : ∀ k, k < n → 0 ≤ f k) : 0 ≤ rsum n f := by
  rw [rsum_eq_sum]
  exact Finset.sum_nonneg fun i _ => h i i.isLt

namespace CandidateSet

theorem norm_le {dim : Nat} {cs : List (List Int)} (hcs : CandidateSet dim cs) (e x : List Int) (he : e ∈ cs) (hx : x ∈ cs)
    (hd : dominates dim e x) : e.getD 0 0 ≤ x.getD 0 0 := by
  rw [hcs.norm e he, hcs.norm x hx]
  exact rsum_le _ _ _ fun k hk => hd (k + 1) (by omega) (by omega)

theorem eq_of_dominates {dim : Nat} {cs : List (List Int)} (hcs : CandidateSet dim cs) (e x : List Int) (he : e ∈ cs) (hx : x ∈ cs)
    (hd : dominates dim e x) (hn : e.getD 0 0 = x.getD 0 0) : e = x := by
  have h1 := hcs.norm e he
  have h2 := hcs.norm x hx
  have hk := rsum_eq_of_le dim _ _ (fun k hk => hd (k + 1) (by omega) (by omega))
    (by rw [← h1, ← h2, hn])
  apply List.ext_getElem (by rw [hcs.length e he, hcs.length x hx])
  intro i hi1 hi2
  have := hcs.length e he
  rcases Nat.eq_zero_or_pos i with rfl | hpos
  · simpa [List.getD_eq_getElem, hi1, hi2] using hn
  · have := hk (i - 1) (by omega)
    simp only [Nat.sub_add_cancel hpos] at this
    simpa [List.getD_eq_getElem, hi1, hi2] using this

theorem norm_pos {dim : Nat} {cs : List (List Int)} (hcs : CandidateSet dim cs) (x : List Int) (hx : x ∈ cs)
    (h0 : x.getD 0 0 ≠ 0) : 0 < x.getD 0 0 := by
  have := hcs.norm x hx
  have h2 : 0 ≤ rsum dim fun k => x.getD (k + 1) 0 :=
    rsum_nonneg _ _ fun k hk => hcs.nonneg x hx (k + 1) (by omega) (by omega)
  omega

theorem sub_spec {dim : Nat} {cs : List (List Int)} (hcs : CandidateSet dim cs) (e x : List Int) (he : e ∈ cs) (hx : x ∈ cs) :
    ∀ i, i ≤ dim → (v_sub x e).getD i 0 = x.getD i 0 - e.getD i 0 := by
  intro i hi
  exact getD_v_sub x e i (by rw [hcs.length x hx]; omega) (by rw [hcs.length e he]; omega)

end CandidateSet

end Simplex

namespace Simplex

theorem ne_nil_of_length {dim : Nat} (x : List Int) (h : x.length = dim + 1) : x ≠ [] := by
  intro e; rw [e] at h; simp at h

theorem dominates_refl (dim : Nat) (x : List Int) : dominates dim x x :=
  fun _ _ _ => le_refl _

/-- One pass of the reduction loop keeps the invariant of the list `Hilbert_Basis`. -/
theorem reduce_step_inv (dim : Nat) (cs : List (List Int)) (hcs : CandidateSet dim cs)
    (done todo HB : List (List Int)) (x : List Int) (hsplit : cs = done ++ x :: todo)
    (I1 : ∀ h ∈ HB, h ∈ done ∧ h.getD 0 0 ≠ 0)
    (I2 : HB.Pairwise fun a b =>
      a.getD 0 0 ≤ b.getD 0 0 ∨ ∀ y ∈ x :: todo, 2 * a.getD 0 0 ≤ y.getD 0 0)
    (I3 : ∀ y ∈ done, y.getD 0 0 ≠ 0 → ∃ e ∈ HB, dominates dim e y ∧ e.getD 0 0 ≤ y.getD 0 0)
    (I4 : ∀ a ∈ HB, ∀ b ∈ HB, a ≠ b → ¬ dominates dim a b) :
    (∀ h ∈ reduce_and_insert_interior dim HB x, h ∈ done ++ [x] ∧ h.getD 0 0 ≠ 0) ∧
    ((reduce_and_insert_interior dim HB x).Pairwise fun a b =>
      a.getD 0 0 ≤ b.getD 0 0 ∨ ∀ y ∈ todo, 2 * a.getD 0 0 ≤ y.getD 0 0) ∧
    (∀ y ∈ done ++ [x], y.getD 0 0 ≠ 0 →
      ∃ e ∈ reduce_and_insert_interior dim HB x, dominates dim e y ∧ e.getD 0 0 ≤ y.getD 0 0) ∧
    (∀ a ∈ reduce_and_insert_interior dim HB x, ∀ b ∈ reduce_and_insert_interior dim HB x,
      a ≠ b → ¬ dominates dim a b) := by
  have hsorted := hcs.sorted
  rw [hsplit, List.pairwise_append] at hsorted
  obtain ⟨_, hs2, hs3⟩ := hsorted
  have hxcs : x ∈ cs := by rw [hsplit]; simp
  have hdone : ∀ a ∈ done, a ∈ cs := fun a ha => by rw [hsplit]; simp [ha]
  have htodo : ∀ y ∈ todo, y ∈ cs := fun y hy => by rw [hsplit]; simp [hy]
  have hxne := ne_nil_of_length x (hcs.length x hxcs)
  have S1 : ∀ a ∈ done, a.getD 0 0 ≤ x.getD 0 0 := fun a ha =>
    vec_lt_head a x (ne_nil_of_length a (hcs.length a (hdone a ha))) hxne
      (hs3 a ha x (by simp))
  have S2 : ∀ y ∈ todo, x.getD 0 0 ≤ y.getD 0 0 := fun y hy =>
    vec_lt_head x y hxne (ne_nil_of_length y (hcs.length y (htodo y hy)))
      ((List.pairwise_cons.1 hs2).1 y hy)
  have S3 : x ∉ done := by
    intro hx
    have := hs3 x hx x (by simp)
    rw [vec_lt_irrefl] at this
    exact absurd this (by simp)
  have hHBcs : ∀ h ∈ HB, h ∈ cs := fun h hh => hdone h (I1 h hh).1
  have I2w : HB.Pairwise fun a b =>
      a.getD 0 0 ≤ b.getD 0 0 ∨ ∀ y ∈ todo, 2 * a.getD 0 0 ≤ y.getD 0 0 :=
    I2.imp fun {a b} h => h.imp id fun h y hy => h y (by simp [hy])
  unfold reduce_and_insert_interior
  by_cases h0 : x.getD 0 0 = 0
  · rw [if_pos h0]
    refine ⟨fun h hh => ⟨by simp [(I1 h hh).1], (I1 h hh).2⟩, I2w, ?_, I4⟩
    intro y hy hy0
    rcases List.mem_append.1 hy with hy | hy
    · exact I3 y hy hy0
    · simp only [List.mem_singleton] at hy
      subst hy
      exact absurd h0 hy0
  rw [if_neg h0]
  have hxpos := hcs.norm_pos x hxcs h0
  have hdim : 1 ≤ dim := by
    by_contra hd
    have hd0 : dim = 0 := by omega
    have := hcs.norm x hxcs
    rw [hd0] at this
    exact h0 this
  -- a dominating element of small norm, whenever some element dominates
  have hexists : ∀ a ∈ HB, dominates dim a x →
      ∃ e ∈ HB, dominates dim e x ∧ 2 * e.getD 0 0 ≤ x.getD 0 0 := by
    intro a ha hda
    have hacs := hHBcs a ha
    have hane : a ≠ x := fun e => S3 (e ▸ (I1 a ha).1)
    have hapos := hcs.norm_pos a hacs (I1 a ha).2
    by_cases hsmall : 2 * a.getD 0 0 ≤ x.getD 0 0
    · exact ⟨a, ha, hda, hsmall⟩
    · have hz := hcs.closed x hxcs a hacs hane hda
      have hzs := hcs.sub_spec a x hacs hxcs
      have hz0 : (v_sub x a).getD 0 0 = x.getD 0 0 - a.getD 0 0 := hzs 0 (by omega)
      have hle := hcs.norm_le a x hacs hxcs hda
      have hzne : (v_sub x a).getD 0 0 ≠ 0 := by
        intro e
        exact hane (hcs.eq_of_dominates a x hacs hxcs hda (by omega))
      have hzdone : v_sub x a ∈ done := by
        have hmem := hz
        rw [hsplit] at hmem
        rcases List.mem_append.1 hmem with h | h
        · exact h
        · rcases List.mem_cons.1 h with h | h
          · rw [h] at hz0; omega
          · have := S2 _ h; omega
      obtain ⟨e, he, hde, hen⟩ := I3 _ hzdone hzne
      refine ⟨e, he, ?_, by omega⟩
      intro i hi1 hi2
      have := hde i hi1 hi2
      rw [hzs i hi2] at this
      have := hcs.nonneg a hacs i hi1 hi2
      omega
  rcases reduce_scan_spec dim x HB [] 1 (le_refl _) hdim (by simp) with
    ⟨hres, pre, post, hpp, hpre, hpost⟩ | ⟨pre, e, post, hpp, hres, hde, hnb, hpre⟩
  · -- accepted
    simp only [List.nil_append] at hres hpp
    rw [hres]
    have hnodom : ∀ a ∈ HB, ¬ dominates dim a x := by
      intro a ha hda
      obtain ⟨e, he, hde, hsm⟩ := hexists a ha hda
      rw [hpp] at he
      rcases List.mem_append.1 he with he | he
      · exact (hpre e he).2 hde
      · cases post with
        | nil => simp at he
        | cons f post' =>
          have hf := hpost f rfl
          rcases List.mem_cons.1 he with rfl | he'
          · omega
          · have hp : (f :: post').Pairwise fun a b =>
                a.getD 0 0 ≤ b.getD 0 0 ∨ ∀ y ∈ x :: todo, 2 * a.getD 0 0 ≤ y.getD 0 0 := by
              rw [hpp] at I2
              exact (List.pairwise_append.1 I2).2.1
            rcases (List.pairwise_cons.1 hp).1 e he' with h | h
            · omega
            · have := h x (by simp); omega
    refine ⟨?_, ?_, ?_, ?_⟩
    · intro h hh
      rcases List.mem_append.1 hh with hh | hh
      · exact ⟨by simp [(I1 h hh).1], (I1 h hh).2⟩
      · simp only [List.mem_singleton] at hh
        subst hh
        exact ⟨by simp, h0⟩
    · rw [List.pairwise_append]
      refine ⟨I2w, by simp, ?_⟩
      intro a ha b hb
      simp only [List.mem_singleton] at hb
      subst hb
      left
      exact S1 a (I1 a ha).1
    · intro y hy hy0
      rcases List.mem_append.1 hy with hy | hy
      · obtain ⟨e, he, h1, h2⟩ := I3 y hy hy0
        exact ⟨e, by simp [he], h1, h2⟩
      · simp only [List.mem_singleton] at hy
        subst hy
        exact ⟨y, by simp, dominates_refl dim y, le_refl _⟩
    · intro a ha b hb hab
      rcases List.mem_append.1 ha with ha1 | ha1
      · rcases List.mem_append.1 hb with hb1 | hb1
        · exact I4 a ha1 b hb1 hab
        · simp only [List.mem_singleton] at hb1
          rw [hb1]
          exact hnodom a ha1
      · simp only [List.mem_singleton] at ha1
        rcases List.mem_append.1 hb with hb1 | hb1
        · intro hd
          rw [ha1] at hd
          have h1 := hcs.norm_le x b hxcs (hHBcs b hb1) hd
          have h2 := S1 b (I1 b hb1).1
          exact hab (by rw [ha1]; exact hcs.eq_of_dominates x b hxcs (hHBcs b hb1) hd (by omega))
        · simp only [List.mem_singleton] at hb1
          exact absurd (ha1.trans hb1.symm) hab
  · -- discarded
    simp only [List.nil_append] at hres hpp
    rw [hres]
    have hmem : ∀ h, h ∈ e :: (pre ++ post) ↔ h ∈ HB := by
      intro h
      rw [hpp]
      simp only [List.mem_cons, List.mem_append]
      tauto
    have heHB : e ∈ HB := (hmem e).1 (by simp)
    refine ⟨?_, ?_, ?_, ?_⟩
    · intro h hh
      have := I1 h ((hmem h).1 hh)
      exact ⟨by simp [this.1], this.2⟩
    · rw [List.pairwise_cons]
      constructor
      · intro b _
        right
        intro y hy
        have := S2 y hy
        omega
      · rw [hpp] at I2w
        exact I2w.sublist (List.Sublist.append (List.Sublist.refl pre) (List.sublist_cons_self e post))
    · intro y hy hy0
      rcases List.mem_append.1 hy with hy | hy
      · obtain ⟨f, hf, h1, h2⟩ := I3 y hy hy0
        exact ⟨f, (hmem f).2 hf, h1, h2⟩
      · simp only [List.mem_singleton] at hy
        subst hy
        exact ⟨e, by simp, hde, hcs.norm_le e y (hHBcs e heHB) hxcs hde⟩
    · intro a ha b hb hab
      exact I4 a ((hmem a).1 ha) b ((hmem b).1 hb) hab

end Simplex

namespace Simplex

theorem reduce_all_inv (dim : Nat) (cs : List (List Int)) (hcs : CandidateSet dim cs) :
    ∀ (todo done HB : List (List Int)), cs = done ++ todo →
    (∀ h ∈ HB, h ∈ done ∧ h.getD 0 0 ≠ 0) →
    (HB.Pairwise fun a b =>
      a.getD 0 0 ≤ b.getD 0 0 ∨ ∀ y ∈ todo, 2 * a.getD 0 0 ≤ y.getD 0 0) →
    (∀ y ∈ done, y.getD 0 0 ≠ 0 → ∃ e ∈ HB, dominates dim e y ∧ e.getD 0 0 ≤ y.getD 0 0) →
    (∀ a ∈ HB, ∀ b ∈ HB, a ≠ b → ¬ dominates dim a b) →
    (∀ h ∈ reduce_all dim todo HB, h ∈ cs ∧ h.getD 0 0 ≠ 0) ∧
    (∀ y ∈ cs, y.getD 0 0 ≠ 0 →
      ∃ e ∈ reduce_all dim todo HB, dominates dim e y ∧ e.getD 0 0 ≤ y.getD 0 0) ∧
    (∀ a ∈ reduce_all dim todo HB, ∀ b ∈ reduce_all dim todo HB, a ≠ b →
      ¬ dominates dim a b) := by
  intro todo
  induction todo with
  | nil =>
    intro done HB hsplit I1 _ I3 I4
    simp only [List.append_nil] at hsplit
    subst hsplit
    exact ⟨I1, I3, I4⟩
  | cons x todo ih =>
    intro done HB hsplit I1 I2 I3 I4
    obtain ⟨J1, J2, J3, J4⟩ := reduce_step_inv dim cs hcs done todo HB x hsplit I1 I2 I3 I4
    have := ih (done ++ [x]) (reduce_and_insert_interior dim HB x) (by simp [hsplit]) J1 J2 J3 J4
    simpa [reduce_all] using this

theorem antichain_of_no_dominance (dim : Nat) (l : List (List Int))
    (h : ∀ a ∈ l, ∀ b ∈ l, a ≠ b → ¬ dominates dim a b) : Antichain dim l := by
  intro a ha b hb hab hall
  exact h a ha b hb hab fun i _ hi2 => hall i (by omega)

theorem vec_lt_trans : ∀ a b c : List Int, vec_lt a b = true → vec_lt b c = true →
    vec_lt a c = true := by
  intro a
  induction a with
  | nil =>
    intro b c h1 h2
    cases b with
    | nil => simp [vec_lt] at h1
    | cons y ys =>
      cases c with
      | nil => simp [vec_lt] at h2
      | cons z zs => simp [vec_lt]
  | cons x xs ih =>
    intro b c h1 h2
    cases b with
    | nil => simp [vec_lt] at h1
    | cons y ys =>
      cases c with
      | nil => simp [vec_lt] at h2
      | cons z zs =>
        rw [vec_lt] at h1 h2 ⊢
        by_cases hxy : x < y
        · by_cases hyz : y < z
          · have : x < z := by omega
            simp [this]
          · by_cases hzy : z < y
            · simp [hyz, hzy] at h2
            · have : x < z := by omega
              simp [this]
        · by_cases hyx : y < x
          · simp [hxy, hyx] at h1
          · simp only [hxy, hyx, if_false] at h1
            have exy : x = y := by omega
            subst exy
            by_cases hxz : x < z
            · simp [hxz]
            · by_cases hzx : z < x
              · simp [hxz, hzx] at h2
              · simp only [hxz, hzx, if_false] at h2 ⊢
                exact ih ys zs h1 h2

theorem vec_lt_trichotomy : ∀ a b : List Int, a.length = b.length →
    vec_lt a b = false → vec_lt b a = false → a = b := by
  intro a
  induction a with
  | nil =>
    intro b hl _ _
    cases b with
    | nil => rfl
    | cons y ys => simp at hl
  | cons x xs ih =>
    intro b hl h1 h2
    cases b with
    | nil => simp at hl
    | cons y ys =>
      rw [vec_lt] at h1 h2
      by_cases hxy : x < y
      · simp [hxy] at h1
      · by_cases hyx : y < x
        · simp [hyx] at h2
        · simp only [hxy, hyx, if_false] at h1 h2
          have exy : x = y := by omega
          subst exy
          simp only [List.length_cons, Nat.add_right_cancel_iff] at hl
          rw [ih ys hl h1 h2]

theorem mem_set_insert (n : Nat) (x : List Int) (hx : x.length = n) :
    ∀ l : List (List Int), (∀ y ∈ l, y.length = n) →
    ∀ y, y ∈ set_insert x l ↔ y = x ∨ y ∈ l := by
  intro l
  induction l with
  | nil => intro _ y; simp [set_insert]
  | cons a t ih =>
    intro hl y
    rw [set_insert]
    by_cases h1 : vec_lt x a = true
    · rw [if_pos h1]; simp
    · rw [if_neg h1]
      by_cases h2 : vec_lt a x = true
      · rw [if_pos h2]
        simp only [List.mem_cons]
        rw [ih (fun z hz => hl z (by simp [hz]))]
        tauto
      · rw [if_neg h2]
        have : x = a := vec_lt_trichotomy x a (by rw [hx, hl a (by simp)])
          (by simpa using h1) (by simpa using h2)
        subst this
        simp

theorem sorted_set_insert (n : Nat) (x : List Int) (hx : x.length = n) :
    ∀ l : List (List Int), (∀ y ∈ l, y.length = n) →
    l.Pairwise (fun a b => vec_lt a b = true) →
    (set_insert x l).Pairwise (fun a b => vec_lt a b = true) := by
  intro l
  induction l with
  | nil => intro _ _; simp [set_insert]
  | cons a t ih =>
    intro hl hp
    rw [set_insert]
    obtain ⟨hp1, hp2⟩ := List.pairwise_cons.1 hp
    by_cases h1 : vec_lt x a = true
    · rw [if_pos h1]
      refine List.pairwise_cons.2 ⟨?_, hp⟩
      intro b hb
      rcases List.mem_cons.1 hb with rfl | hb
      · exact h1
      · exact vec_lt_trans x a b h1 (hp1 b hb)
    · rw [if_neg h1]
      by_cases h2 : vec_lt a x = true
      · rw [if_pos h2]
        refine List.pairwise_cons.2 ⟨?_, ih (fun z hz => hl z (by simp [hz])) hp2⟩
        intro b hb
        rcases (mem_set_insert n x hx t (fun z hz => hl z (by simp [hz])) b).1 hb with rfl | hb
        · exact h2
        · exact hp1 b hb
      · rw [if_neg h2]
        exact hp

theorem foldl_set_insert (n : Nat) (f : List Int → List Int) (hf : ∀ p, (f p).length = n) :
    ∀ (pts : List (List Int)) (acc : List (List Int)), (∀ y ∈ acc, y.length = n) →
    acc.Pairwise (fun a b => vec_lt a b = true) →
    (∀ y ∈ pts.foldl (fun cs p => set_insert (f p) cs) acc, y.length = n) ∧
    (pts.foldl (fun cs p => set_insert (f p) cs) acc).Pairwise (fun a b => vec_lt a b = true) ∧
    ∀ y, y ∈ pts.foldl (fun cs p => set_insert (f p) cs) acc ↔
      (y ∈ acc ∨ ∃ p ∈ pts, y = f p) := by
  intro pts
  induction pts with
  | nil => intro acc h1 h2; exact ⟨h1, h2, by simp⟩
  | cons a t ih =>
    intro acc h1 h2
    have hm := mem_set_insert n (f a) (hf a) acc h1
    have hl : ∀ y ∈ set_insert (f a) acc, y.length = n := by
      intro y hy
      rcases (hm y).1 hy with rfl | hy
      · exact hf a
      · exact h1 y hy
    obtain ⟨i1, i2, i3⟩ := ih (set_insert (f a) acc) hl (sorted_set_insert n (f a) (hf a) acc h1 h2)
    simp only [List.foldl_cons]
    refine ⟨i1, i2, ?_⟩
    intro y
    rw [i3, hm]
    simp only [List.mem_cons, exists_eq_or_imp]
    tauto

end Simplex

namespace Simplex

theorem scale_spec (v m : List Int) : ∀ n,
    (scale n v m).length = v.length ∧
    ∀ k, (scale n v m).getD k 0 =
      if k < n ∧ k < v.length then v.getD k 0 * m.getD k 0 else v.getD k 0 := by
  intro n
  induction n with
  | zero => simp [scale]
  | succ n ih =>
    obtain ⟨h1, h2⟩ := ih
    have e : scale (n + 1) v m =
        (scale n v m).set n ((scale n v m).getD n 0 * m.getD n 0) := by
      simp [scale, List.range_succ, List.foldl_append]
    rw [e]
    refine ⟨by simp [h1], ?_⟩
    intro k
    rw [getD_set_int, h1, h2, h2]
    by_cases ek : k = n
    · subst ek
      by_cases hk : k < v.length
      · rw [if_pos ⟨rfl, hk⟩, if_neg (by omega), if_pos ⟨by omega, hk⟩]
      · rw [if_neg (fun hh => hk hh.2), if_neg (fun hh => hk hh.2), if_neg (fun hh => hk hh.2)]
    · rw [if_neg (fun hh => ek hh.1)]
      by_cases hk : k < n ∧ k < v.length
      · rw [if_pos hk, if_pos ⟨by omega, hk.2⟩]
      · rw [if_neg hk, if_neg (fun hh => hk ⟨by omega, hh.2⟩)]

theorem getD_MxV (M : Matrix) (v : List Int) (k : Nat) (hk : k < M.nr) :
    (M.MxV v).getD k 0 = rsum M.nc fun j => M.get k j * v.getD j 0 := by
  unfold Matrix.MxV
  rw [List.getD_eq_getElem _ _ (by simpa using hk)]
  simp

theorem getD_reduction (v : List Int) (m : Int) (k : Nat) :
    (v_reduction_modulo v m).getD k 0 = v.getD k 0 % m := by
  have := List.getD_map v (0 : Int) (n := k) (fun x => x % m)
  simp only [Int.zero_emod] at this
  exact this

theorem transform_length (S : Simplex) (v : List Int) :
    (transform S v).length = S.Support_Hyperplanes.nr := by
  unfold transform v_reduction_modulo
  rw [List.length_map, (scale_spec _ _ _).1, length_MxV]

theorem transform_getD (S : Simplex) (v : List Int) (hnr : S.Support_Hyperplanes.nr = S.dim)
    (hnc : S.Support_Hyperplanes.nc = S.dim) (k : Nat) (hk : k < S.dim) :
    (transform S v).getD k 0 =
      ((rsum S.dim fun j => S.Support_Hyperplanes.get k j * v.getD j 0) *
        S.multiplicators.getD k 0) % S.volume := by
  unfold transform
  rw [getD_reduction, (scale_spec _ _ _).2, length_MxV, if_pos ⟨hk, by rw [hnr]; exact hk⟩,
    getD_MxV _ _ _ (by rw [hnr]; exact hk), hnc]

theorem candidate_length (S : Simplex) (v : List Int) :
    (candidate S v).length = S.Support_Hyperplanes.nr + 1 := by
  simp [candidate, v_merge, transform_length, Nat.add_comm]

theorem candidate_zero (S : Simplex) (v : List Int) :
    (candidate S v).getD 0 0 = rsum S.dim fun k => (transform S v).getD k 0 := by
  simp [candidate, v_merge]

theorem candidate_succ (S : Simplex) (v : List Int) (k : Nat) :
    (candidate S v).getD (k + 1) 0 = (transform S v).getD k 0 := by
  simp [candidate, v_merge]

theorem scaled_form_vecMul (S : Simplex) (v : List Int) (k : Fin S.dim) :
    (rsum S.dim fun j => S.Support_Hyperplanes.get k j * v.getD j 0) *
        S.multiplicators.getD k 0 =
      Matrix.vecMul (vecZ v S.dim)
        ((Matrix.ofFn S.dim S.dim fun j k =>
          S.Support_Hyperplanes.get k j * S.multiplicators.getD k 0).toZ S.dim S.dim) k := by
  rw [rsum_eq_sum, Finset.sum_mul]
  simp only [Matrix.vecMul, Matrix.dotProduct, Matrix.toZ, vecZ]
  apply Finset.sum_congr rfl
  intro j _
  rw [Matrix.get_ofFn _ _ _ _ _ j.isLt k.isLt]
  ring

theorem vecZ_v_sub (p q : List Int) (n : Nat) (hp : p.length = n) (hq : q.length = n) :
    vecZ (v_sub p q) n = vecZ p n - vecZ q n := by
  funext i
  simp only [vecZ, Pi.sub_apply]
  exact getD_v_sub p q i (by rw [hp]; exact i.isLt) (by rw [hq]; exact i.isLt)

/-- Vectors that differ by an integer combination of the generators have the same
transformation. -/
theorem transform_congr (S : Simplex) (hS : S.Initialized) (w r z : List Int)
    (hw : w.length = S.dim) (hr : r.length = S.dim)
    (h : v_sub w r = S.Generators.VxM z) : transform S w = transform S r := by
  apply List.ext_getElem (by rw [transform_length, transform_length])
  intro k hk1 hk2
  have hk : k < S.dim := by rw [transform_length, hS.support_nr] at hk1; exact hk1
  have e1 := transform_getD S w hS.support_nr hS.support_nc k hk
  have e2 := transform_getD S r hS.support_nr hS.support_nc k hk
  rw [List.getD_eq_getElem _ _ hk1] at e1
  rw [List.getD_eq_getElem _ _ hk2] at e2
  rw [e1, e2, scaled_form_vecMul S w ⟨k, hk⟩, scaled_form_vecMul S r ⟨k, hk⟩]
  have hsub : vecZ w S.dim = vecZ r S.dim + vecZ (S.Generators.VxM z) S.dim := by
    rw [← h, vecZ_v_sub w r S.dim hw hr]; abel
  rw [hsub, Matrix.add_vecMul, vecZ_VxM S.Generators z S.dim S.dim hS.generators_nr
    hS.generators_nc, Matrix.vecMul_vecMul,
    ← Matrix.toZ_multiplication S.Generators _ S.dim S.dim S.dim hS.generators_nr
      hS.generators_nc rfl]
  rcases hS.inverse with hi | hi
  · rw [hi, toZ_scalarMatrix, Sublattice_Representation.vecMul_smul_right, Matrix.vecMul_one]
    simp only [Pi.add_apply, Pi.smul_apply, smul_eq_mul]
    exact Int.add_mul_emod_self_left _ _ _
  · rw [hi, toZ_scalarMatrix, Sublattice_Representation.vecMul_smul_right, Matrix.vecMul_one]
    simp only [Pi.add_apply, Pi.smul_apply, smul_eq_mul]
    rw [neg_mul, ← mul_neg]
    exact Int.add_mul_emod_self_left _ _ _

end Simplex

namespace Simplex

theorem transform_bounds (S : Simplex) (hS : S.Initialized) (v : List Int) (k : Nat)
    (hk : k < S.dim) : 0 ≤ (transform S v).getD k 0 ∧ (transform S v).getD k 0 < S.volume := by
  rw [transform_getD S v hS.support_nr hS.support_nc k hk]
  exact ⟨Int.emod_nonneg _ (ne_of_gt hS.volume_pos), Int.emod_lt_of_pos _ hS.volume_pos⟩

theorem candidate_congr (S : Simplex) (p q : List Int) (h : transform S p = transform S q) :
    candidate S p = candidate S q := by
  unfold candidate
  rw [h]

theorem transform_ext (S : Simplex) (hS : S.Initialized) (p q : List Int)
    (h : ∀ k, k < S.dim → (transform S p).getD k 0 = (transform S q).getD k 0) :
    transform S p = transform S q := by
  apply List.ext_getElem (by rw [transform_length, transform_length])
  intro k hk1 hk2
  have hk : k < S.dim := by rw [transform_length, hS.support_nr] at hk1; exact hk1
  have := h k hk
  rwa [List.getD_eq_getElem _ _ hk1, List.getD_eq_getElem _ _ hk2] at this

theorem transform_sub (S : Simplex) (hS : S.Initialized) (p q : List Int)
    (hp : p.length = S.dim) (hq : q.length = S.dim) (k : Nat) (hk : k < S.dim)
    (hle : (transform S q).getD k 0 ≤ (transform S p).getD k 0) :
    (transform S (v_sub p q)).getD k 0 = (transform S p).getD k 0 - (transform S q).getD k 0 := by
  obtain ⟨b1, b2⟩ := transform_bounds S hS p k hk
  obtain ⟨c1, c2⟩ := transform_bounds S hS q k hk
  have e1 := transform_getD S p hS.support_nr hS.support_nc k hk
  have e2 := transform_getD S q hS.support_nr hS.support_nc k hk
  rw [transform_getD S (v_sub p q) hS.support_nr hS.support_nc k hk,
    scaled_form_vecMul S (v_sub p q) ⟨k, hk⟩, vecZ_v_sub p q S.dim hp hq, Matrix.sub_vecMul]
  rw [scaled_form_vecMul S p ⟨k, hk⟩] at e1
  rw [scaled_form_vecMul S q ⟨k, hk⟩] at e2
  simp only [Pi.sub_apply]
  rw [Int.sub_emod, ← e1, ← e2]
  exact Int.emod_eq_of_lt (by omega) (by omega)

theorem transform_zero (S : Simplex) (hS : S.Initialized) (k : Nat) (hk : k < S.dim) :
    (transform S (List.replicate S.dim 0)).getD k 0 = 0 := by
  rw [transform_getD S _ hS.support_nr hS.support_nc k hk]
  have : (rsum S.dim fun j => S.Support_Hyperplanes.get k j *
      (List.replicate S.dim (0 : Int)).getD j 0) = 0 := by
    rw [rsum_eq_sum]
    apply Finset.sum_eq_zero
    intro j _
    have : (List.replicate S.dim (0 : Int)).getD j 0 = 0 := by
      simp [List.getD_eq_getElem?_getD, List.getElem?_replicate]
    rw [this, mul_zero]
  rw [this, zero_mul, Int.zero_emod]

theorem candidates_set (S : Simplex) (hS : S.Initialized) :
    ∃ cs, candidates S = some cs ∧ CandidateSet S.dim cs := by
  have hlen := hS.diagonal_length
  have hpos := hS.diagonal_pos
  obtain ⟨_, s2, s3⟩ := successors_from_zero S.dim S.diagonal hlen hpos
  have hcl : ∀ p, (candidate S p).length = S.dim + 1 := fun p => by
    rw [candidate_length, hS.support_nr]
  obtain ⟨m1, m2, m3⟩ := foldl_set_insert (S.dim + 1) (candidate S) hcl
    (successors S.diagonal (box_fuel S.dim S.diagonal) (List.replicate S.dim 0)) []
    (by simp) (by simp)
  refine ⟨_, by unfold candidates; rw [box_loop_from_zero S.dim S.diagonal _ hlen hpos], ?_⟩
  generalize (successors S.diagonal (box_fuel S.dim S.diagonal) (List.replicate S.dim 0)).foldl
    (fun cs p => set_insert (candidate S p) cs) [] = cs at m1 m2 m3
  generalize successors S.diagonal (box_fuel S.dim S.diagonal) (List.replicate S.dim 0) = pts
    at s2 s3 m3
  have hmem : ∀ y, y ∈ cs ↔ ∃ p ∈ pts, y = candidate S p := by
    intro y; rw [m3]; simp
  refine ⟨m2, m1, ?_, ?_, ?_⟩
  · intro x hx i hi1 hi2
    obtain ⟨p, _, rfl⟩ := (hmem x).1 hx
    obtain ⟨j, rfl⟩ : ∃ j, i = j + 1 := ⟨i - 1, by omega⟩
    rw [candidate_succ]
    exact (transform_bounds S hS p j (by omega)).1
  · intro x hx
    obtain ⟨p, _, rfl⟩ := (hmem x).1 hx
    rw [candidate_zero]
    simp only [candidate_succ]
  · intro x hx e he hne hdom
    obtain ⟨p, hp, rfl⟩ := (hmem x).1 hx
    obtain ⟨q, hq, rfl⟩ := (hmem e).1 he
    have hpl : p.length = S.dim := by rw [in_box_length _ _ (s2 p hp).1, hlen]
    have hql : q.length = S.dim := by rw [in_box_length _ _ (s2 q hq).1, hlen]
    have hle : ∀ k, k < S.dim → (transform S q).getD k 0 ≤ (transform S p).getD k 0 := by
      intro k hk
      have := hdom (k + 1) (by omega) (by omega)
      rwa [candidate_succ, candidate_succ] at this
    obtain ⟨r, z, hr, hz, hrz⟩ := hS.residues (v_sub p q) (by rw [length_v_sub, hpl, hql]; simp)
    have hrl : r.length = S.dim := by rw [in_box_length _ _ hr, hlen]
    have htr := transform_congr S hS (v_sub p q) r z (by rw [length_v_sub, hpl, hql]; simp) hrl hrz
    have hk : ∀ k, k < S.dim →
        (transform S r).getD k 0 = (transform S p).getD k 0 - (transform S q).getD k 0 := by
      intro k hk
      rw [← htr]
      exact transform_sub S hS p q hpl hql k hk (hle k hk)
    have hrne : r ≠ List.replicate S.dim 0 := by
      intro e0
      apply hne
      apply candidate_congr
      apply transform_ext S hS
      intro k hk'
      have := hk k hk'
      rw [e0, transform_zero S hS k hk'] at this
      omega
    have hcand : candidate S r = v_sub (candidate S p) (candidate S q) := by
      apply List.ext_getElem (by rw [length_v_sub, hcl, hcl, hcl]; simp)
      intro i hi1 hi2
      have hi : i < S.dim + 1 := by rw [hcl] at hi1; exact hi1
      have e1 := getD_v_sub (candidate S p) (candidate S q) i (by rw [hcl]; exact hi)
        (by rw [hcl]; exact hi)
      rw [← List.getD_eq_getElem _ 0 hi1, ← List.getD_eq_getElem _ 0 hi2, e1]
      rcases Nat.eq_zero_or_pos i with rfl | hpos'
      · rw [candidate_zero, candidate_zero, candidate_zero, ← rsum_sub]
        unfold rsum
        congr 1
        apply List.map_congr_left
        intro k hk'
        exact hk k (List.mem_range.1 hk')
      · obtain ⟨j, rfl⟩ : ∃ j, i = j + 1 := ⟨i - 1, by omega⟩
        rw [candidate_succ, candidate_succ, candidate_succ]
        exact hk j (by omega)
    rw [← hcand]
    exact (hmem _).2 ⟨r, s3 r hr hrne, rfl⟩

end Simplex

namespace Simplex

theorem ht1_fold_spec (S : Simplex) (Form : List Int) : ∀ (pts : List (List Int))
    (HE : List (List Int)),
    pts.foldl (fun (HE : List (List Int)) p =>
        if v_scalar_product (ambient S (transform S p)) Form = 1
        then HE ++ [ambient S (transform S p)] else HE) HE =
      HE ++ (pts.map fun p => ambient S (transform S p)).filter
        (fun Help => decide (v_scalar_product Help Form = 1)) := by
  intro pts
  induction pts with
  | nil => intro HE; simp
  | cons p t ih =>
    intro HE
    rw [List.foldl_cons, ih, List.map_cons, List.filter_cons]
    by_cases h : v_scalar_product (ambient S (transform S p)) Form = 1
    · rw [if_pos h, if_pos (by simpa using h)]
      simp
    · rw [if_neg h, if_neg (by simpa using h)]

end Simplex

namespace Sublattice_Representation

theorem initialise_identity_iff (ops : MatrixOps) (S0 : Sublattice_Representation) (M : Matrix)
    (sat : Bool) :
    ((initialise ops S0 M sat).1.is_identity = true ↔ identity_case ops M sat) ∧
    ((initialise ops S0 M sat).1.is_identity = true →
      (initialise ops S0 M sat).1.A = Matrix.identity M.nc ∧
      (initialise ops S0 M sat).1.B = Matrix.identity M.nc ∧
      (initialise ops S0 M sat).1.c = 1 ∧ (initialise ops S0 M sat).1.rank = M.nc ∧
      (initialise ops S0 M sat).1.dim = M.nc ∧ (initialise ops S0 M sat).2 = true) := by
  unfold identity_case row_index initialise
  simp only
  by_cases h0 : (ops.row_echelon_reduce M).2.2 = false
  · rw [if_pos h0]
    simp [h0]
  rw [if_neg h0]
  have h0' : (ops.row_echelon_reduce M).2.2 = true := by simpa using h0
  by_cases h1 : (ops.row_echelon_reduce M).2.1 = M.nc ∧ sat = true
  · rw [if_pos h1]
    exact ⟨⟨fun _ => ⟨h0', h1.1, Or.inl h1.2⟩, fun _ => rfl⟩,
      fun _ => ⟨rfl, rfl, rfl, h1.1, rfl, rfl⟩⟩
  rw [if_neg h1]
  by_cases h2 : (corner_loop (ops.row_echelon_reduce M).1 M.nc (ops.row_echelon_reduce M).2.1
      (ops.row_echelon_reduce M).2.1).row_index = 1 ∧ (ops.row_echelon_reduce M).2.1 = M.nc
  · rw [if_pos h2]
    exact ⟨⟨fun _ => ⟨h0', h2.2, Or.inr h2.1⟩, fun _ => rfl⟩,
      fun _ => ⟨rfl, rfl, rfl, h2.2, rfl, rfl⟩⟩
  rw [if_neg h2]
  have hno : ¬ ((ops.row_echelon_reduce M).2.2 = true ∧ (ops.row_echelon_reduce M).2.1 = M.nc ∧
      (sat = true ∨ (corner_loop (ops.row_echelon_reduce M).1 M.nc
        (ops.row_echelon_reduce M).2.1 (ops.row_echelon_reduce M).2.1).row_index = 1)) := by
    rintro ⟨_, a, b | b⟩
    · exact h1 ⟨a, b⟩
    · exact h2 ⟨b, a⟩
  by_cases h3 : (corner_loop (ops.row_echelon_reduce M).1 M.nc (ops.row_echelon_reduce M).2.1
      (ops.row_echelon_reduce M).2.1).row_index = 1
  · rw [if_pos h3]
    simp only [Bool.false_eq_true, false_iff, false_implies, and_true]
    exact hno
  rw [if_neg h3]
  by_cases h4 : sat = false
  · rw [if_pos h4]
    split <;> (simp only [Bool.false_eq_true, false_iff, false_implies, and_true]; exact hno)
  · rw [if_neg h4]
    split <;> (simp only [Bool.false_eq_true, false_iff, false_implies, and_true]; exact hno)

end Sublattice_Representation

namespace Sublattice_Representation

theorem corner_row_index_eq_prod (N0 : Matrix) (dim rank : Nat) (hlen : N0.elem.length = N0.nr)
    (hrk : rank ≤ N0.nr) (hre : ReducedEchelon N0 rank dim) : ∀ m, m ≤ rank →
    (corner_loop N0 dim rank m).row_index =
      ((List.range m).map fun k => Iabs (N0.get k (first_nonzero N0 dim k))).prod := by
  intro m
  induction m with
  | zero => intro _; simp [corner_loop]
  | succ m ih =>
    intro hm
    obtain ⟨_, _, _, i4, _⟩ := corner_loop_inv N0 dim rank hlen hrk hre m (by omega)
    obtain ⟨_, _, _, _, j5, _⟩ := corner_loop_inv N0 dim rank hlen hrk hre (m + 1) hm
    obtain ⟨⟨σ, hσ, hrow⟩, hpos⟩ := j5 m (by omega)
    have e : (corner_loop N0 dim rank (m + 1)).row_index =
        (corner_loop N0 dim rank m).row_index *
          (corner_loop N0 dim rank (m + 1)).N.get m
            (first_nonzero (corner_loop N0 dim rank m).N dim m) := by
      rw [corner_loop_succ]; rfl
    rw [e, first_nonzero_congr _ N0 dim m (i4 m (le_refl _)), ih (by omega), List.range_succ,
      List.map_append, List.prod_append]
    congr 1
    simp only [List.map_cons, List.map_nil, List.prod_cons, List.prod_nil, mul_one]
    rw [Matrix.get_eq_row, hrow, Matrix.get_neg_row, ← Matrix.get_eq_row] at hpos ⊢
    unfold Iabs
    rcases hσ with rfl | rfl
    · rw [mul_one] at hpos ⊢
      rw [if_neg (by omega)]
    · rw [if_pos (by omega)]
      omega

end Sublattice_Representation

namespace Sublattice_Representation

theorem identity_VxM (n : Nat) (v : List Int) (hv : v.length = n) :
    (Matrix.identity n).VxM v = v := by
  apply ext_vecZ _ _ n (by rw [length_VxM]; rfl) hv
  rw [vecZ_VxM _ _ n n rfl rfl, Matrix.toZ_identity, Matrix.vecMul_one]

theorem identity_MxV (n : Nat) (v : List Int) (hv : v.length = n) :
    (Matrix.identity n).MxV v = v := by
  apply ext_vecZ _ _ n (by rw [length_MxV]; rfl) hv
  rw [vecZ_MxV _ _ n n rfl rfl, Matrix.toZ_identity, Matrix.one_mulVec]

theorem v_scalar_division_one (v : List Int) : v_scalar_division v 1 = v := by
  unfold v_scalar_division
  simp

theorem compose_run_toOption (S SR : Sublattice_Representation) :
    (compose_run S SR).toOption = compose S SR := by
  unfold compose_run compose
  by_cases h1 : S.rank ≠ SR.dim
  · rw [if_pos h1, if_pos h1]; rfl
  rw [if_neg h1, if_neg h1]
  by_cases h2 : SR.is_identity = true
  · rw [if_pos h2, if_pos h2]; rfl
  rw [if_neg h2, if_neg h2]
  by_cases h3 : S.is_identity = true
  · rw [if_pos h3, if_pos h3]; rfl
  rw [if_neg h3, if_neg h3]
  simp only [Except.toOption]
  by_cases h4 : gcd (S.B.multiplication SR.B).matrix_gcd (S.c * SR.c) > 1
  · simp only [if_pos h4]
  · simp only [if_neg h4]

theorem compose_dual_run_toOption (S SR : Sublattice_Representation) :
    (compose_dual_run S SR).toOption = compose_dual S SR := by
  unfold compose_dual_run compose_dual
  by_cases h1 : S.rank ≠ SR.dim
  · rw [if_pos h1, if_pos h1]; rfl
  rw [if_neg h1, if_neg h1]
  by_cases h1' : SR.c ≠ 1
  · rw [if_pos h1', if_pos h1']; rfl
  rw [if_neg h1', if_neg h1']
  by_cases h2 : SR.is_identity = true
  · rw [if_pos h2, if_pos h2]; rfl
  rw [if_neg h2, if_neg h2]
  simp only
  by_cases h3 : S.is_identity = true
  · rw [if_pos h3, if_pos h3]; rfl
  rw [if_neg h3, if_neg h3]
  simp only [Except.toOption]
  by_cases h4 : gcd (S.B.multiplication SR.A.transpose).matrix_gcd S.c > 1
  · simp only [if_pos h4]
  · simp only [if_neg h4]

end Sublattice_Representation

namespace Sublattice_Representation

theorem tmod_lift (a d : Int) (hd : 0 < d) :
    (if a.tmod d < 0 then a.tmod d + d else a.tmod d) = a % d := by
  have h1 := Int.tmod_add_tdiv a d
  have h2 := Int.tmod_lt_of_pos a hd
  have h3 : -d < a.tmod d := by
    rcases le_or_lt 0 a with h | h
    · have := Int.tmod_nonneg d h; omega
    · have e : (-a).tmod d = -(a.tmod d) := by
        rw [Int.tmod_def, Int.tmod_def, Int.neg_tdiv]; ring
      have := Int.tmod_lt_of_pos (-a) hd
      omega
  by_cases h : a.tmod d < 0
  · rw [if_pos h]
    have e : a = (a.tmod d + d) + d * (a.tdiv d - 1) := by linarith
    conv_rhs => rw [e]
    rw [Int.add_mul_emod_self_left, Int.emod_eq_of_lt (by omega) (by omega)]
  · rw [if_neg h]
    have e : a = a.tmod d + d * (a.tdiv d) := by linarith
    conv_rhs => rw [e]
    rw [Int.add_mul_emod_self_left, Int.emod_eq_of_lt (by omega) (by omega)]

end Sublattice_Representation

namespace Matrix

theorem row_ofFn (r c : Nat) (f : Nat → Nat → Int) (i : Nat) (hi : i < r) :
    (ofFn r c f).row i = (List.range c).map fun j => f i j := by
  simp [row, ofFn, List.getD_eq_getElem, hi]

theorem append_row_set_entry (T : Matrix) (r : List Int) (j : Nat) (x : Int)
    (hT : T.elem.length = T.nr) :
    (T.append_row r).set_entry ((T.append_row r).nr - 1) j x = T.append_row (r.set j x) := by
  have e : (T.append_row r).nr - 1 = T.elem.length := by
    simp [append_row, hT]
  rw [e]
  simp only [set_entry, append_row, Matrix.mk.injEq, true_and]
  rw [List.getD_append_right _ _ _ _ (le_refl _), List.set_append_right _ _ (le_refl _)]
  simp

theorem append_row_get_last (T : Matrix) (r : List Int) (j : Nat) (hT : T.elem.length = T.nr) :
    (T.append_row r).get ((T.append_row r).nr - 1) j = r.getD j 0 := by
  have e : (T.append_row r).nr - 1 = T.elem.length := by
    simp [append_row, hT]
  rw [e]
  simp only [get, append_row]
  rw [List.getD_append_right _ _ _ _ (le_refl _)]
  simp

end Matrix

namespace Sublattice_Representation

/-- The reduction of the entries `0..dim-1` of a congruence row whose entry `dim` is the
modulus, on the row alone. -/
theorem congruence_step_rows (d : Int) (T : Matrix) (hT : T.elem.length = T.nr) :
    ∀ (m : Nat) (r : List Int),
    (List.range m).foldl (fun (T : Matrix) j =>
      let T2 := T.set_entry (T.nr - 1) j ((T.get (T.nr - 1) j).tmod d)
      if T2.get (T2.nr - 1) j < 0 then
        T2.set_entry (T2.nr - 1) j (T2.get (T2.nr - 1) j + d)
      else T2) (T.append_row r) =
    T.append_row ((List.range m).foldl (fun (r : List Int) j =>
      if ((r.set j ((r.getD j 0).tmod d)).getD j 0) < 0 then
        (r.set j ((r.getD j 0).tmod d)).set j ((r.set j ((r.getD j 0).tmod d)).getD j 0 + d)
      else r.set j ((r.getD j 0).tmod d)) r) := by
  intro m
  induction m with
  | zero => intro r; rfl
  | succ m ih =>
    intro r
    rw [List.range_succ, List.foldl_append, List.foldl_append, ih]
    simp only [List.foldl_cons, List.foldl_nil]
    rw [Matrix.append_row_get_last _ _ _ hT, Matrix.append_row_set_entry _ _ _ _ hT,
      Matrix.append_row_get_last _ _ _ hT, Matrix.append_row_set_entry _ _ _ _ hT]
    split <;> rfl

theorem congruence_row_fold (d : Int) (hd : 0 < d) (r0 : List Int) : ∀ (m : Nat),
    m ≤ r0.length →
    ((List.range m).foldl (fun (r : List Int) j =>
      if ((r.set j ((r.getD j 0).tmod d)).getD j 0) < 0 then
        (r.set j ((r.getD j 0).tmod d)).set j ((r.set j ((r.getD j 0).tmod d)).getD j 0 + d)
      else r.set j ((r.getD j 0).tmod d)) r0).length = r0.length ∧
    ∀ i, ((List.range m).foldl (fun (r : List Int) j =>
      if ((r.set j ((r.getD j 0).tmod d)).getD j 0) < 0 then
        (r.set j ((r.getD j 0).tmod d)).set j ((r.set j ((r.getD j 0).tmod d)).getD j 0 + d)
      else r.set j ((r.getD j 0).tmod d)) r0).getD i 0 =
      if i < m then r0.getD i 0 % d else r0.getD i 0 := by
  intro m
  induction m with
  | zero => intro _; simp
  | succ m ih =>
    intro hm
    obtain ⟨h1, h2⟩ := ih (by omega)
    rw [List.range_succ, List.foldl_append]
    simp only [List.foldl_cons, List.foldl_nil]
    generalize (List.range m).foldl (fun (r : List Int) j =>
      if ((r.set j ((r.getD j 0).tmod d)).getD j 0) < 0 then
        (r.set j ((r.getD j 0).tmod d)).set j ((r.set j ((r.getD j 0).tmod d)).getD j 0 + d)
      else r.set j ((r.getD j 0).tmod d)) r0 = r at h1 h2
    have hm' : m < r.length := by omega
    have e0 : (r.set m ((r.getD m 0).tmod d)).getD m 0 = (r.getD m 0).tmod d := by
      rw [Simplex.getD_set_int, if_pos ⟨rfl, hm'⟩]
    have hrm : r.getD m 0 = r0.getD m 0 := by rw [h2, if_neg (by omega)]
    constructor
    · split <;> simp [h1]
    · intro i
      have key : (if ((r.set m ((r.getD m 0).tmod d)).getD m 0) < 0 then
          (r.set m ((r.getD m 0).tmod d)).set m ((r.set m ((r.getD m 0).tmod d)).getD m 0 + d)
          else r.set m ((r.getD m 0).tmod d)).getD i 0 =
          if i = m then r0.getD m 0 % d else r.getD i 0 := by
        rw [e0]
        by_cases hi : i = m
        · subst hi
          rw [if_pos rfl, ← tmod_lift _ _ hd, hrm]
          by_cases hneg : (r0.getD i 0).tmod d < 0
          · rw [if_pos hneg, if_pos hneg, Simplex.getD_set_int,
              if_pos ⟨rfl, by rw [List.length_set]; exact hm'⟩]
          · rw [if_neg hneg, if_neg hneg, Simplex.getD_set_int, if_pos ⟨rfl, hm'⟩]
        · rw [if_neg hi]
          by_cases hneg : (r.getD m 0).tmod d < 0
          · rw [if_pos hneg, Simplex.getD_set_int, if_neg (fun hh => hi hh.1),
              Simplex.getD_set_int, if_neg (fun hh => hi hh.1)]
          · rw [if_neg hneg, Simplex.getD_set_int, if_neg (fun hh => hi hh.1)]
      rw [key]
      by_cases hi : i = m
      · subst hi
        rw [if_pos rfl, if_pos (by omega)]
      · rw [if_neg hi, h2]
        by_cases hlt : i < m
        · rw [if_pos hlt, if_pos (by omega)]
        · rw [if_neg hlt, if_neg (by omega)]

end Sublattice_Representation

namespace Sublattice_Representation

theorem congruence_step_spec (dim : Nat) (A_Copy Transf T : Matrix) (k : Nat)
    (hT : T.elem.length = T.nr) (hr : (Transf.row k).length = dim + 1)
    (hd : 0 < A_Copy.get k k) :
    congruence_step dim A_Copy Transf T k =
      if A_Copy.get k k ≠ 1 then
        T.append_row (((List.range dim).map fun j => Transf.get k j % A_Copy.get k k) ++
          [A_Copy.get k k])
      else T := by
  unfold congruence_step
  by_cases h1 : A_Copy.get k k ≠ 1
  · rw [if_pos h1, if_pos h1]
    simp only
    rw [Matrix.append_row_set_entry _ _ _ _ hT, congruence_step_rows _ _ hT]
    congr 1
    have hlen : ((Transf.row k).set dim (A_Copy.get k k)).length = dim + 1 := by
      rw [List.length_set, hr]
    obtain ⟨f1, f2⟩ := congruence_row_fold (A_Copy.get k k) hd
      ((Transf.row k).set dim (A_Copy.get k k)) dim (by omega)
    apply ext_vecZ _ _ (dim + 1) (by rw [f1, hlen]) (by simp)
    funext i
    simp only [vecZ]
    rw [f2, Simplex.getD_set_int]
    by_cases hi : (i : Nat) < dim
    · rw [if_pos hi, if_neg (fun hh => by omega),
        List.getD_append _ _ _ _ (by simp only [List.length_map, List.length_range]; exact hi),
        List.getD_eq_getElem
          ((List.range dim).map fun j => Transf.get k j % A_Copy.get k k) 0
          (by simp only [List.length_map, List.length_range]; exact hi),
        List.getElem_map, List.getElem_range]
      rfl
    · have hi' : (i : Nat) = dim := by have := i.isLt; omega
      rw [if_neg hi, if_pos ⟨hi', by omega⟩, List.getD_append_right _ _ _ _ (by simp; omega)]
      simp [hi']
  · rw [if_neg h1, if_neg h1]

theorem congruence_loop_spec (dim : Nat) (A_Copy Transf : Matrix)
    (hr : ∀ k, k < dim → (Transf.row k).length = dim + 1) : ∀ (m : Nat), m ≤ dim →
    (∀ k, k < m → 0 < A_Copy.get k k) →
    (List.range m).foldl (congruence_step dim A_Copy Transf) (Matrix.zero 0 (dim + 1)) =
      ⟨((List.range m).filter fun k => decide (A_Copy.get k k ≠ 1)).length, dim + 1,
        ((List.range m).filter fun k => decide (A_Copy.get k k ≠ 1)).map fun k =>
          ((List.range dim).map fun j => Transf.get k j % A_Copy.get k k) ++
            [A_Copy.get k k]⟩ := by
  intro m
  induction m with
  | zero => intro _ _; rfl
  | succ m ih =>
    intro hm hd
    rw [List.range_succ, List.foldl_append, ih (by omega) (fun k hk => hd k (by omega))]
    simp only [List.foldl_cons, List.foldl_nil]
    rw [congruence_step_spec dim A_Copy Transf _ m (by simp) (hr m (by omega)) (hd m (by omega)),
      List.filter_append]
    by_cases h1 : A_Copy.get m m ≠ 1
    · rw [if_pos h1]
      simp [Matrix.append_row, h1]
    · rw [if_neg h1]
      simp [h1]

theorem smith_rows (T : Matrix) (dim : Nat) (hlen : T.elem.length = dim) (hnr : T.nr = dim)
    (hnc : T.nc = dim) (k : Nat) (hk : k < dim) :
    ((T.append (Matrix.zero 1 dim)).transpose.row k).length = dim + 1 ∧
    ∀ j, j < dim → (T.append (Matrix.zero 1 dim)).transpose.get k j = T.get j k := by
  have e : (T.append (Matrix.zero 1 dim)).transpose =
      Matrix.ofFn dim (dim + 1) fun i j => (T.append (Matrix.zero 1 dim)).get j i := by
    unfold Matrix.transpose
    simp [Matrix.append, hnr, hnc, Matrix.zero, Matrix.ofFn]
  rw [e]
  constructor
  · rw [Matrix.row_ofFn _ _ _ _ hk]
    simp
  · intro j hj
    rw [Matrix.get_ofFn _ _ _ _ _ hk (by omega)]
    simp only [Matrix.get, Matrix.append]
    rw [List.getD_append _ _ _ _ (by omega)]

theorem foldl_mul_eq_prod (f : Nat → Int) : ∀ (n : Nat) (e : Int),
    (List.range n).foldl (fun e i => e * f i) e = e * ((List.range n).map f).prod := by
  intro n
  induction n with
  | zero => intro e; simp
  | succ n ih =>
    intro e
    rw [List.range_succ, List.foldl_append, ih]
    simp [mul_assoc]

theorem map_range_getD_rows (l : List (List Int)) (g : List Int → Int) :
    (List.range l.length).map (fun i => g (l.getD i [])) = l.map g := by
  apply List.ext_getElem
  · simp
  · intro i h1 h2
    simp at h1
    simp [List.getElem?_eq_getElem h1]

end Sublattice_Representation

namespace Sublattice_Representation

theorem last_entries_prod (rows : List (List Int)) (n c dim : Nat) (hn : n = rows.length) :
    (List.range n).foldl (fun e i => e * (Matrix.mk n c rows).get i dim) 1 =
      (rows.map fun r => r.getD dim 0).prod := by
  subst hn
  rw [foldl_mul_eq_prod, one_mul]
  congr 1
  exact map_range_getD_rows rows (fun r => r.getD dim 0)

end Sublattice_Representation

namespace Sublattice_Representation

theorem projection_entries (N0 : Matrix) (rank dim : Nat) (hlen : N0.elem.length = N0.nr)
    (hrk : rank ≤ N0.nr) (hre : ReducedEchelon N0 rank dim) :
    ∀ k j, k < dim → j < rank →
      (projection_loop (Matrix.zero dim rank)
        (corner_loop N0 dim rank rank).col_is_corner dim).1.get k j =
        if k = first_nonzero N0 dim j then 1 else 0 := by
  obtain ⟨_, _, _, _, _, _, i7, _, _⟩ :=
    corner_loop_inv N0 dim rank hlen hrk hre rank (le_refl _)
  obtain ⟨_, _, _, _, p5⟩ := projection_loop_spec (Matrix.zero dim rank)
    (corner_loop N0 dim rank rank).col_is_corner (Matrix.wf_ofFn _ _ _) dim
  have hmono : ∀ a b, a < b → b < rank → first_nonzero N0 dim a < first_nonzero N0 dim b :=
    fun a b hab hb => ((hre a (by omega)).2 b hb hab).1
  have hcnt : ∀ j, j < rank →
      ((Finset.range (first_nonzero N0 dim j)).filter
        fun k => (corner_loop N0 dim rank rank).col_is_corner.getD k false = true).card = j :=
    fun j hj => card_corners (first_nonzero N0 dim) rank hmono _ i7 j hj
  intro k j hk hj
  rw [p5]
  have hz : (Matrix.zero dim rank).get k j = 0 := Matrix.get_ofFn _ _ _ _ _ hk hj
  rw [hz]
  by_cases e : k = first_nonzero N0 dim j
  · rw [if_pos e, if_pos]
    refine ⟨hk, (i7 k).2 ⟨j, hj, e.symm⟩, hk, hj, ?_⟩
    rw [e, hcnt j hj]
  · rw [if_neg e, if_neg]
    rintro ⟨_, c1, _, _, c2⟩
    obtain ⟨i, hi, rfl⟩ := (i7 k).1 c1
    rw [hcnt i hi] at c2
    exact e (by rw [c2])

theorem corner_rows_sign (N0 : Matrix) (rank dim : Nat) (hlen : N0.elem.length = N0.nr)
    (hrk : rank ≤ N0.nr) (hre : ReducedEchelon N0 rank dim) (k : Nat) (hk : k < rank) :
    (corner_loop N0 dim rank rank).N.row k =
      (if N0.get k (first_nonzero N0 dim k) < 0 then v_scalar_multiplication (N0.row k) (-1)
       else N0.row k) ∧
    0 < (corner_loop N0 dim rank rank).N.get k (first_nonzero N0 dim k) := by
  obtain ⟨_, _, _, _, i5, _⟩ := corner_loop_inv N0 dim rank hlen hrk hre rank (le_refl _)
  obtain ⟨⟨σ, hσ, hrow⟩, hpos⟩ := i5 k hk
  refine ⟨?_, hpos⟩
  rw [Matrix.get_eq_row, hrow, Matrix.get_neg_row, ← Matrix.get_eq_row] at hpos
  rw [hrow]
  rcases hσ with rfl | rfl
  · rw [if_neg (by omega), v_scalar_multiplication_one]
  · rw [if_pos (by omega)]

end Sublattice_Representation

namespace Sublattice_Representation

theorem initialise_failure_flag (ops : MatrixOps) (S0 : Sublattice_Representation) (M : Matrix)
    (sat : Bool) (hf : (initialise ops S0 M sat).2 = false) :
    (initialise ops S0 M sat).1.is_identity = false ∧ (initialise ops S0 M sat).1.dim = M.nc ∧
    (initialise ops S0 M sat).1.Equations_computed = false ∧
    (initialise ops S0 M sat).1.Congruences_computed = false := by
  unfold initialise at hf ⊢
  simp only at hf ⊢
  split at hf
  · rw [if_pos (by assumption)]
    exact ⟨rfl, rfl, rfl, rfl⟩
  · split at hf
    · cases hf
    · split at hf
      · cases hf
      · split at hf
        · cases hf
        · rw [if_neg (by assumption), if_neg (by assumption), if_neg (by assumption),
            if_neg (by assumption)]
          split
          · split <;> exact ⟨rfl, rfl, rfl, rfl⟩
          · split <;> exact ⟨rfl, rfl, rfl, rfl⟩

/-- The object that the fallback branch of the constructor builds: the members `A`, `B`,
`c` and `rank` are those of the arbitrary precision run, `dim` and the two cache flags are
those of the failed run, and `is_identity` is false whatever the arbitrary precision run
found. -/
theorem ofMatrix_fallback_fields (ops mpz_ops : MatrixOps) (S0 mpz_S0 : Sublattice_Representation)
    (M : Matrix) (sat : Bool) (hf : (initialise ops S0 M sat).2 = false) :
    (ofMatrix ops mpz_ops S0 mpz_S0 M sat).A = (initialise mpz_ops mpz_S0 M sat).1.A ∧
    (ofMatrix ops mpz_ops S0 mpz_S0 M sat).B = (initialise mpz_ops mpz_S0 M sat).1.B ∧
    (ofMatrix ops mpz_ops S0 mpz_S0 M sat).c = (initialise mpz_ops mpz_S0 M sat).1.c ∧
    (ofMatrix ops mpz_ops S0 mpz_S0 M sat).rank = (initialise mpz_ops mpz_S0 M sat).1.rank ∧
    (ofMatrix ops mpz_ops S0 mpz_S0 M sat).dim = M.nc ∧
    (ofMatrix ops mpz_ops S0 mpz_S0 M sat).Equations_computed = false ∧
    (ofMatrix ops mpz_ops S0 mpz_S0 M sat).Congruences_computed = false ∧
    (ofMatrix ops mpz_ops S0 mpz_S0 M sat).is_identity = false := by
  obtain ⟨h1, h2, h3, h4⟩ := initialise_failure_flag ops S0 M sat hf
  unfold ofMatrix
  simp only
  rw [if_pos hf]
  exact ⟨rfl, rfl, rfl, rfl, h2, h3, h4, h1⟩

/-- The fallback branch after a failed narrow run: for the matrix with the rows
`(2^62, 1)`, `(1, 2^62)` and requested saturation, `initialize` with arbitrary precision
succeeds with the identity representation, `is_identity = true`; with 64 bit integers the
row echelon reduction reports overflow and the fallback branch of the constructor copies
`A`, `B`, `c` and `rank` of the arbitrary precision run, which agree with the direct
object as do `dim` and the two cache flags, but it leaves `is_identity = false`. -/
theorem fallback_identity_flag_lost :
    RowEchelonContract exBigMatrix (exMpzOps.row_echelon_reduce exBigMatrix) ∧
    (initialise exMpzOps (identityRep 0) exBigMatrix true).2 = true ∧
    (initialise exMpzOps (identityRep 0) exBigMatrix true).1.is_identity = true ∧
    (initialise exOverflowOps (identityRep 0) exBigMatrix true).2 = false ∧
    (ofMatrix exOverflowOps exMpzOps (identityRep 0) (identityRep 0)
      exBigMatrix true).is_identity = false ∧
    (ofMatrix exOverflowOps exMpzOps (identityRep 0) (identityRep 0) exBigMatrix true) =
      { (initialise exMpzOps (identityRep 0) exBigMatrix true).1 with is_identity := false } := by
  decide

end Sublattice_Representation

namespace Sublattice_Representation

end Sublattice_Representation

namespace Sublattice_Representation

/-- In the saturation branch of `initialize` the returned flag is the one that
`invert_unprotected` wrote, whatever `column_trigonalize` reported. -/
theorem initialise_saturation_flag (ops : MatrixOps) (S0 : Sublattice_Representation)
    (M : Matrix) (hs : (ops.row_echelon_reduce M).2.2 = true)
    (hr : (ops.row_echelon_reduce M).2.1 ≠ M.nc) (hri : row_index ops M ≠ 1) :
    (initialise ops S0 M true).2 =
      (ops.invert_unprotected (ops.column_trigonalize
        (corner_loop (ops.row_echelon_reduce M).1 M.nc (ops.row_echelon_reduce M).2.1
          (ops.row_echelon_reduce M).2.1).N (ops.row_echelon_reduce M).2.1
        (Matrix.identity M.nc)).1).2.2 := by
  unfold row_index at hri
  unfold initialise
  simp only
  rw [if_neg (by simp [hs]), if_neg (fun h => hr h.1), if_neg (fun h => hri h.1), if_neg hri,
    if_neg (by simp)]
  split
  · rename_i h; rw [h]
  · rename_i h
    simp only [Bool.not_eq_false] at h
    rw [h]

end Sublattice_Representation

namespace Simplex

theorem reduce_scan_eq_naive (dim : Nat) (x : List Int) :
    ∀ (rest scanned : List (List Int)) (c : Nat), 1 ≤ c → c ≤ dim →
    reduce_scan (dim + 1) x c scanned rest = naive_scan dim x scanned rest := by
  intro rest
  induction rest with
  | nil => intro scanned c _ _; rfl
  | cons e rest ih =>
    intro scanned c hc1 hc2
    rw [reduce_scan, naive_scan]
    by_cases hb : x.getD 0 0 < 2 * e.getD 0 0
    · rw [if_pos hb, if_pos hb]
    · rw [if_neg hb, if_neg hb]
      simp only [Nat.add_sub_cancel]
      by_cases hq : e.getD c 0 ≤ x.getD c 0
      · rw [if_pos hq]
        by_cases hd : first_exceeding e x dim 1 = dim + 1
        · rw [if_pos hd, if_pos ((first_exceeding_dominates dim e x).1 hd)]
        · rw [if_neg hd, if_neg (fun h => hd ((first_exceeding_dominates dim e x).2 h))]
          obtain ⟨r1, r2, _⟩ := first_exceeding_range dim e x hd
          exact ih _ _ r1 r2
      · rw [if_neg hq, if_neg (fun h => hq (h c hc1 hc2))]
        exact ih _ _ hc1 hc2

/-- The three ends of a call of `reduce_and_insert_interior`. -/
theorem reduce_call_cases (dim : Nat) (hdim : 0 < dim) (L : List (List Int)) (x : List Int) :
    (x.getD 0 0 = 0 ∧ reduce_and_insert_interior dim L x = L) ∨
    (x.getD 0 0 ≠ 0 ∧ reduce_and_insert_interior dim L x = L ++ [x]) ∨
    (x.getD 0 0 ≠ 0 ∧ ∃ pre e post, L = pre ++ e :: post ∧
      reduce_and_insert_interior dim L x = e :: (pre ++ post) ∧
      dominates dim e x ∧ 2 * e.getD 0 0 ≤ x.getD 0 0 ∧
      ∀ f ∈ pre, ¬ x.getD 0 0 < 2 * f.getD 0 0 ∧ ¬ dominates dim f x) := by
  unfold reduce_and_insert_interior
  by_cases h0 : x.getD 0 0 = 0
  · left
    rw [if_pos h0]
    exact ⟨h0, rfl⟩
  · right
    rw [if_neg h0]
    rcases reduce_scan_spec dim x L [] 1 (le_refl _) hdim (by simp) with ⟨h1, _⟩ |
      ⟨pre, e, post, h1, h2, h3, h4, h5⟩
    · left
      exact ⟨h0, by simpa using h1⟩
    · right
      exact ⟨h0, pre, e, post, by simpa using h1, h2, h3, by omega, h5⟩

theorem reduce_all_keeps (dim : Nat) (hdim : 0 < dim) :
    ∀ (todo done HB : List (List Int)), (done ++ todo).Nodup →
    (∀ h ∈ HB, h ∈ done) → HB.Nodup →
    (∀ y ∈ done, y.getD 0 0 ≠ 0 →
      y ∈ HB ∨ ∃ e ∈ HB, dominates dim e y ∧ 2 * e.getD 0 0 ≤ y.getD 0 0) →
    (∀ h ∈ HB, h ∈ reduce_all dim todo HB) ∧
    (∀ h ∈ reduce_all dim todo HB, h ∈ done ++ todo) ∧
    (reduce_all dim todo HB).Nodup ∧
    (∀ y ∈ done ++ todo, y.getD 0 0 ≠ 0 →
      y ∈ reduce_all dim todo HB ∨
        ∃ e ∈ reduce_all dim todo HB, dominates dim e y ∧ 2 * e.getD 0 0 ≤ y.getD 0 0) := by
  intro todo
  induction todo with
  | nil =>
    intro done HB _ h1 h2 h3
    simp only [reduce_all, List.foldl_nil, List.append_nil]
    exact ⟨fun h hh => hh, h1, h2, h3⟩
  | cons x todo ih =>
    intro done HB hnd h1 h2 h3
    have hxd : x ∉ done := by
      intro hx
      rw [List.nodup_append] at hnd
      exact hnd.2.2 hx (by simp)
    have hxHB : x ∉ HB := fun hx => hxd (h1 x hx)
    have hstep : (∀ h ∈ HB, h ∈ reduce_and_insert_interior dim HB x) ∧
        (∀ h ∈ reduce_and_insert_interior dim HB x, h ∈ done ++ [x]) ∧
        (reduce_and_insert_interior dim HB x).Nodup ∧
        (∀ y ∈ done ++ [x], y.getD 0 0 ≠ 0 →
          y ∈ reduce_and_insert_interior dim HB x ∨
            ∃ e ∈ reduce_and_insert_interior dim HB x,
              dominates dim e y ∧ 2 * e.getD 0 0 ≤ y.getD 0 0) := by
      rcases reduce_call_cases dim hdim HB x with ⟨c0, c1⟩ | ⟨c0, c1⟩ |
        ⟨c0, pre, e, post, c1, c2, c3, c4, _⟩
      · rw [c1]
        refine ⟨fun h hh => hh, fun h hh => by simp [h1 h hh], h2, ?_⟩
        intro y hy hy0
        rcases List.mem_append.1 hy with hy | hy
        · exact h3 y hy hy0
        · simp only [List.mem_singleton] at hy
          subst hy
          exact absurd c0 hy0
      · rw [c1]
        refine ⟨fun h hh => by simp [hh], ?_, ?_, ?_⟩
        · intro h hh
          rcases List.mem_append.1 hh with hh | hh
          · simp [h1 h hh]
          · simp only [List.mem_singleton] at hh
            simp [hh]
        · rw [List.nodup_append]
          refine ⟨h2, by simp, ?_⟩
          intro a ha hb
          simp only [List.mem_singleton] at hb
          subst hb
          exact hxHB ha
        · intro y hy hy0
          rcases List.mem_append.1 hy with hy | hy
          · rcases h3 y hy hy0 with h | ⟨e, he, hd⟩
            · left; simp [h]
            · right; exact ⟨e, by simp [he], hd⟩
          · simp only [List.mem_singleton] at hy
            left; simp [hy]
      · rw [c2]
        have hperm : (e :: (pre ++ post)).Perm HB := by
          rw [c1]
          exact (List.perm_middle).symm
        have hmem : ∀ h, h ∈ e :: (pre ++ post) ↔ h ∈ HB := fun h => hperm.mem_iff
        refine ⟨fun h hh => (hmem h).2 hh, fun h hh => by simp [h1 h ((hmem h).1 hh)],
          hperm.nodup_iff.2 h2, ?_⟩
        intro y hy hy0
        rcases List.mem_append.1 hy with hy | hy
        · rcases h3 y hy hy0 with h | ⟨f, hf, hd⟩
          · left; exact (hmem y).2 h
          · right; exact ⟨f, (hmem f).2 hf, hd⟩
        · simp only [List.mem_singleton] at hy
          subst hy
          right
          exact ⟨e, by simp, c3, c4⟩
    obtain ⟨s1, s2, s3, s4⟩ := hstep
    obtain ⟨i1, i2, i3, i4⟩ := ih (done ++ [x]) (reduce_and_insert_interior dim HB x)
      (by simpa using hnd) s2 s3 s4
    have e : reduce_all dim (x :: todo) HB =
        reduce_all dim todo (reduce_and_insert_interior dim HB x) := rfl
    rw [e]
    refine ⟨fun h hh => i1 h (s1 h hh), ?_, i3, ?_⟩
    · intro h hh
      have := i2 h hh
      simpa using this
    · intro y hy hy0
      exact i4 y (by simpa using hy) hy0

end Simplex

namespace Simplex

/-- The invariant of the list `Hilbert_Basis` before every call of
`reduce_and_insert_interior` in the reduction loop, `done` being the candidates consumed
so far and `todo` the candidates to come. -/
theorem reduce_prefix_inv (dim : Nat) (cs : List (List Int)) (hcs : CandidateSet dim cs) :
    ∀ (done todo : List (List Int)), cs = done ++ todo →
    (∀ h ∈ reduce_all dim done [], h ∈ done ∧ h.getD 0 0 ≠ 0) ∧
    ((reduce_all dim done []).Pairwise fun a b =>
      a.getD 0 0 ≤ b.getD 0 0 ∨ ∀ y ∈ todo, 2 * a.getD 0 0 ≤ y.getD 0 0) ∧
    (∀ y ∈ done, y.getD 0 0 ≠ 0 →
      ∃ e ∈ reduce_all dim done [], dominates dim e y ∧ e.getD 0 0 ≤ y.getD 0 0) ∧
    (∀ a ∈ reduce_all dim done [], ∀ b ∈ reduce_all dim done [], a ≠ b →
      ¬ dominates dim a b) := by
  intro done
  induction done using List.reverseRecOn with
  | nil =>
    intro todo _
    simp [reduce_all]
  | append_singleton done x ih =>
    intro todo hsplit
    have hsplit' : cs = done ++ x :: todo := by simpa using hsplit
    obtain ⟨I1, I2, I3, I4⟩ := ih (x :: todo) hsplit'
    have e : reduce_all dim (done ++ [x]) [] =
        reduce_and_insert_interior dim (reduce_all dim done []) x := by
      simp [reduce_all, List.foldl_append]
    rw [e]
    exact reduce_step_inv dim cs hcs done todo _ x hsplit' I1 I2 I3 I4

theorem norm_sorted_append (L : List (List Int)) (x : List Int) (hs : norm_sorted L)
    (hx : ∀ e ∈ L, e.getD 0 0 ≤ x.getD 0 0) : norm_sorted (L ++ [x]) := by
  unfold norm_sorted at hs ⊢
  rw [List.pairwise_append]
  refine ⟨hs, by simp, ?_⟩
  intro a ha b hb
  simp only [List.mem_singleton] at hb
  subst hb
  exact hx a ha

theorem norm_sorted_remove (pre post : List (List Int)) (e : List Int)
    (hs : norm_sorted (pre ++ e :: post)) : norm_sorted (pre ++ post) := by
  unfold norm_sorted at hs ⊢
  exact hs.sublist (List.Sublist.append (List.Sublist.refl _) (List.sublist_cons_self _ _))

end Simplex

namespace Simplex

theorem find_last_spec (p d : List Int) : ∀ n : Nat,
    (find_last n p d = none → ∀ i, i < n → ¬ p.getD i 0 < d.getD i 0 - 1) ∧
    (∀ l, find_last n p d = some l → l < n ∧ p.getD l 0 < d.getD l 0 - 1 ∧
      ∀ i, i < n → l < i → ¬ p.getD i 0 < d.getD i 0 - 1) := by
  intro n
  induction n with
  | zero =>
    refine ⟨fun _ i hi => by omega, fun l hl => ?_⟩
    simp [find_last] at hl
  | succ n ih =>
    obtain ⟨h1, h2⟩ := ih
    have e : find_last (n + 1) p d =
        if p.getD n 0 < d.getD n 0 - 1 then some n else find_last n p d := by
      simp [find_last, List.range_succ, List.foldl_append]
    rw [e]
    by_cases hn : p.getD n 0 < d.getD n 0 - 1
    · rw [if_pos hn]
      refine ⟨fun h => Option.noConfusion h, fun l hl => ?_⟩
      simp only [Option.some.injEq] at hl
      subst hl
      exact ⟨by omega, hn, fun i hi hl => by omega⟩
    · rw [if_neg hn]
      refine ⟨fun h i hi => ?_, fun l hl => ?_⟩
      · by_cases e1 : i = n
        · subst e1; exact hn
        · exact h1 h i (by omega)
      · obtain ⟨a1, a2, a3⟩ := h2 l hl
        refine ⟨by omega, a2, fun i hi hli => ?_⟩
        by_cases e1 : i = n
        · subst e1; exact hn
        · exact a3 i (by omega) hli

theorem next_point_step (dim : Nat) (diag p q : List Int) (hp : p.length = dim)
    (h : next_point dim p diag = some q) : odometer_step dim diag p q := by
  unfold next_point at h
  cases hf : find_last dim p diag with
  | none => rw [hf] at h; cases h
  | some last =>
    rw [hf] at h
    simp only [Option.some.injEq] at h
    obtain ⟨a1, a2, a3⟩ := (find_last_spec p diag dim).2 last hf
    exact ⟨last, a1, a2, a3, by rw [← h, advance_last dim p last hp a1]⟩

theorem next_rec_lt : ∀ (diag p q : List Int), next_rec diag p = some q → vec_lt p q = true := by
  intro diag
  induction diag with
  | nil => intro p q h; simp [next_rec] at h
  | cons d ds ih =>
    intro p q h
    cases p with
    | nil => simp [next_rec] at h
    | cons a ps =>
      rw [next_rec] at h
      cases hn : next_rec ds ps with
      | some q' =>
        rw [hn] at h
        simp only [Option.some.injEq] at h
        subst h
        rw [vec_lt]
        simp [ih ps q' hn]
      | none =>
        rw [hn] at h
        simp only at h
        by_cases hlt : a < d - 1
        · rw [if_pos hlt] at h
          simp only [Option.some.injEq] at h
          subst h
          rw [vec_lt]
          simp
        · rw [if_neg hlt] at h
          cases h

theorem successors_increasing (diag : List Int) : ∀ (fuel : Nat) (p : List Int),
    (∀ q ∈ successors diag fuel p, vec_lt p q = true) ∧
    (successors diag fuel p).Pairwise fun a b => vec_lt a b = true := by
  intro fuel
  induction fuel with
  | zero => intro p; simp [successors]
  | succ fuel ih =>
    intro p
    rw [successors]
    cases hn : next_rec diag p with
    | none => simp
    | some q =>
      obtain ⟨i1, i2⟩ := ih q
      have hpq := next_rec_lt diag p q hn
      simp only [List.mem_cons, List.pairwise_cons]
      refine ⟨?_, i1, i2⟩
      rintro r (rfl | hr)
      · exact hpq
      · exact vec_lt_trans p q r hpq (i1 r hr)

theorem successors_chain (dim : Nat) (diag : List Int) (hd : diag.length = dim) :
    ∀ (fuel : Nat) (p : List Int), in_box diag p →
    List.Chain (odometer_step dim diag) p (successors diag fuel p) := by
  intro fuel
  induction fuel with
  | zero => intro p _; simp [successors]
  | succ fuel ih =>
    intro p hp
    rw [successors]
    cases hn : next_rec diag p with
    | none => exact List.Chain.nil
    | some q =>
      have hlen : p.length = dim := by rw [in_box_length diag p hp, hd]
      obtain ⟨hq, _⟩ := next_rec_some diag p q hp hn
      refine List.Chain.cons ?_ (ih q hq)
      apply next_point_step dim diag p q hlen
      rw [next_point_eq_next_rec dim diag p hd hlen, hn]

theorem in_box_getD : ∀ (diag p : List Int), in_box diag p →
    ∀ i, i < diag.length → 0 ≤ p.getD i 0 ∧ p.getD i 0 ≤ diag.getD i 0 - 1 := by
  intro diag
  induction diag with
  | nil => intro p _ i hi; simp at hi
  | cons d ds ih =>
    intro p hp i hi
    cases p with
    | nil => exact absurd hp (by simp [in_box])
    | cons a ps =>
      simp only [in_box] at hp
      cases i with
      | zero => simp only [List.getD_cons_zero]; omega
      | succ i =>
        simp only [List.getD_cons_succ]
        exact ih ps hp.2.2 i (by simpa using hi)

end Simplex

theorem dvd_foldl_gcd (d : Int) (v : List Int) : ∀ g0 : Int, d ∣ g0 → (∀ x ∈ v, d ∣ x) →
    d ∣ v.foldl gcd g0 := by
  induction v with
  | nil => intro g0 h _; simpa using h
  | cons a t ih =>
    intro g0 h0 h
    simp only [List.foldl_cons]
    apply ih
    · unfold gcd
      exact Int.dvd_gcd h0 (h a (by simp))
    · intro x hx
      exact h x (by simp [hx])

theorem dvd_v_gcd (d : Int) (v : List Int) (h : ∀ x ∈ v, d ∣ x) : d ∣ v_gcd v :=
  dvd_foldl_gcd d v 0 (dvd_zero _) h

theorem dvd_foldl_matrix_gcd (d : Int) (e : List (List Int)) : ∀ g0 : Int, d ∣ g0 →
    (∀ r ∈ e, ∀ x ∈ r, d ∣ x) → d ∣ e.foldl (fun g r => gcd g (v_gcd r)) g0 := by
  induction e with
  | nil => intro g0 h _; simpa using h
  | cons a t ih =>
    intro g0 h0 h
    simp only [List.foldl_cons]
    apply ih
    · unfold gcd
      exact Int.dvd_gcd h0 (dvd_v_gcd d a (h a (by simp)))
    · intro r hr
      exact h r (by simp [hr])

theorem dvd_matrix_gcd (d : Int) (M : Matrix) (h : ∀ r ∈ M.elem, ∀ x ∈ r, d ∣ x) :
    d ∣ M.matrix_gcd :=
  dvd_foldl_matrix_gcd d M.elem 0 (dvd_zero _) h

theorem matrix_gcd_dvd_mem (M : Matrix) (r : List Int) (hr : r ∈ M.elem) (x : Int)
    (hx : x ∈ r) : M.matrix_gcd ∣ x :=
  (foldl_matrix_gcd_dvd M.elem 0).2 r hr x hx

theorem scalar_division_one (M : Matrix) : M.scalar_division 1 = M := by
  cases M with
  | mk nr nc elem =>
    simp only [Matrix.scalar_division, Matrix.mk.injEq, true_and]
    have : (fun r : List Int => v_scalar_division r 1) = id := by
      funext r
      simp [v_scalar_division]
    rw [this, List.map_id]

/-- After the common factor of the matrix and of the denominator is divided out, the two
have no common factor. -/
theorem reduced_gcd_one (M : Matrix) (c : Int) (hc : c ≠ 0) :
    gcd (M.scalar_division (gcd M.matrix_gcd c)).matrix_gcd (c.tdiv (gcd M.matrix_gcd c)) = 1 := by
  have hgc : gcd M.matrix_gcd c ∣ c := gcd_dvd_right _ _
  have hg0 : gcd M.matrix_gcd c ≠ 0 := by
    intro h
    rw [h] at hgc
    exact hc (zero_dvd_iff.1 hgc)
  generalize hg : gcd M.matrix_gcd c = g at hgc hg0
  have hnonneg : 0 ≤ gcd (M.scalar_division g).matrix_gcd (c.tdiv g) := by
    unfold gcd; positivity
  apply Int.eq_one_of_dvd_one hnonneg
  have h1 : g * gcd (M.scalar_division g).matrix_gcd (c.tdiv g) ∣ c := by
    have := mul_dvd_mul_left g (gcd_dvd_right (M.scalar_division g).matrix_gcd (c.tdiv g))
    rwa [Int.mul_tdiv_cancel' hgc] at this
  have h2 : g * gcd (M.scalar_division g).matrix_gcd (c.tdiv g) ∣ M.matrix_gcd := by
    apply dvd_matrix_gcd
    intro r hr x hx
    have hgx : g ∣ x := by
      rw [← hg]
      exact (gcd_dvd_left _ _).trans (matrix_gcd_dvd_mem M r hr x hx)
    have hmem : x.tdiv g ∈ v_scalar_division r g := by
      unfold v_scalar_division
      exact List.mem_map_of_mem _ hx
    have hrow : v_scalar_division r g ∈ (M.scalar_division g).elem := by
      unfold Matrix.scalar_division
      exact List.mem_map_of_mem _ hr
    have := mul_dvd_mul_left g ((gcd_dvd_left (M.scalar_division g).matrix_gcd (c.tdiv g)).trans
      (matrix_gcd_dvd_mem _ _ hrow _ hmem))
    rwa [Int.mul_tdiv_cancel' hgx] at this
  have h3 : g * gcd (M.scalar_division g).matrix_gcd (c.tdiv g) ∣ g * 1 := by
    rw [mul_one]
    conv_rhs => rw [← hg]
    unfold gcd at h1 h2 ⊢
    exact Int.dvd_gcd h2 h1
  exact Int.dvd_of_mul_dvd_mul_left hg0 h3

namespace Simplex

/-- The scaled inverse that `Invert` returned commutes with the generators. -/
theorem inverse_cases (S : Simplex) (hS : S.Initialized) :
    ∃ c : Int, (c = S.volume ∨ c = -S.volume) ∧
      (Matrix.ofFn S.dim S.dim fun j k =>
          S.Support_Hyperplanes.get k j * S.multiplicators.getD k 0).toZ S.dim S.dim *
        S.Generators.toZ S.dim S.dim = c • (1 : ZMat S.dim S.dim) := by
  have hv : S.volume ≠ 0 := ne_of_gt hS.volume_pos
  rcases hS.inverse with hi | hi
  · refine ⟨S.volume, Or.inl rfl, ?_⟩
    apply mul_comm_of_scaled_inverse _ _ _ _ hv
    rw [← Matrix.toZ_multiplication S.Generators _ S.dim S.dim S.dim hS.generators_nr
      hS.generators_nc rfl, hi, toZ_scalarMatrix]
  · refine ⟨-S.volume, Or.inr rfl, ?_⟩
    apply mul_comm_of_scaled_inverse _ _ _ _ (neg_ne_zero.2 hv)
    rw [← Matrix.toZ_multiplication S.Generators _ S.dim S.dim S.dim hS.generators_nr
      hS.generators_nc rfl, hi, toZ_scalarMatrix]

theorem transform_vecZ (S : Simplex) (hS : S.Initialized) (p : List Int) :
    vecZ (transform S p) S.dim = fun k =>
      (Matrix.vecMul (vecZ p S.dim)
        ((Matrix.ofFn S.dim S.dim fun j k =>
          S.Support_Hyperplanes.get k j * S.multiplicators.getD k 0).toZ S.dim S.dim) k) %
        S.volume := by
  funext k
  simp only [vecZ]
  rw [transform_getD S p hS.support_nr hS.support_nc k k.isLt, scaled_form_vecMul S p k]

/-- The transformed point, applied to the generators, is `volume` times an integer vector. -/
theorem transform_back (S : Simplex) (hS : S.Initialized) (p : List Int) :
    ∃ w : Fin S.dim → Int,
      Matrix.vecMul (vecZ (transform S p) S.dim) (S.Generators.toZ S.dim S.dim) =
        S.volume • w := by
  obtain ⟨c, hc, hXG⟩ := inverse_cases S hS
  have ht := transform_vecZ S hS p
  generalize (Matrix.ofFn S.dim S.dim fun j k =>
    S.Support_Hyperplanes.get k j * S.multiplicators.getD k 0).toZ S.dim S.dim = XZ at hXG ht
  have hdec : vecZ (transform S p) S.dim =
      Matrix.vecMul (vecZ p S.dim) XZ -
        S.volume • (fun k => Matrix.vecMul (vecZ p S.dim) XZ k / S.volume) := by
    rw [ht]
    funext k
    simp only [Pi.sub_apply, Pi.smul_apply, smul_eq_mul]
    exact Int.emod_def _ _
  rw [hdec, Matrix.sub_vecMul, Matrix.vecMul_vecMul, hXG, Matrix.vecMul_smul,
    Sublattice_Representation.vecMul_smul_right, Matrix.vecMul_one]
  rcases hc with rfl | rfl
  · refine ⟨vecZ p S.dim - Matrix.vecMul
      (fun k => Matrix.vecMul (vecZ p S.dim) XZ k / S.volume) (S.Generators.toZ S.dim S.dim), ?_⟩
    rw [smul_sub]
  · refine ⟨-vecZ p S.dim - Matrix.vecMul
      (fun k => Matrix.vecMul (vecZ p S.dim) XZ k / S.volume) (S.Generators.toZ S.dim S.dim), ?_⟩
    rw [smul_sub, smul_neg, neg_smul]

/-- A point whose transformation is zero is an integer combination of the generators. -/
theorem transform_zero_lattice (S : Simplex) (hS : S.Initialized) (p : List Int)
    (hp : p.length = S.dim) (h0 : ∀ k, k < S.dim → (transform S p).getD k 0 = 0) :
    ∃ z : List Int, z.length = S.dim ∧
      v_sub p (List.replicate S.dim 0) = S.Generators.VxM z := by
  obtain ⟨c, hc, hXG⟩ := inverse_cases S hS
  have ht := transform_vecZ S hS p
  have hv : S.volume ≠ 0 := ne_of_gt hS.volume_pos
  generalize (Matrix.ofFn S.dim S.dim fun j k =>
    S.Support_Hyperplanes.get k j * S.multiplicators.getD k 0).toZ S.dim S.dim = XZ at hXG ht
  have hz : vecZ (transform S p) S.dim = 0 := by
    funext k
    exact h0 k k.isLt
  rw [hz] at ht
  have ha : Matrix.vecMul (vecZ p S.dim) XZ =
      S.volume • (fun k => Matrix.vecMul (vecZ p S.dim) XZ k / S.volume) := by
    funext k
    have := congrFun ht k
    simp only [Pi.zero_apply] at this
    simp only [Pi.smul_apply, smul_eq_mul]
    have e := Int.emod_def (Matrix.vecMul (vecZ p S.dim) XZ k) S.volume
    omega
  have hmul := congrArg (fun v => Matrix.vecMul v (S.Generators.toZ S.dim S.dim)) ha
  simp only at hmul
  rw [Matrix.vecMul_vecMul, hXG, Sublattice_Representation.vecMul_smul_right,
    Matrix.vecMul_one, Matrix.vecMul_smul] at hmul
  have key : ∃ y : Fin S.dim → Int,
      vecZ p S.dim = Matrix.vecMul y (S.Generators.toZ S.dim S.dim) := by
    rcases hc with rfl | rfl
    · refine ⟨fun k => Matrix.vecMul (vecZ p S.dim) XZ k / S.volume, ?_⟩
      funext j
      have := congrFun hmul j
      simp only [Pi.smul_apply, smul_eq_mul] at this
      exact mul_left_cancel₀ hv this
    · refine ⟨-(fun k => Matrix.vecMul (vecZ p S.dim) XZ k / S.volume), ?_⟩
      rw [Matrix.neg_vecMul]
      funext j
      have := congrFun hmul j
      simp only [Pi.smul_apply, smul_eq_mul, Pi.neg_apply] at this ⊢
      have h2 : S.volume * vecZ p S.dim j = S.volume * -(Matrix.vecMul
          (fun k => Matrix.vecMul (vecZ p S.dim) XZ k / S.volume)
          (S.Generators.toZ S.dim S.dim) j) := by
        rw [mul_neg, ← this]; ring
      exact mul_left_cancel₀ hv h2
  obtain ⟨y, hy⟩ := key
  refine ⟨List.ofFn y, by simp, ?_⟩
  apply ext_vecZ _ _ S.dim (by rw [length_v_sub]; simp [hp])
    (by rw [length_VxM, hS.generators_nc])
  rw [vecZ_v_sub p _ S.dim hp (by simp), vecZ_VxM S.Generators _ S.dim S.dim
    hS.generators_nr hS.generators_nc]
  have e1 : vecZ (List.replicate S.dim (0 : Int)) S.dim = 0 := by
    funext k
    simp [vecZ, List.getD_eq_getElem?_getD, List.getElem?_replicate]
  have e2 : vecZ (List.ofFn y) S.dim = y := by
    funext k
    simp [vecZ, List.getD_eq_getElem?_getD, List.getElem?_ofFn]
  rw [e1, e2, sub_zero, hy]

end Simplex

namespace Simplex

/-- For a form that is `1` on every generator, `volume` times the form value of the back
transformed point is the sum of the coordinates of the transformed point. -/
theorem form_value_volume (S : Simplex) (hS : S.Initialized) (hG : S.Generators.wf = true)
    (Form : List Int)
    (hForm : ∀ k, k < S.dim → v_scalar_product (S.Generators.row k) Form = 1) (p : List Int) :
    S.volume * v_scalar_product (ambient S (transform S p)) Form =
      rsum S.dim fun k => (transform S p).getD k 0 := by
  obtain ⟨w, hw⟩ := transform_back S hS p
  have hv : S.volume ≠ 0 := ne_of_gt hS.volume_pos
  have hvx : vecZ (S.Generators.VxM (transform S p)) S.dim = S.volume • w := by
    rw [vecZ_VxM S.Generators _ S.dim S.dim hS.generators_nr hS.generators_nc, hw]
  have hamb : vecZ (ambient S (transform S p)) S.dim = w := by
    unfold ambient
    rw [vecZ_scalar_division, hvx]
    funext j
    simp only [Pi.smul_apply, smul_eq_mul]
    exact Int.mul_tdiv_cancel_left _ hv
  have hlen : (ambient S (transform S p)).length = S.dim := by
    unfold ambient v_scalar_division
    rw [List.length_map, length_VxM, hS.generators_nc]
  have hF : ∀ k : Fin S.dim,
      (∑ i : Fin S.dim, S.Generators.toZ S.dim S.dim k i * Form.getD i 0) = 1 := by
    intro k
    have := hForm k k.isLt
    unfold v_scalar_product at this
    rw [Matrix.row_length_of_wf S.Generators hG k (by rw [hS.generators_nr]; exact k.isLt),
      hS.generators_nc, rsum_eq_sum] at this
    exact this
  unfold v_scalar_product
  rw [hlen, rsum_eq_sum, rsum_eq_sum, Finset.mul_sum]
  have e1 : ∀ i : Fin S.dim,
      S.volume * ((ambient S (transform S p)).getD i 0 * Form.getD i 0) =
        ∑ k : Fin S.dim, vecZ (transform S p) S.dim k *
          (S.Generators.toZ S.dim S.dim k i * Form.getD i 0) := by
    intro i
    have h1 : (ambient S (transform S p)).getD i 0 = w i := congrFun hamb i
    have h2 := congrFun hw i
    simp only [Pi.smul_apply, smul_eq_mul, Matrix.vecMul, Matrix.dotProduct] at h2
    rw [h1, ← mul_assoc, ← h2, Finset.sum_mul]
    apply Finset.sum_congr rfl
    intro k _
    ring
  rw [Finset.sum_congr rfl (fun i _ => e1 i), Finset.sum_comm]
  apply Finset.sum_congr rfl
  intro k _
  rw [← Finset.mul_sum, hF k, mul_one]
  rfl

theorem rsum_le_count (n : Nat) (f : Nat → Int) (B : Int)
    (h : ∀ k, k < n → 0 ≤ f k ∧ f k ≤ B) :
    rsum n f ≤ (((List.range n).filter fun k => decide (f k ≠ 0)).length : Int) * B := by
  induction n with
  | zero => simp [rsum]
  | succ n ih =>
    have ih' := ih (fun k hk => h k (by omega))
    have hn := h n (by omega)
    have e : rsum (n + 1) f = rsum n f + f n := by
      simp [rsum, List.range_succ]
    rw [e, List.range_succ, List.filter_append, List.length_append]
    by_cases c : f n ≠ 0
    · have : ([n].filter fun k => decide (f k ≠ 0)) = [n] := by
        simp [List.filter, c]
      rw [this]
      push_cast
      simp only [List.length_singleton, Nat.cast_one]
      nlinarith [hn.1, hn.2]
    · have : ([n].filter fun k => decide (f k ≠ 0)) = [] := by
        simp [List.filter, c]
      rw [this]
      have c' : f n = 0 := by simpa using c
      simp only [List.length_nil, Nat.cast_zero, add_zero]
      rw [c']
      simpa using ih'

theorem rsum_pos_of_ne (n : Nat) (f : Nat → Int) (h : ∀ k, k < n → 0 ≤ f k)
    (k0 : Nat) (hk0 : k0 < n) (hne : f k0 ≠ 0) : 0 < rsum n f := by
  rw [rsum_eq_sum]
  have h1 : f k0 ≤ ∑ i : Fin n, f i :=
    Finset.single_le_sum (f := fun i : Fin n => f i) (fun i _ => h i i.isLt)
      (Finset.mem_univ (⟨k0, hk0⟩ : Fin n))
  have := h k0 hk0
  omega

end Simplex

namespace Simplex

/-- The index `facet count - form value` of an enumerated point, for a form that is `1` on
every generator. -/
theorem h_index_bounds (S : Simplex) (hS : S.Initialized) (hU : S.OnePerClass)
    (hG : S.Generators.wf = true) (Form : List Int)
    (hForm : ∀ k, k < S.dim → v_scalar_product (S.Generators.row k) Form = 1)
    (hNF : ∀ nf ∈ S.New_Face, 1 ≤ nf ∧ nf ≤ (S.dim : Int))
    (p : List Int) (hp : in_box S.diagonal p) (hne : p ≠ List.replicate S.dim 0) :
    ∃ h : Int, h_index S Form p = some h ∧ 1 ≤ h ∧ h ≤ (S.dim : Int) - 1 := by
  have hplen : p.length = S.dim := by rw [in_box_length _ _ hp, hS.diagonal_length]
  have hz := in_box_zero S.diagonal hS.diagonal_pos
  rw [hS.diagonal_length] at hz
  have hnz : ∃ k0, k0 < S.dim ∧ (transform S p).getD k0 0 ≠ 0 := by
    by_contra hcon
    push_neg at hcon
    exact hne (hU p _ hp hz (transform_zero_lattice S hS p hplen hcon))
  obtain ⟨k0, hk0, hk0ne⟩ := hnz
  have hb := fun k hk => transform_bounds S hS p k hk
  have hsum := form_value_volume S hS hG Form hForm p
  have hpos := rsum_pos_of_ne S.dim (fun k => (transform S p).getD k 0)
    (fun k hk => (hb k hk).1) k0 hk0 hk0ne
  have hle := rsum_le_count S.dim (fun k => (transform S p).getD k 0) (S.volume - 1)
    (fun k hk => ⟨(hb k hk).1, Int.le_sub_one_of_lt (hb k hk).2⟩)
  simp only at hle
  have hidx : h_index S Form p = some
      ((((List.range S.dim).filter fun (k : Nat) =>
        decide (((k : Int) + 1) ∈ S.New_Face ∨ (transform S p).getD k 0 ≠ 0)).length : Int) -
        v_scalar_product (ambient S (transform S p)) Form) := by
    unfold h_index
    rw [facet_count_spec S.dim S.New_Face _ hNF]
    rfl
  have hvol := hS.volume_pos
  have hsub := List.monotone_filter_right (List.range S.dim)
    (p := fun k => decide ((transform S p).getD k 0 ≠ 0))
    (q := fun (k : Nat) => decide (((k : Int) + 1) ∈ S.New_Face ∨ (transform S p).getD k 0 ≠ 0))
    (by
      intro a ha
      simp only [decide_eq_true_eq] at ha ⊢
      exact Or.inr ha)
  have hc1 := hsub.length_le
  have hc2 := List.length_filter_le
    (fun (k : Nat) => decide (((k : Int) + 1) ∈ S.New_Face ∨ (transform S p).getD k 0 ≠ 0))
    (List.range S.dim)
  rw [List.length_range] at hc2
  refine ⟨_, hidx, ?_, ?_⟩
  · generalize ((List.range S.dim).filter fun k =>
      decide ((transform S p).getD k 0 ≠ 0)).length = nz at hle hc1
    generalize ((List.range S.dim).filter fun (k : Nat) =>
      decide (((k : Int) + 1) ∈ S.New_Face ∨ (transform S p).getD k 0 ≠ 0)).length = cnt
      at hc1 hc2
    generalize v_scalar_product (ambient S (transform S p)) Form = hom at hsum
    generalize rsum S.dim (fun k => (transform S p).getD k 0) = s at hsum hpos hle
    have h1 : S.volume * hom ≤ (nz : Int) * (S.volume - 1) := by rw [hsum]; exact hle
    have h2 : hom < (nz : Int) := by
      by_contra hge
      have : (nz : Int) * S.volume ≤ hom * S.volume :=
        mul_le_mul_of_nonneg_right (by omega) (le_of_lt hvol)
      have hnz0 : (0 : Int) < nz := by
        by_contra h0
        have : (nz : Int) = 0 := by omega
        rw [this, zero_mul] at h1
        omega
      nlinarith
    have h3 : (nz : Int) ≤ cnt := by exact_mod_cast hc1
    omega
  · generalize ((List.range S.dim).filter fun (k : Nat) =>
      decide (((k : Int) + 1) ∈ S.New_Face ∨ (transform S p).getD k 0 ≠ 0)).length = cnt
      at hc2
    generalize v_scalar_product (ambient S (transform S p)) Form = hom at hsum
    generalize rsum S.dim (fun k => (transform S p).getD k 0) = s at hsum hpos
    have h1 : 0 < hom := by
      by_contra hle0
      have : S.volume * hom ≤ 0 := mul_nonpos_of_nonneg_of_nonpos (le_of_lt hvol) (by omega)
      omega
    have h3 : (cnt : Int) ≤ S.dim := by exact_mod_cast hc2
    omega

/-- The traversal of the h-vector does not leave `H_Vector` when every index is a
position of it. -/
theorem h_fold_total (S : Simplex) (Form : List Int) : ∀ (pts : List (List Int))
    (HE : List (List Int)) (HV : List Int),
    (∀ p ∈ pts, ∃ h : Int, h_index S Form p = some h ∧ 0 ≤ h ∧ h < HV.length) →
    ∃ st, pts.foldl (fun (st : Option (List (List Int) × List Int)) p =>
        st.bind fun st => h_step S Form (transform S p) st) (some (HE, HV)) = some st := by
  intro pts
  induction pts with
  | nil => intro HE HV _; exact ⟨_, rfl⟩
  | cons p t ih =>
    intro HE HV h
    obtain ⟨hh, h1, h2, h3⟩ := h p (by simp)
    simp only [List.foldl_cons, Option.some_bind]
    unfold h_index at h1
    cases hc : facet_count S.dim S.New_Face (transform S p) with
    | none => rw [hc] at h1; cases h1
    | some counter =>
      rw [hc] at h1
      have h1 : (counter : Int) - v_scalar_product (ambient S (transform S p)) Form = hh :=
        Option.some.inj h1
      have hstep : h_step S Form (transform S p) (HE, HV) =
          some (if v_scalar_product (ambient S (transform S p)) Form = 1
            then HE ++ [ambient S (transform S p)] else HE,
            HV.set hh.toNat (HV.getD hh.toNat 0 + 1)) := by
        unfold h_step
        rw [hc]
        simp only
        rw [h1]
        unfold increment
        have hin : 0 ≤ hh ∧ hh < (HV.length : Int) := ⟨h2, h3⟩
        rw [if_pos hin]
        rfl
      rw [hstep]
      apply ih
      intro q hq
      obtain ⟨hq1, a, b, c⟩ := h q (by simp [hq])
      exact ⟨hq1, a, b, by rw [List.length_set]; exact c⟩

end Simplex

namespace Simplex

theorem remap_inner (key : List Int) (NF : List Int) (i : Nat) (hi : i < NF.length) :
    ∀ m : Nat,
    ((List.range m).foldl (fun (NF : List Int) j =>
      if NF.getD i 0 = key.getD j 0 then NF.set i ((j : Int) + 1) else NF) NF).length =
        NF.length ∧
    ∀ k, ((List.range m).foldl (fun (NF : List Int) j =>
      if NF.getD i 0 = key.getD j 0 then NF.set i ((j : Int) + 1) else NF) NF).getD k 0 =
        if k = i then remap_entry m key (NF.getD i 0) else NF.getD k 0 := by
  intro m
  induction m with
  | zero =>
    refine ⟨rfl, fun k => ?_⟩
    by_cases e : k = i
    · rw [if_pos e, e]; rfl
    · rw [if_neg e]; rfl
  | succ m ih =>
    obtain ⟨h1, h2⟩ := ih
    rw [List.range_succ, List.foldl_append]
    simp only [List.foldl_cons, List.foldl_nil]
    generalize (List.range m).foldl (fun (NF : List Int) j =>
      if NF.getD i 0 = key.getD j 0 then NF.set i ((j : Int) + 1) else NF) NF = R at h1 h2
    have hRi : R.getD i 0 = remap_entry m key (NF.getD i 0) := by rw [h2, if_pos rfl]
    have hent : remap_entry (m + 1) key (NF.getD i 0) =
        if remap_entry m key (NF.getD i 0) = key.getD m 0 then (m : Int) + 1
        else remap_entry m key (NF.getD i 0) := by
      simp [remap_entry, List.range_succ, List.foldl_append]
    rw [hent, hRi]
    by_cases c : remap_entry m key (NF.getD i 0) = key.getD m 0
    · rw [if_pos c]
      refine ⟨by rw [List.length_set, h1], fun k => ?_⟩
      rw [getD_set_int]
      by_cases e : k = i
      · rw [if_pos ⟨e, by rw [h1]; exact hi⟩, if_pos e, if_pos c]
      · rw [if_neg (fun hh => e hh.1), if_neg e, h2, if_neg e]
    · rw [if_neg c]
      refine ⟨h1, fun k => ?_⟩
      by_cases e : k = i
      · rw [if_pos e, if_neg c, e, hRi]
      · rw [if_neg e, h2, if_neg e]

theorem remap_outer (dim : Nat) (key : List Int) (NF : List Int) : ∀ m : Nat, m ≤ NF.length →
    ((List.range m).foldl (fun (NF : List Int) i =>
      (List.range dim).foldl (fun (NF : List Int) j =>
        if NF.getD i 0 = key.getD j 0 then NF.set i ((j : Int) + 1) else NF) NF) NF).length =
        NF.length ∧
    ∀ k, ((List.range m).foldl (fun (NF : List Int) i =>
      (List.range dim).foldl (fun (NF : List Int) j =>
        if NF.getD i 0 = key.getD j 0 then NF.set i ((j : Int) + 1) else NF) NF) NF).getD k 0 =
        if k < m then remap_entry dim key (NF.getD k 0) else NF.getD k 0 := by
  intro m
  induction m with
  | zero => intro _; exact ⟨rfl, fun k => by rw [if_neg (by omega)]; rfl⟩
  | succ m ih =>
    intro hm
    obtain ⟨h1, h2⟩ := ih (by omega)
    rw [List.range_succ, List.foldl_append]
    simp only [List.foldl_cons, List.foldl_nil]
    generalize (List.range m).foldl (fun (NF : List Int) i =>
      (List.range dim).foldl (fun (NF : List Int) j =>
        if NF.getD i 0 = key.getD j 0 then NF.set i ((j : Int) + 1) else NF) NF) NF = R
      at h1 h2
    obtain ⟨g1, g2⟩ := remap_inner key R m (by rw [h1]; omega) dim
    refine ⟨by rw [g1, h1], fun k => ?_⟩
    rw [g2]
    by_cases e : k = m
    · rw [if_pos e, if_pos (by omega), h2, if_neg (by omega), e]
    · rw [if_neg e, h2]
      by_cases c : k < m
      · rw [if_pos c, if_pos (by omega)]
      · rw [if_neg c, if_neg (by omega)]

theorem remap_new_face_eq_map (dim : Nat) (key NF : List Int) :
    remap_new_face dim key NF = NF.map (remap_entry dim key) := by
  obtain ⟨h1, h2⟩ := remap_outer dim key NF NF.length (le_refl _)
  unfold remap_new_face
  apply ext_vecZ _ _ NF.length h1 (by simp)
  funext k
  simp only [vecZ]
  rw [h2, if_pos k.isLt, List.getD_eq_getElem NF 0 k.isLt,
    List.getD_eq_getElem (NF.map (remap_entry dim key)) 0 (by simp), List.getElem_map]

theorem increasing_key_ge (key : List Int) (hkey : key.Pairwise (fun a b => a < b))
    (hpos : ∀ k ∈ key, 0 < k) : ∀ j, j < key.length → (j : Int) + 1 ≤ key.getD j 0 := by
  intro j
  induction j with
  | zero =>
    intro hj
    rw [List.getD_eq_getElem _ _ hj]
    have := hpos _ (List.getElem_mem hj)
    omega
  | succ j ih =>
    intro hj
    have h1 := ih (by omega)
    have h2 := (List.pairwise_iff_getElem.1 hkey) j (j + 1) (by omega) hj (by omega)
    rw [List.getD_eq_getElem _ _ (by omega)] at h1
    rw [List.getD_eq_getElem _ _ hj]
    push_cast
    omega

theorem remap_entry_increasing (key : List Int) (hkey : key.Pairwise (fun a b => a < b))
    (hpos : ∀ k ∈ key, 0 < k) (j0 : Nat) (hj0 : j0 < key.length) : ∀ m, m ≤ key.length →
    remap_entry m key (key.getD j0 0) = if j0 < m then (j0 : Int) + 1 else key.getD j0 0 := by
  intro m
  induction m with
  | zero => intro _; rw [if_neg (by omega)]; rfl
  | succ m ih =>
    intro hm
    have e : remap_entry (m + 1) key (key.getD j0 0) =
        if remap_entry m key (key.getD j0 0) = key.getD m 0 then (m : Int) + 1
        else remap_entry m key (key.getD j0 0) := by
      simp [remap_entry, List.range_succ, List.foldl_append]
    rw [e, ih (by omega)]
    have hlt := List.pairwise_iff_getElem.1 hkey
    by_cases c1 : j0 < m
    · have hge := increasing_key_ge key hkey hpos m (by omega)
      have hne : ¬ ((j0 : Int) + 1 = key.getD m 0) := by omega
      rw [if_pos c1, if_pos (show j0 < m + 1 by omega), if_neg hne]
    · rw [if_neg c1]
      by_cases c2 : j0 = m
      · subst c2
        rw [if_pos rfl, if_pos (show j0 < j0 + 1 by omega)]
      · have h := hlt m j0 (by omega) hj0 (by omega)
        have hne : ¬ (key.getD j0 0 = key.getD m 0) := by
          rw [List.getD_eq_getElem _ _ hj0,
            List.getD_eq_getElem _ _ (show m < key.length by omega)]
          omega
        rw [if_neg hne, if_neg (show ¬ j0 < m + 1 by omega)]

/-- For a strictly increasing key of positive indices the re-indexing loop maps every entry
of `New_Face` that occurs in `key` to its 1-based position in `key`. -/
theorem remap_new_face_increasing (key NF : List Int)
    (hkey : key.Pairwise (fun a b => a < b)) (hpos : ∀ k ∈ key, 0 < k)
    (hNF : ∀ nf ∈ NF, nf ∈ key) :
    remap_new_face key.length key NF = NF.map (key_position key) := by
  rw [remap_new_face_eq_map]
  apply List.map_congr_left
  intro v hv
  have hmem := hNF v hv
  obtain ⟨j0, hj0, rfl⟩ := List.getElem_of_mem hmem
  have hnd : key.Nodup := hkey.imp (fun h => ne_of_lt h)
  unfold key_position
  rw [if_pos hmem, List.indexOf_getElem hnd j0 hj0]
  have := remap_entry_increasing key hkey hpos j0 hj0 key.length (le_refl _)
  rw [List.getD_eq_getElem _ _ hj0, if_pos hj0] at this
  exact this

end Simplex

namespace Simplex

theorem hilbert_basis_interior_status (S T : Simplex) (h : hilbert_basis_interior S = some T) :
    T.status = "Hilbert Basis interior calculated." := by
  unfold hilbert_basis_interior at h
  split at h
  · exact Option.noConfusion h
  · split at h
    · exact Option.noConfusion h
    · rw [← Option.some.inj h]

theorem hilbert_basis_interior_Map_fall_through (Invert : Matrix → Matrix × List Int × Int)
    (S : Simplex) (Map : Matrix) (h1 : S.status ≠ "non initialized")
    (h2 : S.status ≠ "initialized") (h3 : S.status ≠ "key initialized") :
    hilbert_basis_interior_Map Invert S Map = some S := by
  unfold hilbert_basis_interior_Map
  by_cases h0 : S.status ≠ "hilbert basis calculated"
  · rw [if_pos h0, if_neg h1, if_neg h2, if_neg h3]
  · rw [if_neg h0]

theorem hilbert_basis_interior_Map_computed (Invert : Matrix → Matrix × List Int × Int)
    (S : Simplex) (Map : Matrix) (h : S.status = "Hilbert Basis interior calculated.") :
    hilbert_basis_interior_Map Invert S Map = some S :=
  hilbert_basis_interior_Map_fall_through Invert S Map (by rw [h]; decide) (by rw [h]; decide)
    (by rw [h]; decide)

theorem hilbert_basis_interior_Map_initialized (Invert : Matrix → Matrix × List Int × Int)
    (S : Simplex) (Map : Matrix) (h : S.status = "initialized") :
    hilbert_basis_interior_Map Invert S Map = hilbert_basis_interior S := by
  unfold hilbert_basis_interior_Map
  rw [if_pos (by rw [h]; decide), if_neg (by rw [h]; decide), if_pos h]

theorem hilbert_basis_interior_returns (S : Simplex) (hS : S.Initialized) :
    ∃ T, hilbert_basis_interior S = some T := by
  obtain ⟨cs, h1, _⟩ := candidates_set S hS
  unfold hilbert_basis_interior
  rw [if_neg (by rw [hS.status]; decide)]
  simp [reduction_phase, h1]

end Simplex

namespace Sublattice_Representation

end Sublattice_Representation

namespace Sublattice_Representation

/-- C1 (round trip): for every representation that is flagged as the identity or whose
fields satisfy `A * B = c * I_rank` with `c ≠ 0`, and every vector `v` of length `rank`,
`to_sublattice (from_sublattice v) = v`. -/
theorem C1_round_trip (S : Sublattice_Representation) (v : List Int) (hv : v.length = S.rank)
    (h : S.is_identity = true ∨ (S.Inv ∧ S.c ≠ 0)) :
    S.to_sublattice (S.from_sublattice v) = v := by
  by_cases hid : S.is_identity = true
  · simp [to_sublattice, from_sublattice, hid]
  · rcases h with h | ⟨hinv, hc⟩
    · exact absurd h hid
    · exact round_trip_general S hinv hc v hv (by simpa using hid)

theorem C1_round_trip_witness :
    [5, -7].length = exRep.rank ∧ (exRep.is_identity = true ∨ (exRep.Inv ∧ exRep.c ≠ 0)) ∧
      exRep.to_sublattice (exRep.from_sublattice [5, -7]) = [5, -7] :=
  ⟨by decide, Or.inr (by decide), C1_round_trip exRep [5, -7] (by decide) (Or.inr (by decide))⟩

theorem exOps_invert_contract : ∀ P, InvertContract P (exOps.invert_unprotected P) := by
  intro P
  unfold InvertContract exOps
  by_cases h : P = ⟨2, 2, [[2, 0], [0, 2]]⟩
  · subst h; intro _; decide
  · simp [h]

theorem C2_initialise_invariant_witness :
    RowEchelonContract ⟨2, 2, [[2, 0], [0, 2]]⟩
        (exOps.row_echelon_reduce ⟨2, 2, [[2, 0], [0, 2]]⟩) ∧
      (initialise exOps (identityRep 0) ⟨2, 2, [[2, 0], [0, 2]]⟩ false).2 = true ∧
      (initialise exOps (identityRep 0) ⟨2, 2, [[2, 0], [0, 2]]⟩ false).1.is_identity = false ∧
      (initialise exOps (identityRep 0) ⟨2, 2, [[2, 0], [0, 2]]⟩ false).1.Inv :=
  ⟨fun _ => by decide, by decide, by decide,
    C2_initialise_invariant exOps (identityRep 0) ⟨2, 2, [[2, 0], [0, 2]]⟩ false
      (fun _ => by decide) exOps_invert_contract (fun _ _ _ => ⟨rfl, rfl⟩) (by decide) (by decide)⟩

/-- C3, the claim as stated fails: for the representations of `2Z^2` and of the lattice
of `(1,2)`, `(0,3)` and the vector `(3,10)`, the composed map gives `(1,0)` and the two
maps in sequence give `(1,1)`. -/
theorem C3_compose_law_counterexample :
    exRepTwice.Valid ∧ exRepSkew.Valid ∧ exRepTwice.rank = exRepSkew.dim ∧
      [3, 10].length = exRepTwice.dim ∧
      (exRepTwice.compose exRepSkew).map (fun T => T.to_sublattice [3, 10]) = some [1, 0] ∧
      exRepSkew.to_sublattice (exRepTwice.to_sublattice [3, 10]) = [1, 1] := by
  decide

theorem C3_compose_law_witness :
    (exRepTwice.compose exRepSkew).isSome = true ∧
      divides exRepTwice.c (exRepTwice.B.VxM [2, 4]) ∧
      divides exRepSkew.c (exRepSkew.B.VxM (exRepTwice.to_sublattice [2, 4])) ∧
      ((exRepTwice.compose exRepSkew).getD exRepTwice).to_sublattice [2, 4]
        = exRepSkew.to_sublattice (exRepTwice.to_sublattice [2, 4]) :=
  ⟨by decide, by decide, by decide,
    C3_compose_law exRepTwice exRepSkew ((exRepTwice.compose exRepSkew).getD exRepTwice) [2, 4]
      (by decide) (by decide) (by decide) (by decide) (by decide) (by decide) (by decide)
      (by decide) (by decide)⟩

theorem C4_compose_preserves_invariant_witness :
    exRepTwice.Valid ∧ exRepSkew.Valid ∧ exRepTwice.rank = exRepSkew.dim ∧
      ∃ T, exRepTwice.compose exRepSkew = some T ∧ T.Inv ∧ T.rank = exRepSkew.rank ∧
        T.dim = exRepTwice.dim :=
  ⟨by decide, by decide, by decide,
    (C4_compose_preserves_invariant exRepTwice exRepSkew (by decide) (by decide) (by decide)).1⟩

end Sublattice_Representation

namespace Simplex

/-- C5 (Hilbert basis minimality): for every initialized simplex the reduction phase of
`hilbert_basis_interior` ends, and the vectors it accepts (norm field followed by the `dim`
support coordinates) form an antichain: no two distinct accepted vectors `a`, `b` satisfy
`a <= b` in every coordinate. -/
theorem C5_hilbert_basis_antichain (S : Simplex) (hS : S.Initialized) :
    ∃ l, reduction_phase S = some l ∧ Antichain S.dim l := by
  obtain ⟨cs, h1, h2⟩ := candidates_set S hS
  refine ⟨reduce_all S.dim cs [], by simp [reduction_phase, h1, hS.basis_empty], ?_⟩
  obtain ⟨_, _, h3⟩ := reduce_all_inv S.dim cs h2 cs [] [] (by simp) (by simp) (by simp)
    (by simp) (by simp)
  exact antichain_of_no_dominance S.dim _ h3

end Simplex

namespace Simplex

theorem exSimplex_initialized : exSimplex.Initialized where
  status := by decide
  basis_empty := by decide
  volume_pos := by decide
  diagonal_length := by decide
  diagonal_pos := by decide
  generators_nr := by decide
  generators_nc := by decide
  support_nr := by decide
  support_nc := by decide
  inverse := Or.inl (by decide)
  residues := by
    intro p hp
    have hdim : exSimplex.dim = 2 := by decide
    rw [hdim] at hp
    match p, hp with
    | [a, b], _ =>
      refine ⟨[a % 2, b % 3], [a / 2, b / 3], ?_, by rw [hdim]; rfl, ?_⟩
      · have hd : exSimplex.diagonal = [2, 3] := by decide
        rw [hd]
        simp only [in_box, and_true]
        omega
      · have hG : exSimplex.Generators = ⟨2, 2, [[2, 0], [0, 3]]⟩ := by decide
        rw [hG]
        simp [v_sub, Matrix.VxM, rsum, Matrix.get, List.range_succ]
        omega

theorem C5_hilbert_basis_antichain_witness :
    exSimplex.Initialized ∧ ∃ l, reduction_phase exSimplex = some l ∧ Antichain exSimplex.dim l :=
  ⟨exSimplex_initialized, C5_hilbert_basis_antichain exSimplex exSimplex_initialized⟩

/-- C6 (amended): for an initialized simplex whose diagonal entries are positive with
product `volume`, the enumeration loop of `hilbert_basis_interior` ends and processes
exactly `volume - 1` box points (every box point except the origin); `Candidates` is
built from these points. -/
theorem C6_enumeration_count (S : Simplex) (hlen : S.diagonal.length = S.dim)
    (hpos : ∀ d ∈ S.diagonal, 0 < d) (hvol : S.diagonal.prod = S.volume) :
    ∃ pts, box_points S.dim S.diagonal = some pts ∧
      candidates S = some (pts.foldl (fun cs p => set_insert (candidate S p) cs) []) ∧
      (pts.length : Int) = S.volume - 1 := by
  refine ⟨_, box_points_eq S.dim S.diagonal hlen hpos, ?_, ?_⟩
  · unfold candidates
    rw [box_loop_from_zero S.dim S.diagonal _ hlen hpos]
  · rw [(successors_from_zero S.dim S.diagonal hlen hpos).1, hvol]

theorem C6_enumeration_count_witness :
    exSimplex.diagonal.length = exSimplex.dim ∧ (∀ d ∈ exSimplex.diagonal, 0 < d) ∧
      exSimplex.diagonal.prod = exSimplex.volume ∧
      ∃ pts, box_points exSimplex.dim exSimplex.diagonal = some pts ∧
        candidates exSimplex =
          some (pts.foldl (fun cs p => set_insert (candidate exSimplex p) cs) []) ∧
        (pts.length : Int) = exSimplex.volume - 1 :=
  ⟨by decide, by decide, by decide,
    C6_enumeration_count exSimplex (by decide) (by decide) (by decide)⟩

/-- C6, the claim as stated fails: the simplex of the generators `(2,0)`, `(0,3)` has
`diagonal = (2,3)` and `volume = 6`, and the loop processes `5` points. -/
theorem C6_enumeration_count_counterexample :
    exSimplex.status = "initialized" ∧ exSimplex.diagonal = [2, 3] ∧ exSimplex.volume = 6 ∧
      box_points exSimplex.dim exSimplex.diagonal =
        some [[0, 1], [0, 2], [1, 0], [1, 1], [1, 2]] := by
  decide

/-- C7 (amended): the simplex built from the generators `(2,0)`, `(0,3)` with the inversion
giving the pivots `2` and `3` has `volume = 6` and `diagonal = (2,3)`, and after
`hilbert_basis_interior` the list `Hilbert_Basis` is `(0,1)`, `(1,0)`. -/
theorem C7_scenario :
    (Simplex.ofKey exInvert [1, 2] ⟨2, 2, [[2, 0], [0, 3]]⟩).volume = 6 ∧
      (Simplex.ofKey exInvert [1, 2] ⟨2, 2, [[2, 0], [0, 3]]⟩).diagonal = [2, 3] ∧
      (hilbert_basis_interior (Simplex.ofKey exInvert [1, 2] ⟨2, 2, [[2, 0], [0, 3]]⟩)).map
        (fun T => (T.Hilbert_Basis, T.status)) =
        some ([[0, 1], [1, 0]], "Hilbert Basis interior calculated.") := by
  decide

/-- C7, the claim as stated fails: `(1,1)` is not in the Hilbert basis of the scenario. -/
theorem C7_scenario_counterexample :
    (hilbert_basis_interior (Simplex.ofKey exInvert [1, 2] ⟨2, 2, [[2, 0], [0, 3]]⟩)).map
      (fun T => decide ([1, 1] ∈ T.Hilbert_Basis)) = some false := by
  decide

/-- C8 (amended): in the h-vector traversals the facet count of an enumerated point is the
number of indices `k` in `0..dim-1` such that `k+1` occurs in `New_Face` or the `k`-th
reduced coordinate of the point is not zero. -/
theorem C8_facet_count (S : Simplex) (point : List Int)
    (hNF : ∀ nf ∈ S.New_Face, 1 ≤ nf ∧ nf ≤ (S.dim : Int)) :
    facet_count S.dim S.New_Face (transform S point) =
      some ((List.range S.dim).filter fun (k : Nat) =>
        decide (((k : Int) + 1) ∈ S.New_Face ∨ (transform S point).getD k 0 ≠ 0)).length :=
  facet_count_spec S.dim S.New_Face (transform S point) hNF

theorem C8_facet_count_witness :
    (∀ nf ∈ exSimplexFace.New_Face, 1 ≤ nf ∧ nf ≤ (exSimplexFace.dim : Int)) ∧
      facet_count exSimplexFace.dim exSimplexFace.New_Face (transform exSimplexFace [0, 1]) =
        some ((List.range exSimplexFace.dim).filter fun (k : Nat) =>
          decide (((k : Int) + 1) ∈ exSimplexFace.New_Face ∨
            (transform exSimplexFace [0, 1]).getD k 0 ≠ 0)).length :=
  ⟨by decide, C8_facet_count exSimplexFace [0, 1] (by decide)⟩

/-- C8, the claim as stated fails: for the enumerated point `(1,1)` of the simplex of
`(2,0)`, `(0,3)` with an empty `New_Face` the reduced coordinates are `(3,2)`, none of them
zero, and the facet count is `2`, not `0`. -/
theorem C8_facet_count_counterexample :
    exSimplexH.New_Face = [] ∧ transform exSimplexH [1, 1] = [3, 2] ∧
      facet_count exSimplexH.dim exSimplexH.New_Face (transform exSimplexH [1, 1]) = some 2 ∧
      ((List.range exSimplexH.dim).filter fun (k : Nat) =>
        decide (((k : Int) + 1) ∈ exSimplexH.New_Face ∨
          (transform exSimplexH [1, 1]).getD k 0 = 0)).length = 0 := by
  decide

theorem h_traversal_spec (S : Simplex) (Form : List Int) (hlen : S.diagonal.length = S.dim)
    (hpos : ∀ d ∈ S.diagonal, 0 < d) (HE' : List (List Int)) (HV' : List Int)
    (h : (successors S.diagonal (box_fuel S.dim S.diagonal) (List.replicate S.dim 0)).foldl
      (fun (st : Option (List (List Int) × List Int)) p =>
        st.bind fun st => h_step S Form (transform S p) st)
      (some (S.Homogeneous_Elements, S.H_Vector)) = some (HE', HV')) :
    ∃ pts, box_points S.dim S.diagonal = some pts ∧
      HE' = S.Homogeneous_Elements ++ (pts.map fun p => ambient S (transform S p)).filter
        (fun Help => decide (v_scalar_product Help Form = 1)) ∧
      HV'.length = S.H_Vector.length ∧
      (∀ p ∈ pts, ∃ h : Int, h_index S Form p = some h ∧ 0 ≤ h ∧ h < S.H_Vector.length) ∧
      ∀ i : Nat, HV'.getD i 0 = S.H_Vector.getD i 0 +
        ((pts.filter fun p => decide (h_index S Form p = some (i : Int))).length : Int) :=
  ⟨_, box_points_eq S.dim S.diagonal hlen hpos, h_fold_spec S Form _ _ _ _ _ h⟩

/-- C9 (amended): in `hilbert_basis_interior_h_vector(Form)` every enumerated point
increments `H_Vector[facet count - hom]` by one, whatever its form value `hom` is, and the
points with `hom = 1` are in addition appended to `Homogeneous_Elements`, in the order of
the enumeration; nothing else changes the two members. -/
theorem C9_histogram_and_degree_one (S T : Simplex) (Form : List Int)
    (hlen : S.diagonal.length = S.dim) (hpos : ∀ d ∈ S.diagonal, 0 < d)
    (hT : hilbert_basis_interior_h_vector S Form = some T) :
    ∃ pts, box_points S.dim S.diagonal = some pts ∧
      T.Homogeneous_Elements = S.Homogeneous_Elements ++
        (pts.map fun p => ambient S (transform S p)).filter
          (fun Help => decide (v_scalar_product Help Form = 1)) ∧
      T.H_Vector.length = S.H_Vector.length ∧
      (∀ p ∈ pts, ∃ h : Int, h_index S Form p = some h ∧ 0 ≤ h ∧ h < S.H_Vector.length) ∧
      ∀ i : Nat, T.H_Vector.getD i 0 = S.H_Vector.getD i 0 +
        ((pts.filter fun p => decide (h_index S Form p = some (i : Int))).length : Int) := by
  unfold hilbert_basis_interior_h_vector at hT
  by_cases hs : S.status ≠ "initialized"
  · rw [if_pos hs] at hT; simp at hT
  rw [if_neg hs, box_loop_from_zero S.dim S.diagonal _ hlen hpos] at hT
  have hp := h_fold_project S Form
    (successors S.diagonal (box_fuel S.dim S.diagonal) (List.replicate S.dim 0))
    (some ((S.Homogeneous_Elements, S.H_Vector), []))
  generalize (successors S.diagonal (box_fuel S.dim S.diagonal) (List.replicate S.dim 0)).foldl
    (fun (st : Option ((List (List Int) × List Int) × List (List Int))) p =>
        st.bind fun st =>
          (h_step S Form (transform S p) st.1).map fun hs =>
            (hs, set_insert (candidate S p) st.2))
    (some ((S.Homogeneous_Elements, S.H_Vector), [])) = r at hT hp
  cases r with
  | none => simp at hT
  | some st =>
    simp only [Option.some.injEq] at hT
    subst hT
    simp only [Option.map_some'] at hp
    exact h_traversal_spec S Form hlen hpos st.1.1 st.1.2 hp.symm

theorem C9_histogram_and_degree_one_witness :
    exSimplexH.diagonal.length = exSimplexH.dim ∧ (∀ d ∈ exSimplexH.diagonal, 0 < d) ∧
      (hilbert_basis_interior_h_vector exSimplexH [1, 0]).isSome = true ∧
      ∃ pts, box_points exSimplexH.dim exSimplexH.diagonal = some pts ∧
        ((hilbert_basis_interior_h_vector exSimplexH [1, 0]).getD exSimplexH).Homogeneous_Elements
          = exSimplexH.Homogeneous_Elements ++
            (pts.map fun p => ambient exSimplexH (transform exSimplexH p)).filter
              (fun Help => decide (v_scalar_product Help [1, 0] = 1)) ∧
        ((hilbert_basis_interior_h_vector exSimplexH [1, 0]).getD exSimplexH).H_Vector.length
          = exSimplexH.H_Vector.length ∧
        (∀ p ∈ pts, ∃ h : Int, h_index exSimplexH [1, 0] p = some h ∧ 0 ≤ h ∧
          h < exSimplexH.H_Vector.length) ∧
        ∀ i : Nat,
          ((hilbert_basis_interior_h_vector exSimplexH [1, 0]).getD exSimplexH).H_Vector.getD i 0
            = exSimplexH.H_Vector.getD i 0 +
              ((pts.filter fun p =>
                decide (h_index exSimplexH [1, 0] p = some (i : Int))).length : Int) :=
  ⟨by decide, by decide, by decide,
    C9_histogram_and_degree_one exSimplexH
      ((hilbert_basis_interior_h_vector exSimplexH [1, 0]).getD exSimplexH) [1, 0]
      (by decide) (by decide) (by decide)⟩

/-- C9, the claim as stated fails: in the simplex of `(2,0)`, `(0,3)` with the form
`(1,0)` the enumerated point `(1,0)` has form value `1`; it is appended to
`Homogeneous_Elements` and `H_Vector[0]` is incremented as well.  After the traversal the
five enumerated points are all counted in `H_Vector`, three of them of form value `1`. -/
theorem C9_histogram_and_degree_one_counterexample :
    v_scalar_product (ambient exSimplexH (transform exSimplexH [1, 0])) [1, 0] = 1 ∧
      h_step exSimplexH [1, 0] (transform exSimplexH [1, 0]) ([], [0, 0]) =
        some ([[1, 0]], [1, 0]) ∧
      (hilbert_basis_interior_h_vector exSimplexH [1, 0]).map
        (fun T => (T.Homogeneous_Elements, T.H_Vector)) =
        some ([[1, 0], [1, 1], [1, 2]], [1, 4]) := by
  decide

/-- C10 (amended): `h_vector(Form)` leaves `Hilbert_Basis` and the geometric members as
they were, computes the histogram, and appends to `Homogeneous_Elements` the enumerated
points of form value `1`, in the order of the enumeration. -/
theorem C10_h_vector_frame (S T : Simplex) (Form : List Int)
    (hlen : S.diagonal.length = S.dim) (hpos : ∀ d ∈ S.diagonal, 0 < d)
    (hT : h_vector S Form = some T) :
    T.Hilbert_Basis = S.Hilbert_Basis ∧ T.dim = S.dim ∧ T.volume = S.volume ∧ T.key = S.key ∧
      T.Generators = S.Generators ∧ T.diagonal = S.diagonal ∧
      T.multiplicators = S.multiplicators ∧ T.New_Face = S.New_Face ∧
      T.Support_Hyperplanes = S.Support_Hyperplanes ∧
      ∃ pts, box_points S.dim S.diagonal = some pts ∧
        T.Homogeneous_Elements = S.Homogeneous_Elements ++
          (pts.map fun p => ambient S (transform S p)).filter
            (fun Help => decide (v_scalar_product Help Form = 1)) := by
  unfold h_vector at hT
  by_cases hs : S.status ≠ "initialized"
  · rw [if_pos hs] at hT; simp at hT
  rw [if_neg hs, box_loop_from_zero S.dim S.diagonal _ hlen hpos] at hT
  generalize hr : (successors S.diagonal (box_fuel S.dim S.diagonal)
      (List.replicate S.dim 0)).foldl
    (fun (st : Option (List (List Int) × List Int)) p =>
        st.bind fun st => h_step S Form (transform S p) st)
    (some (S.Homogeneous_Elements, S.H_Vector)) = r at hT
  cases r with
  | none => simp at hT
  | some st =>
    simp only [Option.some.injEq] at hT
    subst hT
    obtain ⟨pts, h1, h2, _⟩ := h_traversal_spec S Form hlen hpos st.1 st.2 hr
    exact ⟨rfl, rfl, rfl, rfl, rfl, rfl, rfl, rfl, rfl, pts, h1, h2⟩

theorem C10_h_vector_frame_witness :
    exSimplexH.diagonal.length = exSimplexH.dim ∧ (∀ d ∈ exSimplexH.diagonal, 0 < d) ∧
      (h_vector exSimplexH [1, 0]).isSome = true ∧
      ((h_vector exSimplexH [1, 0]).getD exSimplexH).Hilbert_Basis = exSimplexH.Hilbert_Basis :=
  ⟨by decide, by decide, by decide,
    (C10_h_vector_frame exSimplexH ((h_vector exSimplexH [1, 0]).getD exSimplexH) [1, 0]
      (by decide) (by decide) (by decide)).1⟩

/-- C10, the claim as stated fails: on the initialized simplex of `(2,0)`, `(0,3)`, whose
`Homogeneous_Elements` is empty, `h_vector` with the form `(1,0)` leaves the three points
of form value `1` in `Homogeneous_Elements`. -/
theorem C10_h_vector_frame_counterexample :
    exSimplexH.status = "initialized" ∧ exSimplexH.Homogeneous_Elements = [] ∧
      (h_vector exSimplexH [1, 0]).map (fun T => T.Homogeneous_Elements) =
        some [[1, 0], [1, 1], [1, 2]] := by
  decide

end Simplex

namespace Simplex

/-- C11 (degree-one traversal): on a simplex with status "initialized" whose diagonal has
`dim` positive entries, `ht1_elements(Form)` returns; it leaves `H_Vector`, `Hilbert_Basis`
and the geometric members as they were and appends to `Homogeneous_Elements`, in the order
of the enumeration, exactly the back-transformed points (`Generators` applied, divided by
`volume`) whose scalar product with `Form` is `1`; the enumerated points are the box points
other than the origin. -/
theorem C11_ht1_elements_frame (S : Simplex) (Form : List Int)
    (hst : S.status = "initialized") (hlen : S.diagonal.length = S.dim)
    (hpos : ∀ d ∈ S.diagonal, 0 < d) :
    ∃ T pts, ht1_elements S Form = some T ∧ box_points S.dim S.diagonal = some pts ∧
      (∀ q, q ∈ pts ↔ in_box S.diagonal q ∧ q ≠ List.replicate S.dim 0) ∧
      T.H_Vector = S.H_Vector ∧ T.Hilbert_Basis = S.Hilbert_Basis ∧
      T.dim = S.dim ∧ T.volume = S.volume ∧ T.key = S.key ∧ T.Generators = S.Generators ∧
      T.diagonal = S.diagonal ∧ T.multiplicators = S.multiplicators ∧
      T.New_Face = S.New_Face ∧ T.Support_Hyperplanes = S.Support_Hyperplanes ∧
      T.status = "ht1 elements calculated." ∧
      T.Homogeneous_Elements = S.Homogeneous_Elements ++
        (pts.map fun p => ambient S (transform S p)).filter
          (fun Help => decide (v_scalar_product Help Form = 1)) := by
  obtain ⟨_, h2, h3⟩ := successors_from_zero S.dim S.diagonal hlen hpos
  have hrun : ht1_elements S Form = some { S with
      Homogeneous_Elements := (successors S.diagonal (box_fuel S.dim S.diagonal)
        (List.replicate S.dim 0)).foldl (fun (HE : List (List Int)) p =>
          if v_scalar_product (ambient S (transform S p)) Form = 1
          then HE ++ [ambient S (transform S p)] else HE) S.Homogeneous_Elements
      status := "ht1 elements calculated." } := by
    unfold ht1_elements
    rw [if_neg (by simp [hst]), box_loop_from_zero S.dim S.diagonal _ hlen hpos]
  exact ⟨_, _, hrun, box_points_eq S.dim S.diagonal hlen hpos,
    fun q => ⟨fun hq => h2 q hq, fun hq => h3 q hq.1 hq.2⟩,
    rfl, rfl, rfl, rfl, rfl, rfl, rfl, rfl, rfl, rfl, rfl, ht1_fold_spec S Form _ _⟩

theorem C11_ht1_elements_frame_witness :
    exSimplexH.status = "initialized" ∧ exSimplexH.diagonal.length = exSimplexH.dim ∧
      (∀ d ∈ exSimplexH.diagonal, 0 < d) ∧
      (ht1_elements exSimplexH [1, 0]).map
          (fun T => (T.Homogeneous_Elements, T.H_Vector, T.Hilbert_Basis)) =
        some ([[1, 0], [1, 1], [1, 2]], [0, 0], []) ∧
      ∃ T pts, ht1_elements exSimplexH [1, 0] = some T ∧
        box_points exSimplexH.dim exSimplexH.diagonal = some pts ∧
        T.H_Vector = exSimplexH.H_Vector ∧ T.Hilbert_Basis = exSimplexH.Hilbert_Basis := by
  refine ⟨by decide, by decide, by decide, by decide, ?_⟩
  obtain ⟨T, pts, h1, h2, _, h3, h4, _⟩ :=
    C11_ht1_elements_frame exSimplexH [1, 0] (by decide) (by decide) (by decide)
  exact ⟨T, pts, h1, h2, h3, h4⟩

end Simplex

namespace Sublattice_Representation

/-- C16 (identity cases of `initialize`): the call produces the identity representation
(`is_identity = true`, `A = B = I_dim`, `c = 1`, `rank = dim`, with success) exactly when
the row echelon reduction succeeds with `rank = dim` and either saturation is requested or
the row index is `1`; in every other successful case `is_identity` is false.  The row index
is the product of the absolute values of the corners when the reduction returns a reduced
row echelon form. -/
theorem C16_identity_cases (ops : MatrixOps) (S0 : Sublattice_Representation) (M : Matrix)
    (sat : Bool) :
    (((initialise ops S0 M sat).1.is_identity = true ∧
        (initialise ops S0 M sat).1.A = Matrix.identity M.nc ∧
        (initialise ops S0 M sat).1.B = Matrix.identity M.nc ∧
        (initialise ops S0 M sat).1.c = 1 ∧ (initialise ops S0 M sat).1.dim = M.nc ∧
        (initialise ops S0 M sat).1.rank = (initialise ops S0 M sat).1.dim ∧
        (initialise ops S0 M sat).2 = true) ↔ identity_case ops M sat) ∧
    ((initialise ops S0 M sat).2 = true → ¬ identity_case ops M sat →
      (initialise ops S0 M sat).1.is_identity = false) ∧
    ((ops.row_echelon_reduce M).2.2 = true →
      RowEchelonContract M (ops.row_echelon_reduce M) →
      row_index ops M = ((List.range (ops.row_echelon_reduce M).2.1).map fun k =>
        Iabs ((ops.row_echelon_reduce M).1.get k
          (first_nonzero (ops.row_echelon_reduce M).1 M.nc k))).prod) := by
  obtain ⟨h1, h2⟩ := initialise_identity_iff ops S0 M sat
  refine ⟨⟨fun h => h1.1 h.1, fun h => ?_⟩, fun _ hn => ?_, fun hs hRE => ?_⟩
  · obtain ⟨a, b, c, d, e, f⟩ := h2 (h1.2 h)
    exact ⟨h1.2 h, a, b, c, e, by rw [d, e], f⟩
  · cases hid : (initialise ops S0 M sat).1.is_identity with
    | false => rfl
    | true => exact absurd (h1.1 hid) hn
  · obtain ⟨r1, _, r3, r4⟩ := hRE hs
    exact corner_row_index_eq_prod _ _ _ ((Matrix.wf_iff _).1 r1).1 r3 r4 _ (le_refl _)

theorem C16_identity_cases_witness :
    identity_case exOps ⟨2, 2, [[2, 0], [0, 2]]⟩ true ∧
      ¬ identity_case exOps ⟨2, 2, [[2, 0], [0, 2]]⟩ false ∧
      (initialise exOps (identityRep 0) ⟨2, 2, [[2, 0], [0, 2]]⟩ true).1.is_identity = true ∧
      (initialise exOps (identityRep 0) ⟨2, 2, [[2, 0], [0, 2]]⟩ false).1.is_identity = false ∧
      row_index exOps ⟨2, 2, [[2, 0], [0, 2]]⟩ = 4 :=
  ⟨by decide, by decide,
    ((C16_identity_cases exOps (identityRep 0) ⟨2, 2, [[2, 0], [0, 2]]⟩ true).1.2
      (by decide)).1,
    (C16_identity_cases exOps (identityRep 0) ⟨2, 2, [[2, 0], [0, 2]]⟩ false).2.1
      (by decide) (by decide),
    by decide⟩

/-- C18 (identity short-circuit): for a representation flagged as identity with
`A = B = I_dim` and `c = 1` and a vector `v` of length `dim`, each of `to_sublattice`,
`from_sublattice`, `to_sublattice_dual` and `from_sublattice_dual` returns what it returns
on the same fields with the flag cleared, which is the general formula (`v*B` divided by
`c`, `v*A`, `A*v` made prime, `B*v` made prime); `to_sublattice` and `from_sublattice`
return `v`. -/
theorem C18_identity_short_circuit (S : Sublattice_Representation) (v : List Int)
    (hid : S.is_identity = true) (hA : S.A = Matrix.identity S.dim)
    (hB : S.B = Matrix.identity S.dim) (hc : S.c = 1) (hv : v.length = S.dim) :
    S.to_sublattice v = ({ S with is_identity := false }).to_sublattice v ∧
    S.from_sublattice v = ({ S with is_identity := false }).from_sublattice v ∧
    S.to_sublattice_dual v = ({ S with is_identity := false }).to_sublattice_dual v ∧
    S.from_sublattice_dual v = ({ S with is_identity := false }).from_sublattice_dual v ∧
    S.to_sublattice v = v_scalar_division (S.B.VxM v) S.c ∧
    S.from_sublattice v = S.A.VxM v ∧
    S.to_sublattice_dual v = (v_make_prime (S.A.MxV v)).1 ∧
    S.from_sublattice_dual v = (v_make_prime (S.B.MxV v)).1 ∧
    S.to_sublattice v = v ∧ S.from_sublattice v = v := by
  have e1 : S.A.VxM v = v := by rw [hA]; exact identity_VxM _ _ hv
  have e2 : S.B.VxM v = v := by rw [hB]; exact identity_VxM _ _ hv
  have e3 : S.A.MxV v = v := by rw [hA]; exact identity_MxV _ _ hv
  have e4 : S.B.MxV v = v := by rw [hB]; exact identity_MxV _ _ hv
  refine ⟨?_, ?_, ?_, ?_, ?_, ?_, ?_, ?_, ?_, ?_⟩
  · simp [to_sublattice, hid, hc, e2]
  · simp [from_sublattice, hid, e1]
  · simp [to_sublattice_dual, hid, e3]
  · simp [from_sublattice_dual, hid, e4]
  · rw [e2, hc, v_scalar_division_one]; simp [to_sublattice, hid]
  · rw [e1]; simp [from_sublattice, hid]
  · rw [e3]; simp [to_sublattice_dual, hid]
  · rw [e4]; simp [from_sublattice_dual, hid]
  · simp [to_sublattice, hid]
  · simp [from_sublattice, hid]

theorem C18_identity_short_circuit_witness :
    exIdentity.is_identity = true ∧ exIdentity.A = Matrix.identity exIdentity.dim ∧
      exIdentity.B = Matrix.identity exIdentity.dim ∧ exIdentity.c = 1 ∧
      [4, -6].length = exIdentity.dim ∧
      exIdentity.to_sublattice_dual [4, -6] = [2, -3] ∧
      exIdentity.to_sublattice_dual [4, -6] =
        ({ exIdentity with is_identity := false }).to_sublattice_dual [4, -6] :=
  ⟨by decide, by decide, by decide, by decide, by decide, by decide,
    (C18_identity_short_circuit exIdentity [4, -6] (by decide) (by decide) (by decide)
      (by decide) (by decide)).2.2.1⟩

/-- C19 (failed preconditions of composition): `compose(SR)` fails exactly when
`rank != SR.dim`, `compose_dual(SR)` fails exactly when `rank != SR.dim` or `SR.c != 1`,
and at a failed assertion the object is as it was before the call: the assertions come
before the first assignment. -/
theorem C19_compose_failure_atomic (S SR : Sublattice_Representation) :
    (S.compose SR = none ↔ S.rank ≠ SR.dim) ∧
    (S.compose_dual SR = none ↔ (S.rank ≠ SR.dim ∨ SR.c ≠ 1)) ∧
    (compose_run S SR).toOption = S.compose SR ∧
    (compose_dual_run S SR).toOption = S.compose_dual SR ∧
    (S.rank ≠ SR.dim → compose_run S SR = Except.error S) ∧
    ((S.rank ≠ SR.dim ∨ SR.c ≠ 1) → compose_dual_run S SR = Except.error S) ∧
    (∀ T, compose_run S SR = Except.error T → T = S ∧ S.rank ≠ SR.dim) ∧
    (∀ T, compose_dual_run S SR = Except.error T → T = S ∧ (S.rank ≠ SR.dim ∨ SR.c ≠ 1)) := by
  have c1 : S.rank ≠ SR.dim → compose_run S SR = Except.error S := by
    intro h; unfold compose_run; rw [if_pos h]
  have c2 : (S.rank ≠ SR.dim ∨ SR.c ≠ 1) → compose_dual_run S SR = Except.error S := by
    intro h
    unfold compose_dual_run
    by_cases h1 : S.rank ≠ SR.dim
    · rw [if_pos h1]
    · rw [if_neg h1, if_pos (h.resolve_left h1)]
  have d1 : S.rank = SR.dim → ∃ T, compose_run S SR = Except.ok T := by
    intro h
    unfold compose_run
    rw [if_neg (by simpa using h)]
    split
    · exact ⟨_, rfl⟩
    · split
      · exact ⟨_, rfl⟩
      · exact ⟨_, rfl⟩
  have d2 : S.rank = SR.dim → SR.c = 1 → ∃ T, compose_dual_run S SR = Except.ok T := by
    intro h h'
    unfold compose_dual_run
    rw [if_neg (by simpa using h), if_neg (by simpa using h')]
    split
    · exact ⟨_, rfl⟩
    · simp only
      split
      · exact ⟨_, rfl⟩
      · exact ⟨_, rfl⟩
  refine ⟨?_, ?_, compose_run_toOption S SR, compose_dual_run_toOption S SR, c1, c2, ?_, ?_⟩
  · rw [← compose_run_toOption]
    constructor
    · intro h hr
      obtain ⟨T, hT⟩ := d1 hr
      rw [hT] at h
      simp [Except.toOption] at h
    · intro h
      rw [c1 h]; rfl
  · rw [← compose_dual_run_toOption]
    constructor
    · intro h
      by_contra hn
      push_neg at hn
      obtain ⟨T, hT⟩ := d2 hn.1 hn.2
      rw [hT] at h
      simp [Except.toOption] at h
    · intro h
      rw [c2 h]; rfl
  · intro T hT
    by_cases h : S.rank ≠ SR.dim
    · rw [c1 h] at hT
      exact ⟨(Except.error.inj hT).symm, h⟩
    · obtain ⟨T', hT'⟩ := d1 (by simpa using h)
      rw [hT'] at hT
      cases hT
  · intro T hT
    by_cases h : S.rank ≠ SR.dim ∨ SR.c ≠ 1
    · rw [c2 h] at hT
      exact ⟨(Except.error.inj hT).symm, h⟩
    · push_neg at h
      obtain ⟨T', hT'⟩ := d2 h.1 h.2
      rw [hT'] at hT
      cases hT

theorem C19_compose_failure_atomic_witness :
    exRep.rank ≠ (identityRep 3).dim ∧ exRep.compose (identityRep 3) = none ∧
      exRepTwice.rank = exRepSkew.dim ∧ exRepSkew.c ≠ 1 ∧
      exRepTwice.compose_dual exRepSkew = none ∧
      compose_run exRep (identityRep 3) = Except.error exRep ∧
      compose_dual_run exRepTwice exRepSkew = Except.error exRepTwice :=
  ⟨by decide, by decide, by decide, by decide, by decide,
    (C19_compose_failure_atomic exRep (identityRep 3)).2.2.2.2.1 (by decide),
    (C19_compose_failure_atomic exRepTwice exRepSkew).2.2.2.2.2.1 (Or.inr (by decide))⟩

/-- C20 (frame of composition): after a `compose(SR)` or `compose_dual(SR)` that returns,
with neither `SR` nor the object flagged as identity, `Equations_computed` and
`Congruences_computed` are false, `dim` is as before and `rank` is `SR.rank`; when `SR` is
flagged as identity the object is unchanged in every member. -/
theorem C20_compose_frame (S SR T : Sublattice_Representation) :
    (S.compose SR = some T → SR.is_identity = false → S.is_identity = false →
      T.Equations_computed = false ∧ T.Congruences_computed = false ∧ T.dim = S.dim ∧
        T.rank = SR.rank) ∧
    (S.compose_dual SR = some T → SR.is_identity = false → S.is_identity = false →
      T.Equations_computed = false ∧ T.Congruences_computed = false ∧ T.dim = S.dim ∧
        T.rank = SR.rank) ∧
    (S.compose SR = some T → SR.is_identity = true → T = S) ∧
    (S.compose_dual SR = some T → SR.is_identity = true → T = S) := by
  refine ⟨?_, ?_, ?_, ?_⟩
  · intro h h1 h2
    unfold compose at h
    by_cases h0 : S.rank ≠ SR.dim
    · rw [if_pos h0] at h; cases h
    rw [if_neg h0, if_neg (by simp [h1]), if_neg (by simp [h2])] at h
    simp only [Option.some.injEq] at h
    subst h
    exact ⟨rfl, rfl, rfl, rfl⟩
  · intro h h1 h2
    unfold compose_dual at h
    by_cases h0 : S.rank ≠ SR.dim
    · rw [if_pos h0] at h; cases h
    by_cases h0' : SR.c ≠ 1
    · rw [if_neg h0, if_pos h0'] at h; cases h
    rw [if_neg h0, if_neg h0', if_neg (by simp [h1]), if_neg (by simp [h2])] at h
    simp only [Option.some.injEq] at h
    subst h
    exact ⟨rfl, rfl, rfl, rfl⟩
  · intro h h1
    unfold compose at h
    by_cases h0 : S.rank ≠ SR.dim
    · rw [if_pos h0] at h; cases h
    rw [if_neg h0, if_pos h1] at h
    exact (Option.some.inj h).symm
  · intro h h1
    unfold compose_dual at h
    by_cases h0 : S.rank ≠ SR.dim
    · rw [if_pos h0] at h; cases h
    by_cases h0' : SR.c ≠ 1
    · rw [if_neg h0, if_pos h0'] at h; cases h
    rw [if_neg h0, if_neg h0', if_pos h1] at h
    exact (Option.some.inj h).symm

theorem C20_compose_frame_witness :
    (exRepTwice.compose exRepSkew).isSome = true ∧ exRepSkew.is_identity = false ∧
      exRepTwice.is_identity = false ∧
      ((exRepTwice.compose exRepSkew).getD exRepTwice).Equations_computed = false ∧
      ((exRepTwice.compose exRepSkew).getD exRepTwice).Congruences_computed = false ∧
      ((exRepTwice.compose exRepSkew).getD exRepTwice).dim = exRepTwice.dim ∧
      ((exRepTwice.compose exRepSkew).getD exRepTwice).rank = exRepSkew.rank :=
  ⟨by decide, by decide, by decide,
    (C20_compose_frame exRepTwice exRepSkew ((exRepTwice.compose exRepSkew).getD exRepTwice)).1
      (by decide) (by decide) (by decide)⟩

end Sublattice_Representation

namespace Sublattice_Representation

/-- C12 (no congruences for `c = 1`): for every representation with `c = 1` whose cache of
the congruences is valid, `getCongruencesMatrix()` returns the matrix with no rows and
`dim+1` columns, `getExternalIndex()` returns `1`, and after either call the flag
`Congruences_computed` is set. -/
theorem C12_no_congruences (SmithNormalForm : Matrix → Matrix × Matrix × Nat)
    (S : Sublattice_Representation) (hc : S.c = 1)
    (hcache : CongruencesCached SmithNormalForm S) :
    (getCongruencesMatrix SmithNormalForm S).1 = Matrix.zero 0 (S.dim + 1) ∧
    (getCongruencesMatrix SmithNormalForm S).1.nr = 0 ∧
    (getCongruencesMatrix SmithNormalForm S).1.nc = S.dim + 1 ∧
    (getCongruencesMatrix SmithNormalForm S).1.elem = [] ∧
    (getCongruencesMatrix SmithNormalForm S).2.Congruences_computed = true ∧
    (getExternalIndex SmithNormalForm S).1 = 1 ∧
    (getExternalIndex SmithNormalForm S).2.Congruences_computed = true := by
  have hm : make_congruences SmithNormalForm S =
      { S with Congruences := Matrix.zero 0 (S.dim + 1), Congruences_computed := true,
               external_index := 1 } := by
    unfold make_congruences
    rw [if_pos hc]
  have key : (if S.Congruences_computed = false then make_congruences SmithNormalForm S else S)
      = make_congruences SmithNormalForm S := by
    by_cases hf : S.Congruences_computed = false
    · rw [if_pos hf]
    · rw [if_neg hf]
      exact (hcache (by simpa using hf)).symm
  unfold getCongruencesMatrix getExternalIndex
  simp only
  rw [key, hm]
  exact ⟨rfl, rfl, rfl, rfl, rfl, rfl, rfl⟩

theorem C12_no_congruences_witness :
    exIdentity.c = 1 ∧ CongruencesCached exSmith exIdentity ∧
      (getCongruencesMatrix exSmith exIdentity).1 = ⟨0, 3, []⟩ ∧
      (getExternalIndex exSmith exIdentity).1 = 1 ∧
      (getCongruencesMatrix exSmith exIdentity).1 = Matrix.zero 0 (exIdentity.dim + 1) :=
  ⟨by decide, by decide, by decide, by decide,
    (C12_no_congruences exSmith exIdentity (by decide) (by decide)).1⟩

/-- C13 (congruence/index identity): for a representation with `c != 1` and
`rank <= dim`, when the Smith normal form routine returns a `dim x dim` transformation and
a diagonal form with positive diagonal `d_0..d_{rank-1}`, `make_congruences` emits one row
for every `k` with `d_k != 1`, in increasing `k`; the row has `dim+1` entries, the first
`dim` are the entries of column `k` of the transformation reduced modulo `d_k` into
`[0, d_k)` and the last is `d_k`; `external_index` is the product of the `d_k != 1`, and
the flag `Congruences_computed` is set. -/
theorem C13_congruences (SmithNormalForm : Matrix → Matrix × Matrix × Nat)
    (S : Sublattice_Representation) (hc : S.c ≠ 1) (hrk : S.rank ≤ S.dim)
    (hwf : (SmithNormalForm S.A).2.1.wf = true) (hnr : (SmithNormalForm S.A).2.1.nr = S.dim)
    (hnc : (SmithNormalForm S.A).2.1.nc = S.dim)
    (hd : ∀ k, k < S.rank → 0 < (SmithNormalForm S.A).1.get k k) :
    (make_congruences SmithNormalForm S).Congruences.elem =
      ((List.range S.rank).filter fun k => decide ((SmithNormalForm S.A).1.get k k ≠ 1)).map
        (fun k => ((List.range S.dim).map fun j =>
            (SmithNormalForm S.A).2.1.get j k % (SmithNormalForm S.A).1.get k k) ++
          [(SmithNormalForm S.A).1.get k k]) ∧
    (make_congruences SmithNormalForm S).Congruences.nr =
      ((List.range S.rank).filter fun k =>
        decide ((SmithNormalForm S.A).1.get k k ≠ 1)).length ∧
    (make_congruences SmithNormalForm S).Congruences.nc = S.dim + 1 ∧
    (∀ k, k < S.rank → ∀ j, j < S.dim →
      0 ≤ (SmithNormalForm S.A).2.1.get j k % (SmithNormalForm S.A).1.get k k ∧
      (SmithNormalForm S.A).2.1.get j k % (SmithNormalForm S.A).1.get k k <
        (SmithNormalForm S.A).1.get k k ∧
      (SmithNormalForm S.A).1.get k k ∣
        (SmithNormalForm S.A).2.1.get j k -
          (SmithNormalForm S.A).2.1.get j k % (SmithNormalForm S.A).1.get k k) ∧
    (make_congruences SmithNormalForm S).external_index =
      (((List.range S.rank).filter fun k =>
        decide ((SmithNormalForm S.A).1.get k k ≠ 1)).map
          fun k => (SmithNormalForm S.A).1.get k k).prod ∧
    (make_congruences SmithNormalForm S).Congruences_computed = true := by
  have hlen : (SmithNormalForm S.A).2.1.elem.length = S.dim := by
    rw [((Matrix.wf_iff _).1 hwf).1, hnr]
  have hrows := fun k hk => smith_rows (SmithNormalForm S.A).2.1 S.dim hlen hnr hnc k hk
  have hloop := congruence_loop_spec S.dim (SmithNormalForm S.A).1
    (((SmithNormalForm S.A).2.1.append (Matrix.zero 1 S.dim)).transpose)
    (fun k hk => (hrows k hk).1) S.rank hrk hd
  have hmap : ((List.range S.rank).filter fun k =>
        decide ((SmithNormalForm S.A).1.get k k ≠ 1)).map (fun k =>
      ((List.range S.dim).map fun j =>
        (((SmithNormalForm S.A).2.1.append (Matrix.zero 1 S.dim)).transpose).get k j %
          (SmithNormalForm S.A).1.get k k) ++ [(SmithNormalForm S.A).1.get k k]) =
      ((List.range S.rank).filter fun k =>
        decide ((SmithNormalForm S.A).1.get k k ≠ 1)).map (fun k =>
      ((List.range S.dim).map fun j =>
        (SmithNormalForm S.A).2.1.get j k % (SmithNormalForm S.A).1.get k k) ++
        [(SmithNormalForm S.A).1.get k k]) := by
    apply List.map_congr_left
    intro k hk
    have hk' : k < S.dim := by
      have := (List.mem_filter.1 hk).1
      simp at this
      omega
    congr 1
    apply List.map_congr_left
    intro j hj
    rw [(hrows k hk').2 j (by simpa using hj)]
  rw [hmap] at hloop
  have hm : make_congruences SmithNormalForm S =
      { S with
        Congruences := (List.range S.rank).foldl
          (congruence_step S.dim (SmithNormalForm S.A).1
            (((SmithNormalForm S.A).2.1.append (Matrix.zero 1 S.dim)).transpose))
          (Matrix.zero 0 (S.dim + 1))
        Congruences_computed := true
        external_index := (List.range ((List.range S.rank).foldl
            (congruence_step S.dim (SmithNormalForm S.A).1
              (((SmithNormalForm S.A).2.1.append (Matrix.zero 1 S.dim)).transpose))
            (Matrix.zero 0 (S.dim + 1))).nr).foldl
          (fun e i => e * ((List.range S.rank).foldl
            (congruence_step S.dim (SmithNormalForm S.A).1
              (((SmithNormalForm S.A).2.1.append (Matrix.zero 1 S.dim)).transpose))
            (Matrix.zero 0 (S.dim + 1))).get i S.dim) 1 } := by
    unfold make_congruences
    rw [if_neg hc]
  rw [hm, hloop]
  refine ⟨rfl, rfl, rfl, ?_, ?_, rfl⟩
  · intro k hk j _
    have hpos := hd k hk
    refine ⟨Int.emod_nonneg _ (by omega), Int.emod_lt_of_pos _ hpos, ?_⟩
    exact Int.dvd_sub_of_emod_eq rfl
  · show (List.range _).foldl (fun e i => e * (Matrix.mk _ _ _).get i S.dim) 1 = _
    rw [last_entries_prod _ _ _ _ (by simp), List.map_map]
    congr 1
    apply List.map_congr_left
    intro k _
    simp only [Function.comp]
    rw [List.getD_append_right _ _ _ _ (by simp)]
    simp

theorem C13_congruences_witness :
    exRep.c ≠ 1 ∧ exRep.rank ≤ exRep.dim ∧ (∀ k, k < exRep.rank → 0 < (exSmith exRep.A).1.get k k) ∧
      (make_congruences exSmith exRep).Congruences = ⟨1, 3, [[3, 4, 6]]⟩ ∧
      (make_congruences exSmith exRep).external_index = 6 ∧
      (make_congruences exSmith exRep).external_index =
        (((List.range exRep.rank).filter fun k =>
          decide ((exSmith exRep.A).1.get k k ≠ 1)).map
            fun k => (exSmith exRep.A).1.get k k).prod :=
  ⟨by decide, by decide, by decide, by decide, by decide,
    (C13_congruences exSmith exRep (by decide) (by decide) (by decide) (by decide) (by decide)
      (by decide)).2.2.2.2.1⟩

end Sublattice_Representation

namespace Sublattice_Representation

/-- C17 (direct summand case): when the row echelon reduction succeeds and returns a reduced
row echelon form of rank `rank < dim` whose row index is `1`, `initialize` succeeds with
`c = 1` and `is_identity = false`; `A` is `rank x dim` and its rows are the first `rank`
rows of the echelon form with the corners made positive; `B` is the `dim x rank` matrix
with `B[k][j] = 1` when column `k` is the corner column of row `j` and `0` otherwise, so
every column of `B` has exactly one `1` and the rows of the columns without a corner are
zero. -/
theorem C17_direct_summand (ops : MatrixOps) (S0 : Sublattice_Representation) (M : Matrix)
    (sat : Bool) (hs : (ops.row_echelon_reduce M).2.2 = true)
    (hRE : RowEchelonContract M (ops.row_echelon_reduce M))
    (hri : row_index ops M = 1) (hlt : (ops.row_echelon_reduce M).2.1 < M.nc) :
    (initialise ops S0 M sat).2 = true ∧ (initialise ops S0 M sat).1.c = 1 ∧
    (initialise ops S0 M sat).1.is_identity = false ∧
    (initialise ops S0 M sat).1.dim = M.nc ∧
    (initialise ops S0 M sat).1.rank = (ops.row_echelon_reduce M).2.1 ∧
    (initialise ops S0 M sat).1.A.wf = true ∧
    (initialise ops S0 M sat).1.A.nr = (ops.row_echelon_reduce M).2.1 ∧
    (initialise ops S0 M sat).1.A.nc = M.nc ∧
    (∀ k, k < (ops.row_echelon_reduce M).2.1 →
      (initialise ops S0 M sat).1.A.row k =
        (if (ops.row_echelon_reduce M).1.get k
            (first_nonzero (ops.row_echelon_reduce M).1 M.nc k) < 0
         then v_scalar_multiplication ((ops.row_echelon_reduce M).1.row k) (-1)
         else (ops.row_echelon_reduce M).1.row k) ∧
      (initialise ops S0 M sat).1.A.get k
        (first_nonzero (ops.row_echelon_reduce M).1 M.nc k) = 1) ∧
    (initialise ops S0 M sat).1.B.wf = true ∧
    (initialise ops S0 M sat).1.B.nr = M.nc ∧
    (initialise ops S0 M sat).1.B.nc = (ops.row_echelon_reduce M).2.1 ∧
    (∀ k j, k < M.nc → j < (ops.row_echelon_reduce M).2.1 →
      (initialise ops S0 M sat).1.B.get k j =
        if k = first_nonzero (ops.row_echelon_reduce M).1 M.nc j then 1 else 0) ∧
    (∀ j, j < (ops.row_echelon_reduce M).2.1 →
      ∃ k, k < M.nc ∧ (initialise ops S0 M sat).1.B.get k j = 1 ∧
        ∀ l, l < M.nc → (initialise ops S0 M sat).1.B.get l j = 1 → l = k) ∧
    (∀ k, k < M.nc →
      (∀ j, j < (ops.row_echelon_reduce M).2.1 →
        first_nonzero (ops.row_echelon_reduce M).1 M.nc j ≠ k) →
      ∀ j, j < (ops.row_echelon_reduce M).2.1 → (initialise ops S0 M sat).1.B.get k j = 0) := by
  obtain ⟨r1, r2, r3, r4⟩ := hRE hs
  have hlen := ((Matrix.wf_iff _).1 r1).1
  unfold row_index at hri
  have hinit : initialise ops S0 M sat =
      ({ S0 with
          Equations_computed := false, Congruences_computed := false, is_identity := false,
          dim := M.nc, rank := (ops.row_echelon_reduce M).2.1,
          A := copy_rows (Matrix.zero (ops.row_echelon_reduce M).2.1 M.nc)
            (corner_loop (ops.row_echelon_reduce M).1 M.nc (ops.row_echelon_reduce M).2.1
              (ops.row_echelon_reduce M).2.1).N (ops.row_echelon_reduce M).2.1
          B := (projection_loop (Matrix.zero M.nc (ops.row_echelon_reduce M).2.1)
            (corner_loop (ops.row_echelon_reduce M).1 M.nc (ops.row_echelon_reduce M).2.1
              (ops.row_echelon_reduce M).2.1).col_is_corner M.nc).1
          c := 1 }, true) := by
    unfold initialise
    simp only
    rw [if_neg (by simp [hs]), if_neg (fun h => by omega), if_neg (fun h => by omega),
      if_pos hri]
  rw [hinit]
  obtain ⟨a1, a2, _, a4⟩ := copy_rows_zero (corner_loop (ops.row_echelon_reduce M).1 M.nc
    (ops.row_echelon_reduce M).2.1 (ops.row_echelon_reduce M).2.1).N
    (ops.row_echelon_reduce M).2.1 M.nc (ops.row_echelon_reduce M).2.1 (le_refl _)
  have awf := copy_rows_wf _ _ _ (corner_rows_length _ _ _ r1 r2 r3 r4)
  obtain ⟨_, d2, d3, d4⟩ := inv_direct _ _ _ r1 r3 r4 hri
  have hB := projection_entries _ _ _ hlen r3 r4
  obtain ⟨_, _, _, _, _, _, _, _, i9⟩ := corner_loop_inv _ M.nc _ hlen r3 r4
    (ops.row_echelon_reduce M).2.1 (le_refl _)
  refine ⟨rfl, rfl, rfl, rfl, rfl, awf, a1, a2, ?_, d2, d3, d4, hB, ?_, ?_⟩
  · intro k hk
    refine ⟨?_, ?_⟩
    · rw [a4 k hk]
      exact (corner_rows_sign _ _ _ hlen r3 r4 k hk).1
    · rw [Matrix.get_eq_row, a4 k hk, ← Matrix.get_eq_row]
      exact i9 hri k hk
  · intro j hj
    have hf := (r4 j hj).1
    refine ⟨_, hf, by rw [hB _ _ hf hj, if_pos rfl], ?_⟩
    intro l hl h1
    rw [hB _ _ hl hj] at h1
    by_contra hne
    rw [if_neg hne] at h1
    exact absurd h1 (by decide)
  · intro k hk hno j hj
    rw [hB _ _ hk hj, if_neg (fun h => hno j hj h.symm)]

theorem C17_direct_summand_witness :
    (exEchelonOps.row_echelon_reduce ⟨1, 2, [[-1, 5]]⟩).2.2 = true ∧
      RowEchelonContract ⟨1, 2, [[-1, 5]]⟩ (exEchelonOps.row_echelon_reduce ⟨1, 2, [[-1, 5]]⟩) ∧
      row_index exEchelonOps ⟨1, 2, [[-1, 5]]⟩ = 1 ∧
      (initialise exEchelonOps (identityRep 0) ⟨1, 2, [[-1, 5]]⟩ false).1.A = ⟨1, 2, [[1, -5]]⟩ ∧
      (initialise exEchelonOps (identityRep 0) ⟨1, 2, [[-1, 5]]⟩ false).1.B = ⟨2, 1, [[1], [0]]⟩ ∧
      (initialise exEchelonOps (identityRep 0) ⟨1, 2, [[-1, 5]]⟩ false).2 = true ∧
      (initialise exEchelonOps (identityRep 0) ⟨1, 2, [[-1, 5]]⟩ false).1.c = 1 :=
  ⟨by decide, by decide, by decide, by decide, by decide,
    (C17_direct_summand exEchelonOps (identityRep 0) ⟨1, 2, [[-1, 5]]⟩ false (by decide)
      (by decide) (by decide) (by decide)).1,
    (C17_direct_summand exEchelonOps (identityRep 0) ⟨1, 2, [[-1, 5]]⟩ false (by decide)
      (by decide) (by decide) (by decide)).2.1⟩

end Sublattice_Representation

namespace Sublattice_Representation

/-- C15 (overflow reporting), the code at the failing input: for the matrix with the one
row `(2,0)` and requested saturation, `column_trigonalize` reports failure, the following
`invert_unprotected` succeeds and overwrites the flag, and `initialize` returns with
`success = true`. -/
theorem C15_trigonalize_failure_lost :
    (exEchelonOps.row_echelon_reduce ⟨1, 2, [[2, 0]]⟩).2.2 = true ∧
    row_index exEchelonOps ⟨1, 2, [[2, 0]]⟩ = 2 ∧
    (exEchelonOps.column_trigonalize
      (corner_loop (exEchelonOps.row_echelon_reduce ⟨1, 2, [[2, 0]]⟩).1 2 1 1).N 1
      (Matrix.identity 2)).2 = false ∧
    (initialise exEchelonOps (identityRep 0) ⟨1, 2, [[2, 0]]⟩ true).2 = true := by
  decide

end Sublattice_Representation

namespace Simplex

/-- C22 (refinement of the naive scan): for `dim > 0`, every list `L` and every vector `x`,
`reduce_and_insert_interior` returns what the naive specification returns: for `x[0] = 0`
the list as it was, otherwise the result of the scan that stops at the first `e` with
`x[0] < 2*e[0]` and appends `x`, moves an earlier `e` with `e[i] <= x[i]` for `i = 1..dim` to
the front, and appends `x` when the list is exhausted; the scan of the code gives this
result from every value `1..dim` of the remembered coordinate `c`. -/
theorem C22_reduce_refines_naive (dim : Nat) (hdim : 0 < dim) (L : List (List Int))
    (x : List Int) :
    reduce_and_insert_interior dim L x = naive_reduce_and_insert dim L x ∧
    (∀ (c : Nat) (scanned rest : List (List Int)), 1 ≤ c → c ≤ dim →
      reduce_scan (dim + 1) x c scanned rest = naive_scan dim x scanned rest) ∧
    (x.getD 0 0 = 0 → reduce_and_insert_interior dim L x = L) := by
  refine ⟨?_, fun c scanned rest h1 h2 => reduce_scan_eq_naive dim x rest scanned c h1 h2, ?_⟩
  · unfold reduce_and_insert_interior naive_reduce_and_insert
    by_cases h0 : x.getD 0 0 = 0
    · rw [if_pos h0, if_pos h0]
    · rw [if_neg h0, if_neg h0]
      exact reduce_scan_eq_naive dim x L [] 1 (le_refl _) hdim
  · intro h0
    unfold reduce_and_insert_interior
    rw [if_pos h0]

theorem C22_reduce_refines_naive_witness :
    0 < 2 ∧
      reduce_and_insert_interior 2 [[3, 0, 3], [4, 3, 1]] [8, 6, 2] = [[4, 3, 1], [3, 0, 3]] ∧
      reduce_and_insert_interior 2 [[3, 0, 3], [4, 3, 1]] [8, 6, 2] =
        naive_reduce_and_insert 2 [[3, 0, 3], [4, 3, 1]] [8, 6, 2] :=
  ⟨by decide, by decide,
    (C22_reduce_refines_naive 2 (by decide) [[3, 0, 3], [4, 3, 1]] [8, 6, 2]).1⟩

/-- C23 (full dominance): for `dim > 0`, a list whose vectors have a non-negative norm field
and a vector `x` with `x[0] != 0`, a call of `reduce_and_insert_interior` either appends `x`
or discards it at an element `e` of the list, which is moved to the front and satisfies
`e[i] <= x[i]` on all `dim+1` coordinates: the scan tests the coordinates `1..dim`, and the
norm field follows from `2*e[0] <= x[0]`. -/
theorem C23_discard_dominated (dim : Nat) (hdim : 0 < dim) (L : List (List Int)) (x : List Int)
    (hx : x.getD 0 0 ≠ 0) (hnorm : ∀ e ∈ L, 0 ≤ e.getD 0 0) :
    reduce_and_insert_interior dim L x = L ++ [x] ∨
    ∃ pre e post, L = pre ++ e :: post ∧
      reduce_and_insert_interior dim L x = e :: (pre ++ post) ∧
      ∀ i, i < dim + 1 → e.getD i 0 ≤ x.getD i 0 := by
  rcases reduce_call_cases dim hdim L x with ⟨c0, _⟩ | ⟨_, c1⟩ | ⟨_, pre, e, post, c1, c2, c3, c4, _⟩
  · exact absurd c0 hx
  · left; exact c1
  · right
    refine ⟨pre, e, post, c1, c2, ?_⟩
    intro i hi
    have he := hnorm e (by rw [c1]; simp)
    rcases Nat.eq_zero_or_pos i with h0 | hpos
    · subst h0; omega
    · exact c3 i hpos (by omega)

theorem C23_discard_dominated_witness :
    0 < 2 ∧ ([8, 6, 2] : List Int).getD 0 0 ≠ 0 ∧
      (∀ e ∈ [[3, 0, 3], [4, 3, 1]], 0 ≤ e.getD 0 (0 : Int)) ∧
      (reduce_and_insert_interior 2 [[3, 0, 3], [4, 3, 1]] [8, 6, 2] =
          [[3, 0, 3], [4, 3, 1]] ++ [[8, 6, 2]] ∨
        ∃ pre e post, [[3, 0, 3], [4, 3, 1]] = pre ++ e :: post ∧
          reduce_and_insert_interior 2 [[3, 0, 3], [4, 3, 1]] [8, 6, 2] = e :: (pre ++ post) ∧
          ∀ i, i < 2 + 1 → e.getD i 0 ≤ ([8, 6, 2] : List Int).getD i 0) :=
  ⟨by decide, by decide, by decide,
    C23_discard_dominated 2 (by decide) [[3, 0, 3], [4, 3, 1]] [8, 6, 2] (by decide)
      (by decide)⟩

theorem exSimplexSkew_initialized : exSimplexSkew.Initialized where
  status := by decide
  basis_empty := by decide
  volume_pos := by decide
  diagonal_length := by decide
  diagonal_pos := by decide
  generators_nr := by decide
  generators_nc := by decide
  support_nr := by decide
  support_nc := by decide
  inverse := Or.inl (by decide)
  residues := by
    intro p hp
    have hdim : exSimplexSkew.dim = 2 := by decide
    rw [hdim] at hp
    match p, hp with
    | [a, b], _ =>
      refine ⟨[a % 3, (b - 2 * (a / 3)) % 3], [a / 3, (b - 2 * (a / 3)) / 3], ?_,
        by rw [hdim]; rfl, ?_⟩
      · have hd : exSimplexSkew.diagonal = [3, 3] := by decide
        rw [hd]
        simp only [in_box, and_true]
        omega
      · have hG : exSimplexSkew.Generators = ⟨2, 2, [[3, 2], [0, 3]]⟩ := by decide
        rw [hG]
        simp [v_sub, Matrix.VxM, rsum, Matrix.get, List.range_succ]
        omega

/-- C24, the claim as stated fails: in the reduction phase of the initialized simplex of
`(3,2)`, `(0,3)` the fifth candidate `(8,6,2)` is discarded at `(4,3,1)`, which is moved in
front of `(3,0,3)`, so the list is not sorted by norm when the sixth candidate `(10,3,7)`
is passed to `reduce_and_insert_interior`; the list `(3,0,3)`, `(4,3,1)` was sorted and the
norm `8` is at least every norm in it. -/
theorem C24_norm_order_counterexample :
    candidates exSimplexSkew = some [[3, 0, 3], [4, 3, 1], [6, 0, 6], [7, 3, 4], [8, 6, 2],
      [10, 3, 7], [11, 6, 5], [14, 6, 8]] ∧
    reduce_all 2 [[3, 0, 3], [4, 3, 1], [6, 0, 6], [7, 3, 4]] [] = [[3, 0, 3], [4, 3, 1]] ∧
    norm_sorted [[3, 0, 3], [4, 3, 1]] ∧
    (∀ e ∈ [[3, 0, 3], [4, 3, 1]], e.getD 0 (0 : Int) ≤ ([8, 6, 2] : List Int).getD 0 0) ∧
    reduce_and_insert_interior 2 [[3, 0, 3], [4, 3, 1]] [8, 6, 2] = [[4, 3, 1], [3, 0, 3]] ∧
    ¬ norm_sorted (reduce_and_insert_interior 2 [[3, 0, 3], [4, 3, 1]] [8, 6, 2]) ∧
    ¬ norm_sorted (reduce_all exSimplexSkew.dim
      [[3, 0, 3], [4, 3, 1], [6, 0, 6], [7, 3, 4], [8, 6, 2]] exSimplexSkew.Hilbert_Basis) := by
  decide

/-- C24 (amended): if the list is sorted by norm and the norm of the candidate `x` is at
least every norm in the list, a call of `reduce_and_insert_interior` that does not discard
`x` leaves the list sorted, and a call that discards `x` moves the dominating element to the
front and leaves the other elements in their sorted order.  In the reduction phase of an
initialized simplex, before every call, any two elements `a` before `b` of the list satisfy
`a[0] <= b[0]` or `2*a[0] <= y[0]` for every candidate `y` not yet consumed. -/
theorem C24_norm_order (S : Simplex) (hS : S.Initialized) (hdim : 0 < S.dim)
    (L : List (List Int)) (x : List Int) (hs : norm_sorted L)
    (hx : ∀ e ∈ L, e.getD 0 0 ≤ x.getD 0 0) :
    (norm_sorted (reduce_and_insert_interior S.dim L x) ∨
      ∃ pre e post, L = pre ++ e :: post ∧
        reduce_and_insert_interior S.dim L x = e :: (pre ++ post) ∧
        dominates S.dim e x ∧ norm_sorted (pre ++ post)) ∧
    ∃ cs, candidates S = some cs ∧
      ∀ done todo, cs = done ++ todo →
        (reduce_all S.dim done S.Hilbert_Basis).Pairwise fun a b =>
          a.getD 0 0 ≤ b.getD 0 0 ∨ ∀ y ∈ todo, 2 * a.getD 0 0 ≤ y.getD 0 0 := by
  constructor
  · rcases reduce_call_cases S.dim hdim L x with ⟨_, c1⟩ | ⟨_, c1⟩ |
      ⟨_, pre, e, post, c1, c2, c3, _, _⟩
    · left; rw [c1]; exact hs
    · left; rw [c1]; exact norm_sorted_append L x hs hx
    · right
      exact ⟨pre, e, post, c1, c2, c3, norm_sorted_remove pre post e (c1 ▸ hs)⟩
  · obtain ⟨cs, h1, h2⟩ := candidates_set S hS
    refine ⟨cs, h1, ?_⟩
    intro done todo hsplit
    rw [hS.basis_empty]
    exact (reduce_prefix_inv S.dim cs h2 done todo hsplit).2.1

theorem C24_norm_order_witness :
    exSimplexSkew.Initialized ∧ 0 < exSimplexSkew.dim ∧ norm_sorted [[3, 0, 3], [4, 3, 1]] ∧
      (∀ e ∈ [[3, 0, 3], [4, 3, 1]], e.getD 0 (0 : Int) ≤ ([8, 6, 2] : List Int).getD 0 0) ∧
      (norm_sorted (reduce_and_insert_interior exSimplexSkew.dim [[3, 0, 3], [4, 3, 1]]
          [8, 6, 2]) ∨
        ∃ pre e post, [[3, 0, 3], [4, 3, 1]] = pre ++ e :: post ∧
          reduce_and_insert_interior exSimplexSkew.dim [[3, 0, 3], [4, 3, 1]] [8, 6, 2] =
            e :: (pre ++ post) ∧
          dominates exSimplexSkew.dim e [8, 6, 2] ∧ norm_sorted (pre ++ post)) :=
  ⟨exSimplexSkew_initialized, by decide, by decide, by decide,
    (C24_norm_order exSimplexSkew exSimplexSkew_initialized (by decide)
      [[3, 0, 3], [4, 3, 1]] [8, 6, 2] (by decide) (by decide)).1⟩

/-- C28 (reduction loses nothing): for `dim > 0` and candidates without repetition, passed
one after the other to `reduce_and_insert_interior` starting from the empty list, every
candidate `x` with non-zero norm is in the final list or the final list has a member `e`
with `e[i] <= x[i]` for `i = 1..dim` and `2*e[0] <= x[0]`; the list after any number of calls
is contained in the final list, whose members are candidates, and the final list has no
duplicate. -/
theorem C28_reduction_complete (dim : Nat) (hdim : 0 < dim) (cs : List (List Int))
    (hnd : cs.Nodup) :
    (∀ x ∈ cs, x.getD 0 0 ≠ 0 →
      x ∈ reduce_all dim cs [] ∨
        ∃ e ∈ reduce_all dim cs [], dominates dim e x ∧ 2 * e.getD 0 0 ≤ x.getD 0 0) ∧
    (∀ done todo, cs = done ++ todo →
      ∀ h ∈ reduce_all dim done [], h ∈ reduce_all dim cs []) ∧
    (∀ (HB : List (List Int)) (x : List Int),
      reduce_and_insert_interior dim HB x = HB ++ [x] ∨
        (reduce_and_insert_interior dim HB x).Perm HB) ∧
    (∀ h ∈ reduce_all dim cs [], h ∈ cs) ∧
    (reduce_all dim cs []).Nodup := by
  obtain ⟨_, a2, a3, a4⟩ := reduce_all_keeps dim hdim cs [] [] (by simpa using hnd)
    (by simp) (by simp) (by simp)
  refine ⟨fun x hx => a4 x (by simpa using hx), ?_, ?_, fun h hh => by simpa using a2 h hh, a3⟩
  · intro done todo hsplit h hh
    subst hsplit
    obtain ⟨b1, b2, b3, b4⟩ := reduce_all_keeps dim hdim done [] [] (by
      rw [List.nodup_append] at hnd; simpa using hnd.1) (by simp) (by simp) (by simp)
    obtain ⟨c1, _⟩ := reduce_all_keeps dim hdim todo done (reduce_all dim done []) hnd
      (fun h hh => by simpa using b2 h hh) b3 (fun y hy hy0 => b4 y (by simpa using hy) hy0)
    have e : reduce_all dim (done ++ todo) [] = reduce_all dim todo (reduce_all dim done []) := by
      simp [reduce_all, List.foldl_append]
    rw [e]
    exact c1 h hh
  · intro HB x
    rcases reduce_call_cases dim hdim HB x with ⟨_, c1⟩ | ⟨_, c1⟩ | ⟨_, pre, e, post, c1, c2, _⟩
    · right; rw [c1]
    · left; exact c1
    · right
      rw [c2, c1]
      exact (List.perm_middle).symm

theorem C28_reduction_complete_witness :
    0 < 2 ∧
      ([[3, 0, 3], [4, 3, 1], [6, 0, 6], [7, 3, 4], [8, 6, 2]] : List (List Int)).Nodup ∧
      reduce_all 2 [[3, 0, 3], [4, 3, 1], [6, 0, 6], [7, 3, 4], [8, 6, 2]] [] =
        [[4, 3, 1], [3, 0, 3]] ∧
      (reduce_all 2 [[3, 0, 3], [4, 3, 1], [6, 0, 6], [7, 3, 4], [8, 6, 2]] []).Nodup :=
  ⟨by decide, by decide, by decide,
    (C28_reduction_complete 2 (by decide)
      [[3, 0, 3], [4, 3, 1], [6, 0, 6], [7, 3, 4], [8, 6, 2]] (by decide)).2.2.2.2⟩

end Simplex

namespace Simplex

/-- C25 (odometer enumeration): for a diagonal of `dim` positive entries the enumeration
loop ends, whatever its body does, after it has processed the points `pts` in their order;
every processed point has `dim` coordinates with `0 <= point[i] <= diagonal[i]-1`; the
sequence is strictly increasing in the lexicographic order, so no point is processed twice;
and every point comes from the one before it (the first from the origin) by incrementing
the last coordinate below its bound and zeroing the coordinates to its right. -/
theorem C25_odometer (dim : Nat) (diagonal : List Int) (hlen : diagonal.length = dim)
    (hpos : ∀ d ∈ diagonal, 0 < d) :
    ∃ pts, box_points dim diagonal = some pts ∧
      (∀ (σ : Type) (body : List Int → σ → σ) (s : σ),
        box_loop dim diagonal body (box_fuel dim diagonal) (List.replicate dim 0) s =
          some (pts.foldl (fun s q => body q s) s)) ∧
      (∀ q ∈ pts, q.length = dim ∧
        ∀ i, i < dim → 0 ≤ q.getD i 0 ∧ q.getD i 0 ≤ diagonal.getD i 0 - 1) ∧
      pts.Pairwise (fun a b => vec_lt a b = true) ∧
      pts.Nodup ∧
      List.Chain (odometer_step dim diagonal) (List.replicate dim 0) pts := by
  obtain ⟨_, s2, _⟩ := successors_from_zero dim diagonal hlen hpos
  have hz := in_box_zero diagonal hpos
  rw [hlen] at hz
  have hinc := (successors_increasing diagonal (box_fuel dim diagonal)
    (List.replicate dim 0)).2
  refine ⟨_, box_points_eq dim diagonal hlen hpos,
    fun σ body s => box_loop_from_zero dim diagonal body hlen hpos s, ?_, hinc, ?_,
    successors_chain dim diagonal hlen _ _ hz⟩
  · intro q hq
    obtain ⟨hb, _⟩ := s2 q hq
    refine ⟨by rw [in_box_length diagonal q hb, hlen], fun i hi => ?_⟩
    exact in_box_getD diagonal q hb i (by omega)
  · refine hinc.imp ?_
    intro a b hab e
    rw [e, vec_lt_irrefl] at hab
    cases hab

theorem C25_odometer_witness :
    ([2, 3] : List Int).length = 2 ∧ (∀ d ∈ ([2, 3] : List Int), 0 < d) ∧
      box_points 2 [2, 3] = some [[0, 1], [0, 2], [1, 0], [1, 1], [1, 2]] ∧
      ∃ pts, box_points 2 [2, 3] = some pts ∧ pts.Pairwise (fun a b => vec_lt a b = true) := by
  refine ⟨by decide, by decide, by decide, ?_⟩
  obtain ⟨pts, h1, _, _, h4, _⟩ := C25_odometer 2 [2, 3] (by decide) (by decide)
  exact ⟨pts, h1, h4⟩

end Simplex

namespace Simplex

/-- C21 (status ordering): with a status other than "initialized" each of
`hilbert_basis_interior()`, `hilbert_basis_interior_h_vector(Form)`, `h_vector(Form)` and
`ht1_elements(Form)` ends at its assertion, the first statement, with the simplex as it
was; a call that returns was made with the status "initialized", and
`hilbert_basis_interior()` returns with the status "Hilbert Basis interior calculated.". -/
theorem C21_status_ordering (S : Simplex) (Form : List Int) :
    (S.status ≠ "initialized" →
      hilbert_basis_interior S = none ∧ hilbert_basis_interior_h_vector S Form = none ∧
      h_vector S Form = none ∧ ht1_elements S Form = none ∧
      run_initialized hilbert_basis_interior S = Run.asserted S ∧
      run_initialized (fun S => hilbert_basis_interior_h_vector S Form) S = Run.asserted S ∧
      run_initialized (fun S => h_vector S Form) S = Run.asserted S ∧
      run_initialized (fun S => ht1_elements S Form) S = Run.asserted S) ∧
    (∀ T, hilbert_basis_interior S = some T →
      S.status = "initialized" ∧ T.status = "Hilbert Basis interior calculated.") ∧
    (∀ T, hilbert_basis_interior_h_vector S Form = some T → S.status = "initialized") ∧
    (∀ T, h_vector S Form = some T → S.status = "initialized") ∧
    (∀ T, ht1_elements S Form = some T → S.status = "initialized") ∧
    (∀ (method : Simplex → Option Simplex) (T : Simplex),
      run_initialized method S = Run.asserted T → T = S ∧ S.status ≠ "initialized") := by
  refine ⟨?_, ?_, ?_, ?_, ?_, ?_⟩
  · intro h
    refine ⟨?_, ?_, ?_, ?_, ?_, ?_, ?_, ?_⟩
    · unfold hilbert_basis_interior; rw [if_pos h]
    · unfold hilbert_basis_interior_h_vector; rw [if_pos h]
    · unfold h_vector; rw [if_pos h]
    · unfold ht1_elements; rw [if_pos h]
    · unfold run_initialized; rw [if_pos h]
    · unfold run_initialized; rw [if_pos h]
    · unfold run_initialized; rw [if_pos h]
    · unfold run_initialized; rw [if_pos h]
  · intro T hT
    unfold hilbert_basis_interior at hT
    by_cases h : S.status ≠ "initialized"
    · rw [if_pos h] at hT; cases hT
    · rw [if_neg h] at hT
      refine ⟨by simpa using h, ?_⟩
      cases hr : reduction_phase S with
      | none => rw [hr] at hT; cases hT
      | some l =>
        rw [hr] at hT
        simp only [Option.some.injEq] at hT
        rw [← hT]
  · intro T hT
    unfold hilbert_basis_interior_h_vector at hT
    by_cases h : S.status ≠ "initialized"
    · rw [if_pos h] at hT; cases hT
    · simpa using h
  · intro T hT
    unfold h_vector at hT
    by_cases h : S.status ≠ "initialized"
    · rw [if_pos h] at hT; cases hT
    · simpa using h
  · intro T hT
    unfold ht1_elements at hT
    by_cases h : S.status ≠ "initialized"
    · rw [if_pos h] at hT; cases hT
    · simpa using h
  · intro method T hT
    unfold run_initialized at hT
    by_cases h : S.status ≠ "initialized"
    · rw [if_pos h] at hT
      exact ⟨(Run.asserted.inj hT).symm, h⟩
    · rw [if_neg h] at hT
      cases hm : method S with
      | none => rw [hm] at hT; cases hT
      | some U => rw [hm] at hT; cases hT

theorem C21_status_ordering_witness :
    (ofKeyOnly [1, 2]).status ≠ "initialized" ∧
      run_initialized hilbert_basis_interior (ofKeyOnly [1, 2]) = Run.asserted (ofKeyOnly [1, 2]) ∧
      (hilbert_basis_interior exSimplex).map (fun T => T.status) =
        some "Hilbert Basis interior calculated." ∧
      hilbert_basis_interior (ofKeyOnly [1, 2]) = none :=
  ⟨by decide, by decide, by decide,
    ((C21_status_ordering (ofKeyOnly [1, 2]) []).1 (by decide)).1⟩

end Simplex

namespace Sublattice_Representation

/-- C26 (composition keeps `c` minimal): in the general case of `compose(SR)`, neither
object flagged as identity, with `c * SR.c != 0`, the new `B` and the new `c` are the
products `B*SR.B` and `c*SR.c` divided exactly by `g`, the gcd of all entries of `B*SR.B`
and of `c*SR.c`, and the gcd of all entries of the new `B` and of the new `c` is `1`; the
same holds for `compose_dual(SR)` with the products `B*SR.A^T` and `c`, when `c != 0`. -/
theorem C26_compose_minimal (S SR T : Sublattice_Representation)
    (hS : S.is_identity = false) (hSR : SR.is_identity = false) :
    (S.compose SR = some T → S.c * SR.c ≠ 0 →
      T.B = (S.B.multiplication SR.B).scalar_division
        (gcd (S.B.multiplication SR.B).matrix_gcd (S.c * SR.c)) ∧
      T.c = (S.c * SR.c).tdiv (gcd (S.B.multiplication SR.B).matrix_gcd (S.c * SR.c)) ∧
      0 < gcd (S.B.multiplication SR.B).matrix_gcd (S.c * SR.c) ∧
      gcd (S.B.multiplication SR.B).matrix_gcd (S.c * SR.c) ∣ S.c * SR.c ∧
      (∀ i j, gcd (S.B.multiplication SR.B).matrix_gcd (S.c * SR.c) ∣
        (S.B.multiplication SR.B).get i j) ∧
      gcd T.B.matrix_gcd T.c = 1) ∧
    (S.compose_dual SR = some T → S.c ≠ 0 →
      T.B = (S.B.multiplication SR.A.transpose).scalar_division
        (gcd (S.B.multiplication SR.A.transpose).matrix_gcd S.c) ∧
      T.c = S.c.tdiv (gcd (S.B.multiplication SR.A.transpose).matrix_gcd S.c) ∧
      0 < gcd (S.B.multiplication SR.A.transpose).matrix_gcd S.c ∧
      gcd (S.B.multiplication SR.A.transpose).matrix_gcd S.c ∣ S.c ∧
      (∀ i j, gcd (S.B.multiplication SR.A.transpose).matrix_gcd S.c ∣
        (S.B.multiplication SR.A.transpose).get i j) ∧
      gcd T.B.matrix_gcd T.c = 1) := by
  have key : ∀ (M : Matrix) (c : Int), c ≠ 0 →
      (if gcd M.matrix_gcd c > 1 then M.scalar_division (gcd M.matrix_gcd c) else M) =
        M.scalar_division (gcd M.matrix_gcd c) ∧
      (if gcd M.matrix_gcd c > 1 then c.tdiv (gcd M.matrix_gcd c) else c) =
        c.tdiv (gcd M.matrix_gcd c) ∧
      0 < gcd M.matrix_gcd c ∧ gcd M.matrix_gcd c ∣ c ∧
      (∀ i j, gcd M.matrix_gcd c ∣ M.get i j) := by
    intro M c hc
    have hgc : gcd M.matrix_gcd c ∣ c := gcd_dvd_right _ _
    have hnonneg : 0 ≤ gcd M.matrix_gcd c := by unfold gcd; positivity
    have hg0 : gcd M.matrix_gcd c ≠ 0 := by
      intro h
      rw [h] at hgc
      exact hc (zero_dvd_iff.1 hgc)
    have hpos : 0 < gcd M.matrix_gcd c := lt_of_le_of_ne hnonneg (Ne.symm hg0)
    refine ⟨?_, ?_, hpos, hgc, fun i j => (gcd_dvd_left _ _).trans (matrix_gcd_dvd M i j)⟩
    · by_cases h : gcd M.matrix_gcd c > 1
      · rw [if_pos h]
      · rw [if_neg h]
        have : gcd M.matrix_gcd c = 1 := by omega
        rw [this, scalar_division_one]
    · by_cases h : gcd M.matrix_gcd c > 1
      · rw [if_pos h]
      · rw [if_neg h]
        have : gcd M.matrix_gcd c = 1 := by omega
        rw [this, Int.tdiv_one]
  constructor
  · intro h hc
    unfold compose at h
    by_cases h0 : S.rank ≠ SR.dim
    · rw [if_pos h0] at h; cases h
    rw [if_neg h0, if_neg (by simp [hSR]), if_neg (by simp [hS])] at h
    simp only [Option.some.injEq] at h
    obtain ⟨k1, k2, k3, k4, k5⟩ := key (S.B.multiplication SR.B) (S.c * SR.c) hc
    have hB : T.B = (S.B.multiplication SR.B).scalar_division
        (gcd (S.B.multiplication SR.B).matrix_gcd (S.c * SR.c)) := by
      rw [← h]; exact k1
    have hcT : T.c = (S.c * SR.c).tdiv (gcd (S.B.multiplication SR.B).matrix_gcd (S.c * SR.c)) := by
      rw [← h]; exact k2
    refine ⟨hB, hcT, k3, k4, k5, ?_⟩
    rw [hB, hcT]
    exact reduced_gcd_one _ _ hc
  · intro h hc
    unfold compose_dual at h
    by_cases h0 : S.rank ≠ SR.dim
    · rw [if_pos h0] at h; cases h
    by_cases h0' : SR.c ≠ 1
    · rw [if_neg h0, if_pos h0'] at h; cases h
    rw [if_neg h0, if_neg h0', if_neg (by simp [hSR]), if_neg (by simp [hS])] at h
    simp only [Option.some.injEq] at h
    obtain ⟨k1, k2, k3, k4, k5⟩ := key (S.B.multiplication SR.A.transpose) S.c hc
    have hB : T.B = (S.B.multiplication SR.A.transpose).scalar_division
        (gcd (S.B.multiplication SR.A.transpose).matrix_gcd S.c) := by
      rw [← h]; exact k1
    have hcT : T.c = S.c.tdiv (gcd (S.B.multiplication SR.A.transpose).matrix_gcd S.c) := by
      rw [← h]; exact k2
    refine ⟨hB, hcT, k3, k4, k5, ?_⟩
    rw [hB, hcT]
    exact reduced_gcd_one _ _ hc

theorem C26_compose_minimal_witness :
    exRepTwice.is_identity = false ∧ exRepSkew.is_identity = false ∧
      (exRepTwice.compose exRepSkew).isSome = true ∧ exRepTwice.c * exRepSkew.c ≠ 0 ∧
      (exRepTwice.compose exRepSkew).map (fun T => (T.B, T.c)) =
        some (⟨2, 2, [[3, -2], [0, 1]]⟩, 6) ∧
      gcd ((exRepTwice.compose exRepSkew).getD exRepTwice).B.matrix_gcd
        ((exRepTwice.compose exRepSkew).getD exRepTwice).c = 1 :=
  ⟨by decide, by decide, by decide, by decide, by decide,
    ((C26_compose_minimal exRepTwice exRepSkew ((exRepTwice.compose exRepSkew).getD exRepTwice)
      (by decide) (by decide)).1 (by decide) (by decide)).2.2.2.2.2⟩

/-- C29 (soundness of `is_identity`): every representation obtained from the constructor
`Sublattice_Representation(n)` or from a successful `initialize` by any sequence of calls
of `compose` and `compose_dual` that is flagged as identity has `rank = dim`, `c = 1` and
`A = B = I_dim`. -/
theorem C29_identity_flag_sound (S : Sublattice_Representation) (hS : Reachable S)
    (hid : S.is_identity = true) :
    S.rank = S.dim ∧ S.c = 1 ∧ S.A = Matrix.identity S.dim ∧ S.B = Matrix.identity S.dim := by
  induction hS with
  | ofDim n => exact ⟨rfl, rfl, rfl, rfl⟩
  | ofInitialise ops S0 M sat _ =>
    obtain ⟨a, b, c, d, e, _⟩ := (initialise_identity_iff ops S0 M sat).2 hid
    exact ⟨by rw [d, e], c, by rw [e]; exact a, by rw [e]; exact b⟩
  | compose S SR T _ hT ih =>
    unfold Sublattice_Representation.compose at hT
    by_cases h0 : S.rank ≠ SR.dim
    · rw [if_pos h0] at hT; cases hT
    rw [if_neg h0] at hT
    by_cases h1 : SR.is_identity = true
    · rw [if_pos h1] at hT
      simp only [Option.some.injEq] at hT
      subst hT
      exact ih hid
    rw [if_neg h1] at hT
    by_cases h2 : S.is_identity = true
    · rw [if_pos h2] at hT
      simp only [Option.some.injEq] at hT
      subst hT
      exact absurd hid h1
    rw [if_neg h2] at hT
    simp only [Option.some.injEq] at hT
    rw [← hT] at hid
    simp only [Bool.and_eq_true] at hid
    exact absurd hid.1 h2
  | compose_dual S SR T _ hT ih =>
    unfold Sublattice_Representation.compose_dual at hT
    by_cases h0 : S.rank ≠ SR.dim
    · rw [if_pos h0] at hT; cases hT
    rw [if_neg h0] at hT
    by_cases h0' : SR.c ≠ 1
    · rw [if_pos h0'] at hT; cases hT
    rw [if_neg h0'] at hT
    by_cases h1 : SR.is_identity = true
    · rw [if_pos h1] at hT
      simp only [Option.some.injEq] at hT
      subst hT
      exact ih hid
    rw [if_neg h1] at hT
    by_cases h2 : S.is_identity = true
    · rw [if_pos h2] at hT
      simp only [Option.some.injEq] at hT
      rw [← hT] at hid
      cases hid
    rw [if_neg h2] at hT
    simp only [Option.some.injEq] at hT
    rw [← hT] at hid
    simp only [Bool.and_eq_true] at hid
    exact absurd hid.1 h2

theorem C29_identity_flag_sound_witness :
    Reachable (initialise exOps (identityRep 0) ⟨2, 2, [[2, 0], [0, 2]]⟩ true).1 ∧
      (initialise exOps (identityRep 0) ⟨2, 2, [[2, 0], [0, 2]]⟩ true).1.is_identity = true ∧
      (initialise exOps (identityRep 0) ⟨2, 2, [[2, 0], [0, 2]]⟩ true).1.c = 1 :=
  ⟨Reachable.ofInitialise exOps (identityRep 0) ⟨2, 2, [[2, 0], [0, 2]]⟩ true (by decide),
    by decide,
    (C29_identity_flag_sound _
      (Reachable.ofInitialise exOps (identityRep 0) ⟨2, 2, [[2, 0], [0, 2]]⟩ true (by decide))
      (by decide)).2.1⟩

end Sublattice_Representation

namespace Simplex

/-- C27 (histogram index safety): for an initialized simplex whose box points are one per
residue class, with well formed generators on each of which `Form` is `1`, a `New_Face`
with entries in `1..dim` and an `H_Vector` of `dim` entries, every enumerated point gives an
index `h = facet count - form value` with `0 <= h <= dim-1` (even `1 <= h`), and
`h_vector(Form)` returns: the increment `H_Vector[h]++` stays inside `H_Vector`. -/
theorem C27_histogram_index_safe (S : Simplex) (Form : List Int) (hS : S.Initialized)
    (hU : S.OnePerClass) (hG : S.Generators.wf = true)
    (hForm : ∀ k, k < S.dim → v_scalar_product (S.Generators.row k) Form = 1)
    (hNF : ∀ nf ∈ S.New_Face, 1 ≤ nf ∧ nf ≤ (S.dim : Int))
    (hHV : S.H_Vector.length = S.dim) :
    ∃ pts, box_points S.dim S.diagonal = some pts ∧
      (∀ p ∈ pts, ∃ h : Int, h_index S Form p = some h ∧ 0 ≤ h ∧ 1 ≤ h ∧
        h ≤ (S.dim : Int) - 1 ∧ h < S.H_Vector.length) ∧
      ∃ T, h_vector S Form = some T := by
  obtain ⟨_, s2, _⟩ := successors_from_zero S.dim S.diagonal hS.diagonal_length hS.diagonal_pos
  have hidx : ∀ p ∈ successors S.diagonal (box_fuel S.dim S.diagonal) (List.replicate S.dim 0),
      ∃ h : Int, h_index S Form p = some h ∧ 0 ≤ h ∧ 1 ≤ h ∧
        h ≤ (S.dim : Int) - 1 ∧ h < S.H_Vector.length := by
    intro p hp
    obtain ⟨a, b⟩ := s2 p hp
    obtain ⟨h, h1, h2, h3⟩ := h_index_bounds S hS hU hG Form hForm hNF p a b
    exact ⟨h, h1, by omega, h2, h3, by rw [hHV]; omega⟩
  refine ⟨_, box_points_eq S.dim S.diagonal hS.diagonal_length hS.diagonal_pos, hidx, ?_⟩
  obtain ⟨st, hst⟩ := h_fold_total S Form _ S.Homogeneous_Elements S.H_Vector
    (fun p hp => by
      obtain ⟨h, h1, h2, _, _, h5⟩ := hidx p hp
      exact ⟨h, h1, h2, h5⟩)
  unfold h_vector
  rw [if_neg (by simp [hS.status]),
    box_loop_from_zero S.dim S.diagonal _ hS.diagonal_length hS.diagonal_pos, hst]
  exact ⟨_, rfl⟩

theorem exSimplexUnit_initialized : exSimplexUnit.Initialized where
  status := by decide
  basis_empty := by decide
  volume_pos := by decide
  diagonal_length := by decide
  diagonal_pos := by decide
  generators_nr := by decide
  generators_nc := by decide
  support_nr := by decide
  support_nc := by decide
  inverse := Or.inl (by decide)
  residues := by
    intro p hp
    have hdim : exSimplexUnit.dim = 2 := by decide
    rw [hdim] at hp
    match p, hp with
    | [a, b], _ =>
      refine ⟨[0, b % 2], [a - b / 2, b / 2], ?_, by rw [hdim]; rfl, ?_⟩
      · have hd : exSimplexUnit.diagonal = [1, 2] := by decide
        rw [hd]
        simp only [in_box, and_true]
        omega
      · have hG : exSimplexUnit.Generators = ⟨2, 2, [[1, 0], [1, 2]]⟩ := by decide
        rw [hG]
        simp [v_sub, Matrix.VxM, rsum, Matrix.get, List.range_succ]
        omega

theorem exSimplexUnit_one_per_class : exSimplexUnit.OnePerClass := by
  intro p q hp hq hz
  have hd : exSimplexUnit.diagonal = [1, 2] := by decide
  have hG : exSimplexUnit.Generators = ⟨2, 2, [[1, 0], [1, 2]]⟩ := by decide
  have hdim : exSimplexUnit.dim = 2 := by decide
  rw [hd] at hp hq
  obtain ⟨z, hzl, hz⟩ := hz
  rw [hG] at hz
  rw [hdim] at hzl
  match p, q, z, hp, hq, hzl, hz with
  | [a, b], [c, d], [z1, z2], hp, hq, _, hz =>
    simp only [in_box, and_true] at hp hq
    simp [v_sub, Matrix.VxM, rsum, Matrix.get, List.range_succ] at hz
    have h1 : a = c := by omega
    have h2 : b = d := by omega
    rw [h1, h2]

theorem C27_histogram_index_safe_witness :
    exSimplexUnit.Initialized ∧ exSimplexUnit.OnePerClass ∧
      exSimplexUnit.Generators.wf = true ∧
      (∀ k, k < exSimplexUnit.dim →
        v_scalar_product (exSimplexUnit.Generators.row k) [1, 0] = 1) ∧
      box_points exSimplexUnit.dim exSimplexUnit.diagonal = some [[0, 1]] ∧
      h_index exSimplexUnit [1, 0] [0, 1] = some 1 ∧
      ∃ pts, box_points exSimplexUnit.dim exSimplexUnit.diagonal = some pts ∧
        ∃ T, h_vector exSimplexUnit [1, 0] = some T := by
  refine ⟨exSimplexUnit_initialized, exSimplexUnit_one_per_class, by decide, by decide,
    by decide, by decide, ?_⟩
  obtain ⟨pts, h1, _, h3⟩ := C27_histogram_index_safe exSimplexUnit [1, 0]
    exSimplexUnit_initialized exSimplexUnit_one_per_class (by decide) (by decide)
    (by decide) (by decide)
  exact ⟨pts, h1, h3⟩

end Simplex

namespace Simplex

/-- C30 (re-indexing of `New_Face`), the code at the failing input: for the key `(2,1)` of
two distinct positive indices and the `New_Face` `(2)`, whose entry has the position `1` in
the key, the loop first writes `1` and then, comparing the new value with `key[1] = 1`,
writes `2`; `h_vector(Map, Form)` runs with `New_Face = (2)`. -/
theorem C30_remap_unsorted_key :
    ([2, 1] : List Int).Nodup ∧ (∀ k ∈ ([2, 1] : List Int), 0 < k) ∧
    (∀ nf ∈ ([2] : List Int), nf ∈ ([2, 1] : List Int)) ∧
    key_position [2, 1] 2 = 1 ∧
    remap_new_face 2 [2, 1] [2] = [2] ∧
    (h_vector_Map exInvert ((ofKeyOnly [2, 1]).write_new_face [2]) ⟨2, 2, [[0, 3], [2, 0]]⟩
      [1, 0]).map (fun T => T.New_Face) = some [2] := by
  decide

end Simplex

namespace Simplex

/-- C31 (`hilbert_basis_interior(Map)` once the basis exists): called with the status
`"Hilbert Basis interior calculated."` the method returns the simplex with every field as it
was, for every `Map` (the status differs from the string `"hilbert basis calculated"` of the
guard and from the three strings compared inside, so no statement is executed); called with
the status `"initialized"` it ends exactly as `hilbert_basis_interior()` does, and for an
initialized simplex both return the same simplex, on which a further call changes nothing;
and whatever simplex a call returns, a second call returns it unchanged. -/
theorem C31_hilbert_basis_interior_Map_idempotent (Invert : Matrix → Matrix × List Int × Int)
    (S : Simplex) (Map : Matrix) :
    (S.status = "Hilbert Basis interior calculated." →
      S.status ≠ "hilbert basis calculated" ∧
      hilbert_basis_interior_Map Invert S Map = some S) ∧
    (S.status = "initialized" →
      hilbert_basis_interior_Map Invert S Map = hilbert_basis_interior S) ∧
    (S.Initialized → ∃ T, hilbert_basis_interior S = some T ∧
      hilbert_basis_interior_Map Invert S Map = some T ∧
      T.status = "Hilbert Basis interior calculated." ∧
      ∀ Invert2 Map2, hilbert_basis_interior_Map Invert2 T Map2 = some T) ∧
    (∀ T, hilbert_basis_interior_Map Invert S Map = some T →
      ∀ Invert2 Map2, hilbert_basis_interior_Map Invert2 T Map2 = some T) := by
  refine ⟨fun h => ⟨by rw [h]; decide, hilbert_basis_interior_Map_computed Invert S Map h⟩,
    hilbert_basis_interior_Map_initialized Invert S Map, ?_, ?_⟩
  · intro hS
    obtain ⟨T, hT⟩ := hilbert_basis_interior_returns S hS
    have hst := hilbert_basis_interior_status S T hT
    exact ⟨T, hT, by rw [hilbert_basis_interior_Map_initialized Invert S Map hS.status, hT],
      hst, fun Invert2 Map2 => hilbert_basis_interior_Map_computed Invert2 T Map2 hst⟩
  · intro T hT Invert2 Map2
    by_cases h1 : S.status = "initialized"
    · rw [hilbert_basis_interior_Map_initialized Invert S Map h1] at hT
      exact hilbert_basis_interior_Map_computed Invert2 T Map2
        (hilbert_basis_interior_status S T hT)
    · by_cases h2 : S.status = "key initialized"
      · unfold hilbert_basis_interior_Map at hT
        rw [if_pos (by rw [h2]; decide), if_neg (by rw [h2]; decide), if_neg h1, if_pos h2]
          at hT
        exact hilbert_basis_interior_Map_computed Invert2 T Map2
          (hilbert_basis_interior_status _ T hT)
      · by_cases h3 : S.status = "non initialized"
        · unfold hilbert_basis_interior_Map at hT
          rw [if_pos (by rw [h3]; decide), if_pos h3] at hT
          exact Option.noConfusion hT
        · have hS := hilbert_basis_interior_Map_fall_through Invert S Map h3 h1 h2
          rw [hS] at hT
          have e : S = T := Option.some.inj hT
          rw [← e]
          exact hilbert_basis_interior_Map_fall_through Invert2 S Map2 h3 h1 h2

theorem C31_hilbert_basis_interior_Map_idempotent_witness :
    exSimplex.status = "initialized" ∧
      hilbert_basis_interior_Map exInvert exSimplex ⟨2, 2, [[5, 7], [1, 1]]⟩ =
        hilbert_basis_interior exSimplex ∧
      (hilbert_basis_interior exSimplex).map (fun T => (T.status, T.Hilbert_Basis)) =
        some ("Hilbert Basis interior calculated.", [[0, 1], [1, 0]]) ∧
      (hilbert_basis_interior exSimplex).bind
          (fun T => hilbert_basis_interior_Map exInvert T ⟨2, 2, [[5, 7], [1, 1]]⟩) =
        hilbert_basis_interior exSimplex :=
  ⟨by decide,
    (C31_hilbert_basis_interior_Map_idempotent exInvert exSimplex ⟨2, 2, [[5, 7], [1, 1]]⟩).2.1
      (by decide),
    by decide, by decide⟩

end Simplex

end libnormaliz
